import Mathlib

/-!
The world decoder and the isometric traversal of mcmap.

A shallow embedding of `src/worldloader.cpp` and of the argument parsing,
the canvas and the render loop of `src/main.cpp`, followed by theorems about
block decoding, section normalisation, chunk and region addressing, height
records, argument validation and the draw order.

Conventions of the embedding:

* `uint8_t`, `uint64_t` and `size_t` values are natural numbers, reduced
  modulo `2^8` or `2^64` wherever the C++ code can wrap;
* `int8_t`, `int32_t` and `int64_t` values are integers, with `toI8`, `toI32`
  and `toI64` giving the two's complement reading of a bit pattern;
* an operation whose C++ behaviour is undefined (a read outside a vector,
  the extraction of a value of the wrong tag type) yields `none`.
-/

namespace Mcmap

/-! ## Machine integers -/

/-- Conversion of a signed value to `uint64_t`: reduction modulo `2^64`. -/
def toU64 (w : Int) : Nat := (w % 2 ^ 64).toNat

/-- Two's complement reading of a 64-bit pattern as an `int64_t`. -/
def toI64 (n : Nat) : Int :=
  if n % 2 ^ 64 < 2 ^ 63 then ((n % 2 ^ 64 : Nat) : Int)
  else ((n % 2 ^ 64 : Nat) : Int) - 2 ^ 64

/-- Conversion to `uint8_t`: reduction modulo `2^8`. -/
def toU8 (w : Int) : Nat := (w % 2 ^ 8).toNat

/-- Two's complement reading of an 8-bit pattern as an `int8_t`. -/
def toI8 (w : Int) : Int :=
  if w % 2 ^ 8 < 2 ^ 7 then w % 2 ^ 8 else w % 2 ^ 8 - 2 ^ 8

/-- Two's complement reading of a 32-bit pattern as an `int32_t`. -/
def toI32 (w : Int) : Int :=
  if w % 2 ^ 32 < 2 ^ 31 then w % 2 ^ 32 else w % 2 ^ 32 - 2 ^ 32

/-- Bitwise `&` of two `int64_t` values, computed on their two's complement
bit patterns. -/
def andI64 (a b : Int) : Int := toI64 (toU64 a &&& toU64 b)

/-! ## NBT values -/

/-- Modelled from the spec: the NBT value type of the `nbt` header, which is
not part of the sources at hand. Only the variants the world loader touches
are kept: the end sentinel, bytes, strings, lists, compounds (ordered maps
from names to values) and long arrays. -/
inductive NBT where
  | tag_end : NBT
  | tag_byte (v : Int) : NBT
  | tag_string (s : String) : NBT
  | tag_list (l : List NBT) : NBT
  | tag_compound (m : List (String × NBT)) : NBT
  | tag_long_array (v : List Int) : NBT

namespace NBT

/-- Discriminant query `is_end`. -/
def is_end : NBT → Bool
  | tag_end => true
  | _ => false

/-- Discriminant query `is_compound`. -/
def is_compound : NBT → Bool
  | tag_compound _ => true
  | _ => false

/-- Lookup of a name in the entries of a compound. -/
def lookup (key : String) : List (String × NBT) → Option NBT
  | [] => none
  | (k, v) :: rest => if k = key then some v else lookup key rest

/-- Compound accessor `contains(name)`. -/
def contains (t : NBT) (key : String) : Bool :=
  match t with
  | tag_compound m => (lookup key m).isSome
  | _ => false

/-- Modelled from the spec: `child(name)`, the read access `operator[]` with a
name, which returns the end sentinel when the child is absent. -/
def child (t : NBT) (key : String) : NBT :=
  match t with
  | tag_compound m => (lookup key m).getD tag_end
  | _ => tag_end

/-- Replacement or insertion of an entry in the entries of a compound. -/
def insertEntry (key : String) (val : NBT) : List (String × NBT) → List (String × NBT)
  | [] => [(key, val)]
  | (k, v) :: rest => if k = key then (k, val) :: rest else (k, v) :: insertEntry key val rest

/-- Modelled from the spec: the write access `operator[](name) = value`. On a
compound the child is replaced or added; a value that is not a compound
becomes a compound holding only the child written. -/
def setChild (t : NBT) (key : String) (val : NBT) : NBT :=
  match t with
  | tag_compound m => tag_compound (insertEntry key val m)
  | _ => tag_compound [(key, val)]

/-- Modelled from the spec: `size()`, the number of elements of a list, a
long array or a compound, and zero for every other value. -/
def size : NBT → Nat
  | tag_list l => l.length
  | tag_long_array v => v.length
  | tag_compound m => m.length
  | _ => 0

/-- Typed extraction `get<int8_t *>` followed by the dereference. -/
def as_i8 : NBT → Option Int
  | tag_byte v => some v
  | _ => none

/-- Typed extraction `get<const vector<int64_t> *>` followed by the
dereference. -/
def as_long_array : NBT → Option (List Int)
  | tag_long_array v => some v
  | _ => none

/-- Typed extraction `get<vector<NBT> *>` followed by the dereference. -/
def as_list : NBT → Option (List NBT)
  | tag_list l => some l
  | _ => none

/-- Typed extraction `get<string *>` followed by the dereference. -/
def as_string : NBT → Option String
  | tag_string s => some s
  | _ => none

/-- Read access `operator[]` with a position, on a list. -/
def elemAt (t : NBT) (i : Nat) : Option NBT :=
  match t with
  | tag_list l => l[i]?
  | _ => none

end NBT

/-- The shared sentinel `air`, an NBT value of type `tag_end`. -/
def air : NBT := NBT.tag_end

/-! ## Section kinds -/

/-- Enumerator `renderTypes::SKIP`. -/
def SKIP : Int := 0

/-- Enumerator `renderTypes::PRE116`. -/
def PRE116 : Int := 1

/-- Enumerator `renderTypes::POST116`. -/
def POST116 : Int := 2

/-! ## Block index size -/

/-- Search for the least `k` with `n ≤ 2^k`, starting at `k`. -/
def ceilLog2From (n : Nat) : Nat → Nat → Nat
  | 0, k => k
  | fuel + 1, k => if n ≤ 2 ^ k then k else ceilLog2From n fuel (k + 1)

/-- The value of `(uint64_t)ceil(log2(n))` for `n ≥ 1`: the least `k` with
`n ≤ 2^k`. The C++ expression is undefined for `n = 0`. -/
def ceilLog2 (n : Nat) : Nat := ceilLog2From n n 0

/-- Block index size `std::max((uint64_t)ceil(log2(size)), 4ul)`, in bits. -/
def blockLength (paletteSize : Nat) : Nat := max (ceilLog2 paletteSize) 4

/-! ## Block decoders -/

/-- Cell index `(x & 0x0f) + ((z & 0x0f) + (y & 0x0f) * 16) * 16`. -/
def cellIndex (x z y : Nat) : Nat :=
  (x &&& 0x0f) + ((z &&& 0x0f) + (y &&& 0x0f) * 16) * 16

/-- Decoder `blockAtEmpty`. -/
def blockAtEmpty (_sec : NBT) (_x _z _y : Nat) : Option NBT := some air

/-- Decoder `blockAtPost116`. The element of `BlockStates` is an `int64_t`,
so `>>` is the arithmetic shift and `&` acts on signed operands; the result
is converted to `uint64_t`. -/
def blockAtPost116 (sec : NBT) (x z y : Nat) : Option NBT :=
  match (sec.child "BlockStates").as_long_array with
  | none => none
  | some blockStates =>
    let index := cellIndex x z y
    let length := blockLength (sec.child "Palette").size
    let blocksPerLong := (64 / length) % 256
    if blocksPerLong = 0 then none
    else
      let longIndex := index / blocksPerLong
      let padding := (index - longIndex * blocksPerLong) * length
      match blockStates[longIndex]? with
      | none => none
      | some w =>
        let blockIndex := toU64 (andI64 (w >>> padding) (((1 <<< length : Nat) : Int) - 1))
        (sec.child "Palette").elemAt blockIndex

/-- Decoder `blockAtPre116`. The mask is a `uint64_t`, so the element of
`BlockStates` is converted to `uint64_t` before the first `&`; the second
`&` acts on signed operands and its result is converted to `uint64_t`. -/
def blockAtPre116 (sec : NBT) (x z y : Nat) : Option NBT :=
  match (sec.child "BlockStates").as_long_array with
  | none => none
  | some blockStates =>
    let index := cellIndex x z y
    let length := blockLength (sec.child "Palette").size
    let skip_longs := (index * length) >>> 6
    let padding := (index * length) &&& 63
    let mask := (((1 <<< length) - 1) <<< padding) % 2 ^ 64
    match blockStates[skip_longs]? with
    | none => none
    | some w =>
      let lower_data := (toU64 w &&& mask) >>> padding
      let overflow : Int := (padding : Int) + (length : Int) - 64
      if 0 < overflow then
        match blockStates[skip_longs + 1]? with
        | none => none
        | some w1 =>
          let upper_data := toU64 (andI64 w1 (((1 <<< overflow.toNat : Nat) : Int) - 1))
          (sec.child "Palette").elemAt
            (lower_data ||| ((upper_data <<< (length - overflow.toNat)) % 2 ^ 64))
      else (sec.child "Palette").elemAt lower_data

/-! ## Section tagging -/

/-- Body of the loop of `Terrain::Data::tagSections`: the section with its
`_type` child written. The `BlockStates` length is compared with
`uint64_t(ceil(length * 64l))`, the product being taken in `uint64_t`. -/
def tagSection (sec : NBT) : NBT :=
  if !sec.is_compound || !sec.contains "Palette" then
    sec.setChild "_type" (NBT.tag_byte SKIP)
  else
    let length := blockLength (sec.child "Palette").size
    if (sec.child "BlockStates").size = (length * 64) % 2 ^ 64 then
      sec.setChild "_type" (NBT.tag_byte PRE116)
    else
      sec.setChild "_type" (NBT.tag_byte POST116)

/-- Routine `Terrain::Data::tagSections`: every section of the vector is
tagged in place. -/
def tagSections (sections : List NBT) : List NBT := sections.map tagSection

/-! ## Hole inflation -/

/-- Inner loop `while (diff--)` of `inflateChunk`: `diff` end sentinels are
inserted after position `it`, which follows the inserted element, and the
`int8_t` index is incremented each time. -/
def insertGap : Nat → List NBT → Nat → Int → List NBT × Nat × Int
  | 0, sections, it, index => (sections, it, index)
  | diff + 1, sections, it, index =>
    insertGap diff (sections.insertIdx (it + 1) NBT.tag_end) (it + 1) (toI8 (index + 1))

/-- Outer loop `while (it != end && next != end)` of `inflateChunk`, `next`
being `it + 1` at each test. The first argument bounds the number of tests;
`inflateChunk` passes the length of the input, which the loop never
exceeds. -/
def inflateLoop : Nat → List NBT → Nat → Int → Option (List NBT)
  | 0, _, _, _ => none
  | fuel + 1, sections, it, index =>
    if it ≠ sections.length ∧ it + 1 ≠ sections.length then
      match sections[it + 1]? with
      | none => none
      | some next =>
        match (next.child "Y").as_i8 with
        | none => none
        | some yNext =>
          let diff := toU8 (yNext - index - 1)
          let (sections1, it1, index1) := insertGap diff sections it index
          inflateLoop fuel sections1 (it1 + 1) (toI8 (index1 + 1))
    else some sections

/-- Routine `Terrain::Data::inflateChunk`. The result is `none` where the C++
code has no defined behaviour: an empty vector, a section without a byte
child `Y`, a negative first index. -/
def inflateChunk (sections : List NBT) : Option (List NBT) :=
  match sections.head? with
  | none => none
  | some front =>
    match (front.child "Y").as_i8 with
    | none => none
    | some index =>
      if index < 0 then none
      else
        inflateLoop sections.length
          (List.replicate index.toNat NBT.tag_end ++ sections) index.toNat index

/-! ## Terrain store -/

/-- Modelled from the spec: the rectangle `Terrain::Coordinates` of the
missing header, four signed 32-bit bounds, both ends inclusive. -/
structure Coordinates where
  minX : Int
  maxX : Int
  minZ : Int
  maxZ : Int

/-- Modelled from the spec: the members of `Terrain::Data` the loader writes.
`chunks` and `heightMap` are arrays with one slot per chunk of the
rectangle. -/
structure Data where
  map : Coordinates
  chunks : List NBT
  heightMap : List Nat
  heightBounds : Nat
  cache : List String

/-- Modelled from the spec: the macro `CHUNK` of the missing header, the
arithmetic shift `block >> 4`. -/
def CHUNK (x : Int) : Int := x >>> 4

/-- Function `Terrain::Data::chunkIndex`. The width `maxX - minX + 1` is an
`int32_t` expression, the rest is computed in `int64_t` and the result is
converted to `size_t`. -/
def chunkIndex (map : Coordinates) (x z : Int) : Nat :=
  toU64 ((x - map.minX) + (z - map.minZ) * toI32 (map.maxX - map.minX + 1))

/-- The table `getBlock` of the three decoders, read at a signed position. -/
def getBlock (ty : Int) : Option (NBT → Nat → Nat → Nat → Option NBT) :=
  if ty = 0 then some blockAtEmpty
  else if ty = 1 then some blockAtPre116
  else if ty = 2 then some blockAtPost116
  else none

/-- Function `Terrain::Data::block`. The coordinates are narrowed to
`uint8_t` when they are passed to a decoder. -/
def block (t : Data) (x z y : Int) : Option NBT :=
  let index := chunkIndex t.map (CHUNK x) (CHUNK z)
  match t.chunks[index]? with
  | none => none
  | some chunk =>
    match chunk.elemAt (toU64 (y >>> 4)) with
    | none => none
    | some sec =>
      if !sec.is_end && sec.contains "_type" then
        match (sec.child "_type").as_i8 with
        | none => none
        | some ty =>
          match getBlock ty with
          | none => none
          | some decoder => decoder sec (toU8 x) (toU8 z) (toU8 y)
      else some air

/-- Function `Terrain::Data::maxHeight()`. -/
def maxHeight (t : Data) : Nat := t.heightBounds &&& 0xf0

/-- Function `Terrain::Data::maxHeight(x, z)`. -/
def maxHeightAt (t : Data) (x z : Int) : Option Nat :=
  match t.heightMap[chunkIndex t.map (CHUNK x) (CHUNK z)]? with
  | none => none
  | some h => some (h &&& 0xf0)

/-- Function `Terrain::Data::minHeight()`. -/
def minHeight (t : Data) : Nat := ((t.heightBounds &&& 0x0f) <<< 4) % 2 ^ 8

/-- Function `Terrain::Data::minHeight(x, z)`. -/
def minHeightAt (t : Data) (x z : Int) : Option Nat :=
  match t.heightMap[chunkIndex t.map (CHUNK x) (CHUNK z)]? with
  | none => none
  | some h => some (((h &&& 0x0f) <<< 4) % 2 ^ 8)

/-! ## Chunk decoding -/

/-- Removal of the first section when its `Y` is `-1`. -/
def dropMinusOne (sections : List NBT) : Option (List NBT) :=
  match sections with
  | [] => some []
  | front :: rest =>
    match (front.child "Y").as_i8 with
    | none => none
    | some y => if y = -1 then some rest else some (front :: rest)

/-- Loop `while (!empty && !back.contains("Palette")) pop_back()`, on the
reversed vector. -/
def popEmptyTopRev : List NBT → List NBT
  | [] => []
  | back :: rest => if back.contains "Palette" then back :: rest else popEmptyTopRev rest

/-- Removal of the trailing sections that have no `Palette`. -/
def popEmptyTop (sections : List NBT) : List NBT :=
  (popEmptyTopRev sections.reverse).reverse

/-- Insertion of a name in the cache, an existing name being kept. -/
def cacheInsert (cache : List String) (name : String) : List String :=
  if name ∈ cache then cache else cache ++ [name]

/-- Insertion of the names of the blocks of one palette in the cache. -/
def cachePalette : List NBT → List String → Option (List String)
  | [], cache => some cache
  | blk :: rest, cache =>
    match (blk.child "Name").as_string with
    | none => none
    | some name => cachePalette rest (cacheInsert cache name)

/-- Loop completing the cache with the palettes of the sections. -/
def cacheSections : List NBT → List String → Option (List String)
  | [], cache => some cache
  | sec :: rest, cache =>
    if sec.is_end || !sec.contains "Palette" then cacheSections rest cache
    else
      match (sec.child "Palette").as_list with
      | none => none
      | some blocks =>
        match cachePalette blocks cache with
        | none => none
        | some cache1 => cacheSections rest cache1

/-- Height analysis of `loadChunk`: the byte for `heightMap` and the new
`heightBounds`. -/
def recordHeights (sections : List NBT) (heightBounds : Nat) : Option (Nat × Nat) :=
  match sections.head?, sections.getLast? with
  | some front, some back =>
    match (front.child "Y").as_i8, (back.child "Y").as_i8 with
    | some yFirst, some yLast =>
      let chunkMin := toU8 yFirst
      let chunkHeight := toU8 ((yLast + 1) * 2 ^ 4)
      some (chunkHeight ||| chunkMin,
        if chunkHeight > (heightBounds &&& 0xf0) then chunkHeight ||| (heightBounds &&& 0x0f)
        else heightBounds)
    | _, _ => none
  | _, _ => some (0, heightBounds)

/-- Routine `Terrain::Data::loadChunk` from the point where the tree has been
parsed: `sections` is the content of `Level.Sections`. Reading, inflating and
parsing the bytes of the region file are not modelled. -/
def loadChunk (t : Data) (chunkX chunkZ : Int) (sections : List NBT) : Option Data :=
  let chunkPos := chunkIndex t.map chunkX chunkZ
  if chunkPos < t.chunks.length ∧ chunkPos < t.heightMap.length then
    match dropMinusOne sections with
    | none => none
    | some sections1 =>
      let sections2 := popEmptyTop sections1
      match cacheSections sections2 t.cache with
      | none => none
      | some cache1 =>
        match recordHeights sections2 t.heightBounds with
        | none => none
        | some (height, bounds) =>
          match inflateChunk (tagSections sections2) with
          | none => none
          | some sections3 =>
            some { map := t.map, chunks := t.chunks.set chunkPos (NBT.tag_list sections3),
                   heightMap := t.heightMap.set chunkPos height, heightBounds := bounds,
                   cache := cache1 }
  else none

/-! ## Encoders of the two `BlockStates` layouts -/

/-- Little-endian packing of a list of fields of `bits` bits each. -/
def packBits (bits : Nat) : List Nat → Nat
  | [] => 0
  | a :: rest => a + 2 ^ bits * packBits bits rest


/-- Value of cell `i` of a section, cells past the 4096 of the lattice being
empty. -/
def cellValue (v : Nat → Nat) (i : Nat) : Nat := if i < 4096 then v i else 0


/-- Long `j` of the word-aligned layout, as a bit pattern: it holds the cells
`j * bpl + k`, `k < bpl = 64 / bits`, cell `k` at bit offset `k * bits`. -/
def wordPost116 (bits : Nat) (v : Nat → Nat) (j : Nat) : Nat :=
  packBits bits ((List.range (64 / bits)).map (fun k => cellValue v (j * (64 / bits) + k)))


/-- The word-aligned (post-1.16) `BlockStates` array of a cell assignment. -/
def encodePost116 (bits : Nat) (v : Nat → Nat) : List Int :=
  (List.range ((4096 + 64 / bits - 1) / (64 / bits))).map
    (fun j => toI64 (wordPost116 bits v j))


/-- The bit stream of the dense layout: cell `i` occupies the bits
`[i * bits, (i + 1) * bits)`. -/
def streamPre116 (bits : Nat) (v : Nat → Nat) : Nat :=
  packBits bits ((List.range 4096).map v)

/-- The dense (pre-1.16) `BlockStates` array of a cell assignment: `64 * bits`
longs, long `j` being the bits `[64 * j, 64 * j + 64)` of the stream. -/
def encodePre116 (bits : Nat) (v : Nat → Nat) : List Int :=
  (List.range (64 * bits)).map
    (fun j => toI64 ((streamPre116 bits v / 2 ^ (64 * j)) % 2 ^ 64))

/-! ## Sample inputs -/

/-- A palette entry with the block name `name`. -/
def paletteEntry (name : String) : NBT :=
  NBT.tag_compound [("Name", NBT.tag_string name)]

/-- A palette of seventeen shades, which needs five bits for an index. -/
def samplePalette17 : List NBT :=
  (List.range 17).map
    (fun i => NBT.tag_compound [("Name", NBT.tag_string "minecraft:wool"),
      ("Shade", NBT.tag_byte i)])

/-- A cell assignment over `samplePalette17`. -/
def sampleCells17 (i : Nat) : Nat := i % 17

/-- A palette of two blocks, which needs four bits for an index. -/
def samplePalette2 : List NBT :=
  [paletteEntry "minecraft:air", paletteEntry "minecraft:stone"]

/-- A cell assignment over `samplePalette2`. -/
def sampleCells2 (i : Nat) : Nat := i % 2

/-- A section at height `y` with the given palette and block states. -/
def sampleSection (y : Int) (palette : List NBT) (blockStates : List Int) : NBT :=
  NBT.tag_compound [("Y", NBT.tag_byte y), ("Palette", NBT.tag_list palette),
    ("BlockStates", NBT.tag_long_array blockStates)]

/-- The word-aligned section of `sampleCells17`. -/
def samplePost17 : NBT :=
  sampleSection 0 samplePalette17
    (encodePost116 (blockLength samplePalette17.length) sampleCells17)

/-- The dense section of `sampleCells17`. -/
def samplePre17 : NBT :=
  sampleSection 0 samplePalette17
    (encodePre116 (blockLength samplePalette17.length) sampleCells17)

/-- The word-aligned section of `sampleCells2`. -/
def samplePost2 : NBT :=
  sampleSection 0 samplePalette2
    (encodePost116 (blockLength samplePalette2.length) sampleCells2)

/-- The dense section of `sampleCells2`. -/
def samplePre2 : NBT :=
  sampleSection 0 samplePalette2
    (encodePre116 (blockLength samplePalette2.length) sampleCells2)

/-- A terrain of one chunk at the origin holding the given sections. -/
def sampleTerrain (sections : List NBT) : Data :=
  { map := { minX := 0, maxX := 0, minZ := 0, maxZ := 0 },
    chunks := [NBT.tag_list sections], heightMap := [0], heightBounds := 0, cache := [] }

/-- A section with a one-entry palette whose `BlockStates` holds a single
long, neither the dense nor the word-aligned length for four bits. -/
def sampleBadSizes : NBT :=
  sampleSection 0 [paletteEntry "minecraft:stone"] [0]

/-- A section without a palette, as the loader finds them above the
terrain. -/
def sampleNoPalette : NBT := NBT.tag_compound [("Y", NBT.tag_byte 1)]

/-- A rectangle of chunks reaching into negative coordinates. -/
def sampleRect : Coordinates := { minX := -2, maxX := 1, minZ := -1, maxZ := 3 }

/-! ## Dense section vectors -/

/-- The vertical index `Y` of a section. -/
def sectionY (s : NBT) : Option Int := (s.child "Y").as_i8

/-- Slab `k` of a chunk given by its sections: the section with `Y = k` when
there is one, an end sentinel otherwise. -/
def slabAt (sections : List NBT) (k : Nat) : NBT :=
  match sections.find? (fun s => decide (sectionY s = some (k : Int))) with
  | some s => s
  | none => NBT.tag_end

/-- Sections whose `Y` values are bytes above `lo`, strictly ascending. -/
def Ascending : Int → List NBT → Prop
  | _, [] => True
  | lo, s :: rest => ∃ y, sectionY s = some y ∧ lo < y ∧ y ≤ 127 ∧ Ascending y rest

/-- The sections with the holes between consecutive `Y` values filled by end
sentinels. -/
def gapFill : List NBT → List NBT
  | [] => []
  | [s] => [s]
  | s :: s2 :: rest =>
    s :: (List.replicate (((sectionY s2).getD 0 - (sectionY s).getD 0 - 1).toNat) NBT.tag_end
      ++ gapFill (s2 :: rest))

/-- Three sections at the heights 0, 3 and 5. -/
def sampleSparse : List NBT :=
  [sampleSection 0 samplePalette2 [], sampleSection 3 samplePalette2 [],
    sampleSection 5 samplePalette2 []]

/-- A chunk of full height: sixteen sections at the heights 0 to 15, each
with a palette. -/
def sampleFullHeight : List NBT :=
  (List.range 16).map (fun i => sampleSection (i : Int) samplePalette2 [])

/-! ## Isometric traversal -/

/-- Pixel column `2 * sizeZ + (x - z) * 2` of `render`, in `size_t`. -/
def bmpPosX (sizeZ x z : Nat) : Nat :=
  toU64 (2 * (sizeZ : Int) + ((x : Int) - (z : Int)) * 2)

/-- Pixel row `height - 4 + x + z - sizeX - sizeZ - y * offsetY` of `render`,
in `size_t`; the product `y * offsetY` is an `int`. -/
def bmpPosY (height : Int) (sizeX sizeZ : Nat) (offsetY : Int) (x z y : Nat) : Nat :=
  toU64 (height - 4 + (x : Int) + (z : Int) - (sizeX : Int) - (sizeZ : Int)
    - toI32 ((y : Int) * offsetY))

/-- The points `(x, z, y)` for which the loops of `render` call `setPixel`, in
the order of the calls: `x` from 0 to `sizeX`, `z` from 0 to `sizeZ`, `y` from
`minY` up to `min(top, maxY)`, where `top x z` stands for the height that
`heightAt` returns for the column. -/
def renderOrder (sizeX sizeZ minY maxY : Nat) (top : Nat → Nat → Nat) :
    List (Nat × Nat × Nat) :=
  (List.range (sizeX + 1)).flatMap (fun x =>
    (List.range (sizeZ + 1)).flatMap (fun z =>
      (List.range' minY (min (top x z) maxY - minY)).map (fun y => (x, z, y))))

/-- Draw order of two points: by `x`, then `z`, then `y`. -/
def drawnBefore (p q : Nat × Nat × Nat) : Prop :=
  p.1 < q.1 ∨ (p.1 = q.1 ∧ (p.2.1 < q.2.1 ∨ (p.2.1 = q.2.1 ∧ p.2.2 < q.2.2)))

/-! ## Region files -/

/-- Modelled from the spec: the macro `REGION` of the missing header, the
arithmetic shift `chunk >> 5`. -/
def REGION (x : Int) : Int := x >>> 5

/-- Name of a region file,
`"r." + std::to_string(rx) + "." + std::to_string(rz) + ".mca"`. -/
def regionFileName (rx rz : Int) : String :=
  "r." ++ toString rx ++ "." ++ toString rz ++ ".mca"

/-- Inner loop of `Terrain::Data::load`,
`for (int8_t rz = REGION(map.minZ); rz < REGION(map.maxZ) + 1; rz++)`: the
regions `(rx, rz)` considered are appended to `seen`. The first argument
bounds the number of tests of the two loops; the result is `none` when it is
exhausted. -/
def loadInner (hiZ rx : Int) : Nat → Int → List (Int × Int) → Option (List (Int × Int))
  | 0, _, _ => none
  | fuel + 1, rz, seen =>
    if rz < hiZ + 1 then loadInner hiZ rx fuel (toI8 (rz + 1)) (seen ++ [(rx, rz)])
    else some seen

/-- Outer loop of `Terrain::Data::load`,
`for (int8_t rx = REGION(map.minX); rx < REGION(map.maxX) + 1; rx++)`. -/
def loadOuter (loZ hiZ hiX : Int) : Nat → Int → List (Int × Int) → Option (List (Int × Int))
  | 0, _, _ => none
  | fuel + 1, rx, seen =>
    if rx < hiX + 1 then
      match loadInner hiZ rx fuel (toI8 loZ) seen with
      | none => none
      | some seen1 => loadOuter loZ hiZ hiX fuel (toI8 (rx + 1)) seen1
    else some seen

/-- Routine `Terrain::Data::load`: the regions whose file `regionFileName` is
looked for, in order, when the loops end within `fuel` tests. -/
def load (fuel : Nat) (map : Coordinates) : Option (List (Int × Int)) :=
  loadOuter (REGION map.minZ) (REGION map.maxZ) (REGION map.maxX) fuel
    (toI8 (REGION map.minX)) []

/-- A rectangle of chunks that reaches the region 127, which holds the blocks
from `x = 65024`. -/
def sampleFarRect : Coordinates := { minX := 0, maxX := 4064, minZ := 0, maxZ := 0 }

/-- Chunk coordinates of slot `it` in `loadRegion`:
`(regionX << 5) + (it & 0x1f)` and `(regionZ << 5) + (it >> 5)`, computed in
`int`. -/
def slotChunk (regionX regionZ : Int) (it : Nat) : Int × Int :=
  (toI32 (toI32 (regionX * 2 ^ 5) + ((it &&& 0x1f : Nat) : Int)),
   toI32 (toI32 (regionZ * 2 ^ 5) + ((it >>> 5 : Nat) : Int)))

/-- A section with a one-entry palette whose 256 longs all hold the index 1
in their first cell. -/
def sampleOnes : NBT :=
  sampleSection 0 [paletteEntry "minecraft:stone"] (List.replicate 256 1)

/-- A section with a one-entry palette and 256 longs of zeros. -/
def sampleZeros : NBT :=
  sampleSection 0 [paletteEntry "minecraft:stone"] (List.replicate 256 0)

/-- A sequence of `loadChunk` calls, each given by the chunk coordinates and
the parsed sections. -/
def loadChunks : Data → List (Int × Int × List NBT) → Option Data
  | t, [] => some t
  | t, (chunkX, chunkZ, sections) :: rest =>
    match loadChunk t chunkX chunkZ sections with
    | none => none
    | some t1 => loadChunks t1 rest

/-- The store after loading the chunk `sampleSparse` at the origin. -/
def sampleAfterSparse : Data :=
  (loadChunks (sampleTerrain []) [(0, 0, sampleSparse)]).getD (sampleTerrain [])

/-- The store after loading a chunk with one section at height 1 over
`sampleAfterSparse`. -/
def sampleAfterLow : Data :=
  (loadChunk sampleAfterSparse 0 0 [sampleSection 1 samplePalette2 []]).getD sampleAfterSparse

/-! ## Options and argument parsing -/

/-- Modelled from the spec: the enumeration `Terrain::Orientation` of the
missing header. -/
inductive Orientation where
  | NW : Orientation
  | NE : Orientation
  | SE : Orientation
  | SW : Orientation
  deriving DecidableEq

/-- Constant `UNDEFINED` of `settings.h`. -/
def UNDEFINED : Int := 0x7FFFFFFF

/-- Structure `Settings::WorldOptions`. -/
structure WorldOptions where
  saveName : String
  outFile : String
  colorfile : String
  wholeworld : Bool
  fromX : Int
  fromZ : Int
  toX : Int
  toZ : Int
  mapMinY : Int
  mapMaxY : Int
  mapSizeY : Int
  orientation : Orientation
  offsetY : Int
  memlimit : Nat
  memlimitSet : Bool

/-- Constructor `WorldOptions::WorldOptions()`. -/
def defaultOptions : WorldOptions :=
  { saveName := "", outFile := "", colorfile := "", wholeworld := false,
    fromX := UNDEFINED, fromZ := UNDEFINED, toX := UNDEFINED, toZ := UNDEFINED,
    mapMinY := 0, mapMaxY := 255, mapSizeY := 255 - 0,
    orientation := Orientation.NW, offsetY := 3,
    memlimit := 2000 * (1024 * 1024), memlimitSet := false }

/-- Value of a run of decimal digits, as the C library function `atoi` reads
it: the reading stops at the first character that is not a digit. -/
def atoiDigits : List Char → Int → Int
  | [], acc => acc
  | c :: rest, acc =>
    if c.isDigit then atoiDigits rest (acc * 10 + ((c.toNat - 48 : Nat) : Int)) else acc

/-- Removal of the leading white space that `atoi` skips. -/
def atoiSkip : List Char → List Char
  | [] => []
  | c :: rest =>
    if c = ' ' ∨ c = '\t' ∨ c = '\n' ∨ c = '\r' ∨ c.toNat = 11 ∨ c.toNat = 12 then atoiSkip rest
    else c :: rest

/-- The C library function `atoi`, for values that an `int` represents. -/
def atoi (s : String) : Int :=
  match atoiSkip s.data with
  | '-' :: rest => -(atoiDigits rest 0)
  | '+' :: rest => atoiDigits rest 0
  | cs => atoiDigits cs 0

/-- Loop of `parseArgs` over the arguments that follow the program name. The
result is `none` where `parseArgs` returns `false`. The helper `isNumeric`,
which is not part of the sources at hand, is a parameter. -/
def parseLoop (isNumeric : String → Bool) : List String → WorldOptions → Option WorldOptions
  | [], opts => some opts
  | option :: rest, opts =>
    if option = "-from" then
      match rest with
      | a :: b :: rest2 =>
        if isNumeric a && isNumeric b then
          parseLoop isNumeric rest2 { opts with fromX := atoi a, fromZ := atoi b }
        else none
      | _ => none
    else if option = "-to" then
      match rest with
      | a :: b :: rest2 =>
        if isNumeric a && isNumeric b then
          parseLoop isNumeric rest2
            { opts with toX := toI32 (atoi a + 1), toZ := toI32 (atoi b + 1) }
        else none
      | _ => none
    else if option = "-max" then
      match rest with
      | a :: rest2 =>
        if isNumeric a then parseLoop isNumeric rest2 { opts with mapMaxY := atoi a }
        else none
      | _ => none
    else if option = "-min" then
      match rest with
      | a :: rest2 =>
        if isNumeric a then parseLoop isNumeric rest2 { opts with mapMinY := atoi a }
        else none
      | _ => none
    else if option = "-file" then
      match rest with
      | a :: rest2 => parseLoop isNumeric rest2 { opts with outFile := a }
      | _ => none
    else if option = "-nw" then
      parseLoop isNumeric rest { opts with orientation := Orientation.NW }
    else if option = "-sw" then
      parseLoop isNumeric rest { opts with orientation := Orientation.SW }
    else if option = "-ne" then
      parseLoop isNumeric rest { opts with orientation := Orientation.NE }
    else if option = "-se" then
      parseLoop isNumeric rest { opts with orientation := Orientation.SE }
    else if option = "-3" then
      parseLoop isNumeric rest { opts with offsetY := 3 }
    else if option = "-help" ∨ option = "-h" then none
    else parseLoop isNumeric rest { opts with saveName := option }

/-- Function `parseArgs` on the arguments that follow the program name: the
options set when it returns `true`, `none` when it returns `false`. The test
`std::filesystem::exists` is the parameter `pathExists`. -/
def parseArgs (isNumeric pathExists : String → Bool) (args : List String) :
    Option WorldOptions :=
  match parseLoop isNumeric args defaultOptions with
  | none => none
  | some opts =>
    let opts1 := { opts with
      wholeworld := decide (opts.fromX = UNDEFINED) || decide (opts.toX = UNDEFINED) }
    if opts1.saveName = "" ∨ pathExists opts1.saveName = false then none
    else if opts1.toX ≤ opts1.fromX ∨ opts1.toZ ≤ opts1.fromZ then none
    else if toI32 (opts1.mapMaxY - opts1.mapMinY) < 1 then none
    else some opts1

/-- The rectangle that `main` builds from the accepted options. -/
def mainCoords (opts : WorldOptions) : Coordinates :=
  { minX := opts.fromX, minZ := opts.fromZ,
    maxX := toI32 (opts.toX - 1), maxZ := toI32 (opts.toZ - 1) }

/-- The names that `parseArgs` reads as options. -/
def optionNames : List String :=
  ["-from", "-to", "-max", "-min", "-file", "-nw", "-sw", "-ne", "-se", "-3", "-help", "-h"]

/-- A stand-in for the helper `isNumeric`: an optional minus sign followed by
digits only. -/
def sampleIsNumeric (s : String) : Bool :=
  match s.data with
  | '-' :: c :: rest => (c :: rest).all Char.isDigit
  | cs => cs.all Char.isDigit

/-! ## Canvas and oriented map -/

/-- Structure `IsometricCanvas`. -/
structure IsometricCanvas where
  sizeX : Nat
  sizeZ : Nat
  minY : Nat
  maxY : Nat
  orientation : Orientation

/-- Constructor `IsometricCanvas::IsometricCanvas`: the sizes are `int`
differences converted to `size_t`, swapped for `NE` and `SW`; the vertical
bounds are converted to `uint8_t`. -/
def mkCanvas (coords : Coordinates) (options : WorldOptions) : IsometricCanvas :=
  let sizeX := toU64 (toI32 (coords.maxX - coords.minX))
  let sizeZ := toU64 (toI32 (coords.maxZ - coords.minZ))
  let swapped := options.orientation = Orientation.NE ∨ options.orientation = Orientation.SW
  { orientation := options.orientation,
    sizeX := if swapped then sizeZ else sizeX,
    sizeZ := if swapped then sizeX else sizeZ,
    minY := toU8 options.mapMinY,
    maxY := toU8 options.mapMaxY }

/-- Modelled from the spec: the structure `Terrain::OrientedMap` of the
missing header, a rectangle with two step vectors and an orientation. -/
structure OrientedMap where
  coords : Coordinates
  vectorX : Int
  vectorZ : Int
  orientation : Orientation

/-- Modelled from the spec: the constructor of `Terrain::OrientedMap`, which
keeps the rectangle and the orientation and takes the step vectors from the
table of the orientations. -/
def orientedMap (coords : Coordinates) (o : Orientation) : OrientedMap :=
  { coords := coords, orientation := o,
    vectorX := match o with
      | Orientation.NW => 1
      | Orientation.NE => 1
      | Orientation.SE => -1
      | Orientation.SW => -1,
    vectorZ := match o with
      | Orientation.NW => 1
      | Orientation.NE => -1
      | Orientation.SE => -1
      | Orientation.SW => 1 }

/-- The columns `(x, z)` visited by the two outer loops of `render`, in
order. -/
def renderColumns (canvas : IsometricCanvas) : List (Nat × Nat) :=
  (List.range (canvas.sizeX + 1)).flatMap (fun x =>
    (List.range (canvas.sizeZ + 1)).map (fun z => (x, z)))

/-- The canvas coordinates used for the world column: `x` and `z` swapped for
`NE` and `SW`, as `render` does around the computation. -/
def effectiveColumn (world : OrientedMap) (x z : Nat) : Nat × Nat :=
  if world.orientation = Orientation.NE ∨ world.orientation = Orientation.SW then (z, x)
  else (x, z)

/-- World column `(worldX, worldZ)` of `render`:
`world.coords.minX + x * world.vectorX` and the like for `z`, computed in
`size_t` and converted to `int64_t`. -/
def worldColumn (world : OrientedMap) (x z : Nat) : Int × Int :=
  let e := effectiveColumn world x z
  (toI64 ((toU64 world.coords.minX + e.1 * toU64 world.vectorX) % 2 ^ 64),
   toI64 ((toU64 world.coords.minZ + e.2 * toU64 world.vectorZ) % 2 ^ 64))

/-- Offset of the world column from the corner of the oriented map, along the
step vectors: `((worldX - minX) * vx, (worldZ - minZ) * vz)`. -/
def worldOffset (world : OrientedMap) (x z : Nat) : Int × Int :=
  (((worldColumn world x z).1 - world.coords.minX) * world.vectorX,
   ((worldColumn world x z).2 - world.coords.minZ) * world.vectorZ)

/-- A rectangle of blocks, four wide and two deep. -/
def sampleBlockRect : Coordinates := { minX := -3, maxX := 0, minZ := 10, maxZ := 11 }

/-- The options accepted for `-min 16 -max 64` over a single-block
rectangle. -/
def sampleRangeOptions : WorldOptions :=
  (parseArgs sampleIsNumeric (fun _ => true)
    ["-min", "16", "-max", "64", "-from", "0", "0", "-to", "0", "0", "saves/World1"]).getD
      defaultOptions

/-! ## Reads and block indices of the decoders -/

/-- The positions of `BlockStates` that `blockAtPre116` reads: `skip_longs`,
and `skip_longs + 1` when `overflow > 0`. -/
def readsPre116 (sec : NBT) (x z y : Nat) : List Nat :=
  let index := cellIndex x z y
  let length := blockLength (sec.child "Palette").size
  let skip_longs := (index * length) >>> 6
  let padding := (index * length) &&& 63
  let overflow : Int := (padding : Int) + (length : Int) - 64
  if 0 < overflow then [skip_longs, skip_longs + 1] else [skip_longs]

/-- The local `blockIndex` of `blockAtPost116`, the value the palette is
read at. -/
def blockIndexPost116 (sec : NBT) (x z y : Nat) : Option Nat :=
  match (sec.child "BlockStates").as_long_array with
  | none => none
  | some blockStates =>
    let index := cellIndex x z y
    let length := blockLength (sec.child "Palette").size
    let blocksPerLong := (64 / length) % 256
    if blocksPerLong = 0 then none
    else
      let longIndex := index / blocksPerLong
      let padding := (index - longIndex * blocksPerLong) * length
      match blockStates[longIndex]? with
      | none => none
      | some w => some (toU64 (andI64 (w >>> padding) (((1 <<< length : Nat) : Int) - 1)))

/-- The local `lower_data` of `blockAtPre116` after the overflow test, the
value the palette is read at. -/
def blockIndexPre116 (sec : NBT) (x z y : Nat) : Option Nat :=
  match (sec.child "BlockStates").as_long_array with
  | none => none
  | some blockStates =>
    let index := cellIndex x z y
    let length := blockLength (sec.child "Palette").size
    let skip_longs := (index * length) >>> 6
    let padding := (index * length) &&& 63
    let mask := (((1 <<< length) - 1) <<< padding) % 2 ^ 64
    match blockStates[skip_longs]? with
    | none => none
    | some w =>
      let lower_data := (toU64 w &&& mask) >>> padding
      let overflow : Int := (padding : Int) + (length : Int) - 64
      if 0 < overflow then
        match blockStates[skip_longs + 1]? with
        | none => none
        | some w1 =>
          let upper_data := toU64 (andI64 w1 (((1 <<< overflow.toNat : Nat) : Int) - 1))
          some (lower_data ||| ((upper_data <<< (length - overflow.toNat)) % 2 ^ 64))
      else some lower_data

/-- Block index of the word-aligned layout in the words of the
specification, on unsigned 64-bit words with logical shifts:
`blocksPerLong = floor(64 / bits)`, `longIndex = index / blocksPerLong`,
`shift = (index - longIndex * blocksPerLong) * bits` and the result
`(words[longIndex] >> shift) & ((1 << bits) - 1)`. -/
def specIndexPost116 (bits : Nat) (words : List Nat) (index : Nat) : Option Nat :=
  let blocksPerLong := 64 / bits
  let longIndex := index / blocksPerLong
  let shift := (index - longIndex * blocksPerLong) * bits
  match words[longIndex]? with
  | none => none
  | some w => some ((w >>> shift) &&& ((1 <<< bits) - 1))

/-- Block index of the dense layout in the words of the specification, on
unsigned 64-bit words with logical shifts: `bitPos = index * bits`,
`longIndex = bitPos >> 6`, `shift = bitPos & 63`,
`lower = (words[longIndex] >> shift) & ((1 << bits) - 1)`, and when
`overflow = shift + bits - 64 > 0` the result is
`lower | (upper << (bits - overflow))` with
`upper = words[longIndex + 1] & ((1 << overflow) - 1)`. -/
def specIndexPre116 (bits : Nat) (words : List Nat) (index : Nat) : Option Nat :=
  let bitPos := index * bits
  let longIndex := bitPos >>> 6
  let shift := bitPos &&& 63
  match words[longIndex]? with
  | none => none
  | some w =>
    let lower := (w >>> shift) &&& ((1 <<< bits) - 1)
    if 64 < shift + bits then
      let overflow := shift + bits - 64
      match words[longIndex + 1]? with
      | none => none
      | some w1 =>
        let upper := w1 &&& ((1 <<< overflow) - 1)
        some (lower ||| ((upper <<< (bits - overflow)) % 2 ^ 64))
    else some lower

/-- A section over `samplePalette17` whose words have the top bit set. -/
def sampleNegativeWords : NBT :=
  sampleSection 0 samplePalette17 [-1, -(2 ^ 63), -6148914691236517206]

/-! # Theorems -/

/-! ## Block index size -/

theorem le_pow_ceilLog2From (n : Nat) : ∀ (fuel k : Nat), n ≤ 2 ^ (k + fuel) →
    n ≤ 2 ^ ceilLog2From n fuel k := by
  intro fuel
  induction fuel with
  | zero => intro k h; simpa [ceilLog2From] using h
  | succ f ih =>
    intro k h
    unfold ceilLog2From
    split
    · assumption
    · apply ih
      have : k + 1 + f = k + (f + 1) := by omega
      rw [this]; exact h

theorem ceilLog2From_le (n m : Nat) (hm : n ≤ 2 ^ m) : ∀ (fuel k : Nat), k ≤ m →
    ceilLog2From n fuel k ≤ m := by
  intro fuel
  induction fuel with
  | zero => intro k h; simpa [ceilLog2From] using h
  | succ f ih =>
    intro k h
    unfold ceilLog2From
    split
    · exact h
    · rename_i hk
      apply ih
      by_contra hc
      have hkm : k = m := by omega
      subst hkm
      exact hk hm

theorem le_pow_ceilLog2 (n : Nat) : n ≤ 2 ^ ceilLog2 n := by
  unfold ceilLog2
  apply le_pow_ceilLog2From
  simpa using Nat.le_of_lt (Nat.lt_two_pow n)

theorem ceilLog2_le {n m : Nat} (hm : n ≤ 2 ^ m) : ceilLog2 n ≤ m :=
  ceilLog2From_le n m hm n 0 (Nat.zero_le m)

/-- The value computed by `ceilLog2` is the ceiling of the binary logarithm. -/
theorem ceilLog2_eq_clog (n : Nat) : ceilLog2 n = Nat.clog 2 n :=
  Nat.le_antisymm (ceilLog2_le (Nat.le_pow_clog (by decide) n))
    ((Nat.le_pow_iff_clog_le (by decide)).mp (le_pow_ceilLog2 n))

theorem blockLength_ge (n : Nat) : 4 ≤ blockLength n := by
  unfold blockLength; omega

theorem le_pow_blockLength (n : Nat) : n ≤ 2 ^ blockLength n := by
  have h := le_pow_ceilLog2 n
  have h2 : 2 ^ ceilLog2 n ≤ 2 ^ blockLength n :=
    Nat.pow_le_pow_right (by decide) (by unfold blockLength; omega)
  omega

theorem blockLength_le {n : Nat} (hn : n ≤ 4096) : blockLength n ≤ 12 := by
  have h := ceilLog2_le (n := n) (m := 12) (by simpa using hn)
  unfold blockLength; omega

theorem packBits_lt (L : Nat) : ∀ (l : List Nat), (∀ a ∈ l, a < 2 ^ L) →
    packBits L l < 2 ^ (L * l.length) := by
  intro l
  induction l with
  | nil => intro _; simp [packBits]
  | cons a rest ih =>
    intro h
    have ha : a < 2 ^ L := h a (by simp)
    have hr := ih (fun b hb => h b (by simp [hb]))
    simp only [packBits, List.length_cons, Nat.mul_succ, Nat.pow_add]
    have : 2 ^ L * (packBits L rest + 1) ≤ 2 ^ L * 2 ^ (L * rest.length) :=
      Nat.mul_le_mul_left _ hr
    rw [Nat.mul_comm (2 ^ (L * rest.length))]
    nlinarith

theorem packBits_field (L : Nat) : ∀ (l : List Nat), (∀ a ∈ l, a < 2 ^ L) →
    ∀ k, (h : k < l.length) → (packBits L l / 2 ^ (L * k)) % 2 ^ L = l[k] := by
  intro l
  induction l with
  | nil => intro _ k h; simp at h
  | cons a rest ih =>
    intro h k hk
    have ha : a < 2 ^ L := h a (by simp)
    have hpos : 0 < 2 ^ L := Nat.two_pow_pos L
    cases k with
    | zero =>
      simp only [packBits, Nat.mul_zero, Nat.pow_zero, Nat.div_one, List.getElem_cons_zero]
      rw [Nat.add_mul_mod_self_left]
      exact Nat.mod_eq_of_lt ha
    | succ k =>
      simp only [packBits, List.getElem_cons_succ]
      have e : 2 ^ (L * (k + 1)) = 2 ^ L * 2 ^ (L * k) := by
        rw [Nat.mul_succ, Nat.pow_add, Nat.mul_comm]
      rw [e, ← Nat.div_div_eq_div_mul, Nat.add_mul_div_left _ _ hpos, Nat.div_eq_of_lt ha,
        Nat.zero_add]
      exact ih (fun b hb => h b (by simp [hb])) k (by simpa using hk)

theorem toU64_toI64 (n : Nat) : toU64 (toI64 n) = n % 2 ^ 64 := by
  unfold toU64 toI64
  split <;> omega

theorem toU64_natCast (n : Nat) : toU64 (n : Int) = n % 2 ^ 64 := by
  unfold toU64; omega

theorem toU64_mask (L : Nat) (hL : L ≤ 64) :
    toU64 (((1 <<< L : Nat) : Int) - 1) = 2 ^ L - 1 := by
  have hpos : 0 < 2 ^ L := Nat.two_pow_pos L
  have hle : 2 ^ L ≤ 2 ^ 64 := Nat.pow_le_pow_right (by decide) hL
  have e : (((1 <<< L : Nat) : Int) - 1) = ((2 ^ L - 1 : Nat) : Int) := by
    rw [Nat.one_shiftLeft]; omega
  rw [e, toU64_natCast]
  apply Nat.mod_eq_of_lt
  omega

theorem shiftRight_toI64 (W p : Nat) (hW : W < 2 ^ 64) (hp : p ≤ 64) :
    toU64 (toI64 W >>> p) =
      if W < 2 ^ 63 then W / 2 ^ p else W / 2 ^ p + (2 ^ 64 - 2 ^ (64 - p)) := by
  have hpp : 0 < 2 ^ p := Nat.two_pow_pos p
  have hsplit : 2 ^ 64 = 2 ^ (64 - p) * 2 ^ p := by
    rw [← Nat.pow_add]; congr 1; omega
  have hq : W / 2 ^ p < 2 ^ (64 - p) := by
    apply Nat.div_lt_of_lt_mul
    rw [Nat.mul_comm, ← hsplit]; exact hW
  have hle : 2 ^ (64 - p) ≤ 2 ^ 64 := Nat.pow_le_pow_right (by decide) (by omega)
  rw [Int.shiftRight_eq_div_pow]
  unfold toI64
  rw [Nat.mod_eq_of_lt hW]
  split
  · rename_i h
    have : ((W : Int) / ((2 ^ p : Nat) : Int)) = ((W / 2 ^ p : Nat) : Int) := by
      norm_cast
    rw [this, toU64_natCast]
    apply Nat.mod_eq_of_lt
    omega
  · rename_i h
    have e1 : ((W : Int) - 2 ^ 64) = (W : Int) + (-(2 ^ (64 - p) : Nat) : Int) * ((2 ^ p : Nat) : Int) := by
      have : ((2 : Int) ^ 64) = ((2 ^ (64 - p) * 2 ^ p : Nat) : Int) := by
        rw [← hsplit]; norm_cast
      rw [this]; push_cast; ring
    have hne : ((2 ^ p : Nat) : Int) ≠ 0 := by
      have : (0 : Int) < ((2 ^ p : Nat) : Int) := by exact_mod_cast hpp
      omega
    rw [e1, Int.add_mul_ediv_right _ _ hne]
    have : ((W : Int) / ((2 ^ p : Nat) : Int)) = ((W / 2 ^ p : Nat) : Int) := by
      norm_cast
    rw [this]
    unfold toU64
    generalize W / 2 ^ p = q at hq ⊢
    generalize 2 ^ (64 - p) = r at hq hle ⊢
    omega

theorem decode_signed_field (W p L : Nat) (hW : W < 2 ^ 64) (hpL : p + L ≤ 64) :
    toU64 (andI64 (toI64 W >>> p) (((1 <<< L : Nat) : Int) - 1)) = (W / 2 ^ p) % 2 ^ L := by
  unfold andI64
  rw [toU64_toI64, toU64_mask L (by omega), Nat.and_pow_two_sub_one_eq_mod,
    shiftRight_toI64 W p hW (by omega)]
  have hlt : (if W < 2 ^ 63 then W / 2 ^ p else W / 2 ^ p + (2 ^ 64 - 2 ^ (64 - p))) % 2 ^ L
      = (W / 2 ^ p) % 2 ^ L := by
    split
    · rfl
    · have e : 2 ^ 64 - 2 ^ (64 - p) = 2 ^ L * (2 ^ (64 - L) - 2 ^ (64 - p - L)) := by
        rw [Nat.mul_sub, ← Nat.pow_add, ← Nat.pow_add]
        congr 2 <;> omega
      rw [e, Nat.add_mul_mod_self_left]
  rw [hlt]
  apply Nat.mod_eq_of_lt
  calc (W / 2 ^ p) % 2 ^ L < 2 ^ L := Nat.mod_lt _ (Nat.two_pow_pos L)
    _ ≤ 2 ^ 64 := Nat.pow_le_pow_right (by decide) (by omega)

theorem cellIndex_eq (x z y : Nat) :
    cellIndex x z y = x % 16 + 16 * (z % 16) + 256 * (y % 16) := by
  unfold cellIndex
  have h : ∀ a : Nat, a &&& 0x0f = a % 16 := fun a =>
    Nat.and_pow_two_sub_one_eq_mod a 4
  rw [h x, h z, h y]; omega

theorem cellIndex_lt (x z y : Nat) : cellIndex x z y < 4096 := by
  rw [cellIndex_eq]; omega

theorem cellValue_lt_pow {n : Nat} (v : Nat → Nat) (hv : ∀ i, i < 4096 → v i < n) (i : Nat) :
    cellValue v i < 2 ^ blockLength n := by
  unfold cellValue
  split
  · rename_i h
    exact Nat.lt_of_lt_of_le (hv i h) (le_pow_blockLength n)
  · exact Nat.two_pow_pos _

theorem encodePost116_word {n : Nat} (v : Nat → Nat) (hn : n ≤ 4096)
    (hv : ∀ i, i < 4096 → v i < n) (idx : Nat) (hidx : idx < 4096) :
    ∃ W, W < 2 ^ 64 ∧
      (encodePost116 (blockLength n) v)[idx / (64 / blockLength n)]? = some (toI64 W) ∧
      (W / 2 ^ (idx % (64 / blockLength n) * blockLength n)) % 2 ^ blockLength n = v idx := by
  have hL4 := blockLength_ge n
  have hL12 := blockLength_le hn
  have hcell := cellValue_lt_pow v hv
  generalize blockLength n = L at hL4 hL12 hcell
  have hbpl5 : 5 ≤ 64 / L := by
    rw [Nat.le_div_iff_mul_le (by omega)]; omega
  have hbplL : 64 / L * L ≤ 64 := Nat.div_mul_le_self 64 L
  generalize hbdef : 64 / L = bpl at hbpl5 hbplL
  have hj : idx / bpl < (4096 + bpl - 1) / bpl := by
    rw [Nat.div_lt_iff_lt_mul (by omega)]
    have := Nat.div_add_mod (4096 + bpl - 1) bpl
    have := Nat.mod_lt (4096 + bpl - 1) (show 0 < bpl by omega)
    rw [Nat.mul_comm]
    omega
  have hk : idx % bpl < bpl := Nat.mod_lt _ (by omega)
  have hdm := Nat.div_add_mod idx bpl
  have hfields : ∀ a ∈ (List.range bpl).map (fun k => cellValue v (idx / bpl * bpl + k)),
      a < 2 ^ L := by
    intro a ha
    simp only [List.mem_map, List.mem_range] at ha
    obtain ⟨k, _, rfl⟩ := ha
    exact hcell _
  refine ⟨wordPost116 L v (idx / bpl), ?_, ?_, ?_⟩
  · unfold wordPost116
    rw [hbdef]
    have h1 := packBits_lt L _ hfields
    simp only [List.length_map, List.length_range] at h1
    exact Nat.lt_of_lt_of_le h1
      (Nat.pow_le_pow_right (by decide) (by rw [Nat.mul_comm]; exact hbplL))
  · unfold encodePost116
    rw [hbdef, List.getElem?_map, List.getElem?_range hj]
    rfl
  · unfold wordPost116
    rw [hbdef, Nat.mul_comm (idx % bpl) L]
    rw [packBits_field L _ hfields (idx % bpl) (by simpa using hk)]
    simp only [List.getElem_map, List.getElem_range]
    unfold cellValue
    rw [Nat.mul_comm (idx / bpl) bpl, hdm, if_pos hidx]

theorem blockAtPost116_decodes (sec : NBT) (palette : List NBT) (v : Nat → Nat)
    (hn : palette.length ≤ 4096)
    (hv : ∀ i, i < 4096 → v i < palette.length)
    (hP : sec.child "Palette" = NBT.tag_list palette)
    (hB : sec.child "BlockStates" =
      NBT.tag_long_array (encodePost116 (blockLength palette.length) v))
    (x z y : Nat) :
    blockAtPost116 sec x z y = palette[v (cellIndex x z y)]? := by
  have hL4 := blockLength_ge palette.length
  have hL12 := blockLength_le hn
  have hidx := cellIndex_lt x z y
  obtain ⟨W, hWlt, hget, hfield⟩ := encodePost116_word v hn hv (cellIndex x z y) hidx
  generalize hLdef : blockLength palette.length = L at hL4 hL12 hB hget hfield
  generalize hidef : cellIndex x z y = idx at hidx hget hfield
  have hbpl5 : 5 ≤ 64 / L := by
    rw [Nat.le_div_iff_mul_le (by omega)]; omega
  have hbpl16 : 64 / L ≤ 16 := by
    apply Nat.div_le_of_le_mul; omega
  have hbplL : 64 / L * L ≤ 64 := Nat.div_mul_le_self 64 L
  generalize hbdef : 64 / L = bpl at hbpl5 hbpl16 hbplL hget hfield
  have hk : idx % bpl < bpl := Nat.mod_lt _ (by omega)
  have hdm := Nat.div_add_mod idx bpl
  have hpad : idx - idx / bpl * bpl = idx % bpl := by
    rw [Nat.mul_comm]; omega
  have hpL : idx % bpl * L + L ≤ 64 := by
    have : (idx % bpl + 1) * L ≤ bpl * L := Nat.mul_le_mul_right L hk
    rw [Nat.add_mul] at this
    omega
  unfold blockAtPost116
  simp only [hP, hB, NBT.as_long_array, NBT.size, hLdef, hidef, hbdef]
  have hmod : bpl % 256 = bpl := Nat.mod_eq_of_lt (by omega)
  rw [hmod, if_neg (by omega), hget]
  simp only [hpad]
  rw [decode_signed_field _ _ _ hWlt hpL, hfield]
  rfl

theorem testBit_word (S s i : Nat) :
    ((S / 2 ^ (64 * s)) % 2 ^ 64).testBit i = (decide (i < 64) && S.testBit (64 * s + i)) := by
  rw [Nat.testBit_mod_two_pow, ← Nat.shiftRight_eq_div_pow, Nat.testBit_shiftRight]

theorem testBit_field (S k L i : Nat) :
    ((S / 2 ^ k) % 2 ^ L).testBit i = (decide (i < L) && S.testBit (k + i)) := by
  rw [Nat.testBit_mod_two_pow, ← Nat.shiftRight_eq_div_pow, Nat.testBit_shiftRight]

theorem dense_lower (S s p L : Nat) (hpL : p + L ≤ 64) :
    (((S / 2 ^ (64 * s)) % 2 ^ 64) &&& ((((1 <<< L) - 1) <<< p) % 2 ^ 64)) >>> p
      = (S / 2 ^ (64 * s + p)) % 2 ^ L := by
  apply Nat.eq_of_testBit_eq
  intro i
  rw [Nat.testBit_shiftRight, Nat.testBit_and, testBit_word, Nat.testBit_mod_two_pow,
    Nat.testBit_shiftLeft, Nat.one_shiftLeft, Nat.testBit_two_pow_sub_one, testBit_field]
  have e1 : p + i - p = i := by omega
  have e2 : 64 * s + (p + i) = 64 * s + p + i := by omega
  rw [e1, e2]
  by_cases hi : i < L
  · have h1 : p + i < 64 := by omega
    have h2 : p + i ≥ p := by omega
    simp [hi, h1, h2]
  · simp [hi]

theorem dense_straddle (S s p L : Nat) (hp : p < 64) (hL : L ≤ 64) (hpL : 64 < p + L) :
    ((((S / 2 ^ (64 * s)) % 2 ^ 64) &&& ((((1 <<< L) - 1) <<< p) % 2 ^ 64)) >>> p) |||
      (((((S / 2 ^ (64 * (s + 1))) % 2 ^ 64) &&& (2 ^ (p + L - 64) - 1)) <<<
        (L - (p + L - 64))) % 2 ^ 64)
      = (S / 2 ^ (64 * s + p)) % 2 ^ L := by
  apply Nat.eq_of_testBit_eq
  intro i
  rw [Nat.testBit_or, Nat.testBit_shiftRight, Nat.testBit_and, testBit_word,
    Nat.testBit_mod_two_pow, Nat.testBit_shiftLeft, Nat.one_shiftLeft,
    Nat.testBit_two_pow_sub_one, testBit_field, Nat.testBit_mod_two_pow,
    Nat.testBit_shiftLeft, Nat.testBit_and, testBit_word, Nat.testBit_two_pow_sub_one]
  have e1 : p + i - p = i := by omega
  have e2 : 64 * s + (p + i) = 64 * s + p + i := by omega
  rw [e1, e2]
  by_cases hi : i < L
  · by_cases h1 : p + i < 64
    · have h3 : ¬ (i ≥ L - (p + L - 64)) := by omega
      have h2 : p + i ≥ p := by omega
      simp [hi, h1, h2, h3]
    · have h3 : i ≥ L - (p + L - 64) := by omega
      have h4 : i - (L - (p + L - 64)) < 64 := by omega
      have h5 : i - (L - (p + L - 64)) < p + L - 64 := by omega
      have h6 : i < 64 := by omega
      have e3 : 64 * (s + 1) + (i - (L - (p + L - 64))) = 64 * s + p + i := by omega
      simp [hi, h1, h3, h4, h5, h6, e3]
  · have h1 : ¬ (p + i < 64) := by omega
    by_cases h3 : i ≥ L - (p + L - 64)
    · have h5 : ¬ (i - (L - (p + L - 64)) < p + L - 64) := by omega
      simp [hi, h1, h5]
    · simp [hi, h1, h3]

theorem streamPre116_field {n : Nat} (v : Nat → Nat) (hv : ∀ i, i < 4096 → v i < n)
    (idx : Nat) (hidx : idx < 4096) :
    (streamPre116 (blockLength n) v / 2 ^ (blockLength n * idx)) % 2 ^ blockLength n = v idx := by
  unfold streamPre116
  have hfields : ∀ a ∈ (List.range 4096).map v, a < 2 ^ blockLength n := by
    intro a ha
    simp only [List.mem_map, List.mem_range] at ha
    obtain ⟨k, hk, rfl⟩ := ha
    exact Nat.lt_of_lt_of_le (hv k hk) (le_pow_blockLength n)
  rw [packBits_field _ _ hfields idx (by simpa using hidx)]
  simp

theorem blockAtPre116_decodes (sec : NBT) (palette : List NBT) (v : Nat → Nat)
    (hn : palette.length ≤ 4096)
    (hv : ∀ i, i < 4096 → v i < palette.length)
    (hP : sec.child "Palette" = NBT.tag_list palette)
    (hB : sec.child "BlockStates" =
      NBT.tag_long_array (encodePre116 (blockLength palette.length) v))
    (x z y : Nat) :
    blockAtPre116 sec x z y = palette[v (cellIndex x z y)]? := by
  have hL4 := blockLength_ge palette.length
  have hL12 := blockLength_le hn
  have hidx := cellIndex_lt x z y
  have hfield := streamPre116_field v hv (cellIndex x z y) hidx
  generalize hSdef : streamPre116 (blockLength palette.length) v = S at hfield
  have henc : ∀ j, j < 64 * blockLength palette.length →
      (encodePre116 (blockLength palette.length) v)[j]? =
        some (toI64 ((S / 2 ^ (64 * j)) % 2 ^ 64)) := by
    intro j hj
    unfold encodePre116
    rw [List.getElem?_map, List.getElem?_range hj, hSdef]
    rfl
  generalize hLdef : blockLength palette.length = L at hL4 hL12 hB hfield henc
  generalize hidef : cellIndex x z y = idx at hidx hfield
  have hs : (idx * L) >>> 6 = idx * L / 64 := Nat.shiftRight_eq_div_pow _ 6
  have hp : (idx * L) &&& 63 = idx * L % 64 := Nat.and_pow_two_sub_one_eq_mod _ 6
  have hdm := Nat.div_add_mod (idx * L) 64
  have hplt : idx * L % 64 < 64 := Nat.mod_lt _ (by decide)
  have hbound : idx * L + L ≤ 4096 * L := by
    have : (idx + 1) * L ≤ 4096 * L := Nat.mul_le_mul_right L hidx
    rw [Nat.add_mul] at this; omega
  generalize hsdef : idx * L / 64 = s at hs hdm
  generalize hpdef : idx * L % 64 = p at hp hdm hplt
  have hpos : L * idx = 64 * s + p := by rw [Nat.mul_comm]; omega
  rw [hpos] at hfield
  have hW : ∀ j, toU64 (toI64 ((S / 2 ^ (64 * j)) % 2 ^ 64)) = (S / 2 ^ (64 * j)) % 2 ^ 64 := by
    intro j
    rw [toU64_toI64, Nat.mod_mod]
  unfold blockAtPre116
  simp only [hP, hB, NBT.as_long_array, NBT.size, hLdef, hidef, hs, hp]
  rw [henc s (by omega)]
  simp only [hW]
  by_cases hov : p + L ≤ 64
  · have hneg : ¬ (0 : Int) < (p : Int) + (L : Int) - 64 := by omega
    rw [if_neg hneg, dense_lower S s p L hov, hfield]
    rfl
  · have hposov : (0 : Int) < (p : Int) + (L : Int) - 64 := by omega
    have htoNat : ((p : Int) + (L : Int) - 64).toNat = p + L - 64 := by omega
    rw [if_pos hposov, henc (s + 1) (by omega)]
    simp only [htoNat]
    have hup : toU64 (andI64 (toI64 ((S / 2 ^ (64 * (s + 1))) % 2 ^ 64))
        (((1 <<< (p + L - 64) : Nat) : Int) - 1))
        = ((S / 2 ^ (64 * (s + 1))) % 2 ^ 64) &&& (2 ^ (p + L - 64) - 1) := by
      unfold andI64
      rw [toU64_toI64, hW, toU64_mask _ (by omega)]
      apply Nat.mod_eq_of_lt
      exact Nat.lt_of_le_of_lt Nat.and_le_left (Nat.mod_lt _ (by decide))
    rw [hup, dense_straddle S s p L hplt (by omega) (by omega), hfield]
    rfl

theorem mask_field (W p L : Nat) (hW : W < 2 ^ 64) (hpL : p + L ≤ 64) :
    (W &&& ((((1 <<< L) - 1) <<< p) % 2 ^ 64)) >>> p = (W / 2 ^ p) % 2 ^ L := by
  have h := dense_lower W 0 p L hpL
  simp only [Nat.mul_zero, Nat.pow_zero, Nat.div_one, Nat.zero_add, Nat.mod_eq_of_lt hW] at h
  exact h

theorem encodePost116_length (L : Nat) (v : Nat → Nat) :
    (encodePost116 L v).length = (4096 + 64 / L - 1) / (64 / L) := by
  simp [encodePost116]

theorem encodePre116_length (L : Nat) (v : Nat → Nat) :
    (encodePre116 L v).length = 64 * L := by
  simp [encodePre116]

theorem encodePost116_length_dense (L : Nat) (v : Nat → Nat) (h4 : 4 ≤ L) (h12 : L ≤ 12) :
    (encodePost116 L v).length = (L * 64) % 2 ^ 64 ↔ (L = 4 ∨ L = 8) := by
  rw [encodePost116_length]
  interval_cases L <;> simp

theorem blockAtPre116_decodes_aligned (sec : NBT) (palette : List NBT) (v : Nat → Nat)
    (hn : palette.length ≤ 4096)
    (hv : ∀ i, i < 4096 → v i < palette.length)
    (hL : blockLength palette.length = 4 ∨ blockLength palette.length = 8)
    (hP : sec.child "Palette" = NBT.tag_list palette)
    (hB : sec.child "BlockStates" =
      NBT.tag_long_array (encodePost116 (blockLength palette.length) v))
    (x z y : Nat) :
    blockAtPre116 sec x z y = palette[v (cellIndex x z y)]? := by
  have hidx := cellIndex_lt x z y
  obtain ⟨W, hWlt, hget, hfield⟩ := encodePost116_word v hn hv (cellIndex x z y) hidx
  generalize hLdef : blockLength palette.length = L at hL hB hget hfield
  generalize hidef : cellIndex x z y = idx at hidx hget hfield
  have hs : (idx * L) >>> 6 = idx / (64 / L) := by
    rw [Nat.shiftRight_eq_div_pow]
    rcases hL with h | h <;> subst h <;> omega
  have hp : (idx * L) &&& 63 = idx % (64 / L) * L := by
    rw [Nat.and_pow_two_sub_one_eq_mod _ 6]
    rcases hL with h | h <;> subst h <;> omega
  have hpL : idx % (64 / L) * L + L ≤ 64 := by
    rcases hL with h | h <;> subst h <;> omega
  unfold blockAtPre116
  simp only [hP, hB, NBT.as_long_array, NBT.size, hLdef, hidef, hs, hp]
  rw [hget]
  simp only []
  have hneg : ¬ (0 : Int) < ((idx % (64 / L) * L : Nat) : Int) + (L : Int) - 64 := by omega
  rw [if_neg hneg, toU64_toI64, Nat.mod_eq_of_lt hWlt, mask_field W _ L hWlt hpL, hfield]
  rfl

/-! ## NBT accessors -/

theorem lookup_insertEntry_self (key : String) (val : NBT) :
    ∀ m : List (String × NBT), NBT.lookup key (NBT.insertEntry key val m) = some val := by
  intro m
  induction m with
  | nil => simp [NBT.insertEntry, NBT.lookup]
  | cons e rest ih =>
    obtain ⟨k, w⟩ := e
    by_cases h : k = key
    · simp [NBT.insertEntry, NBT.lookup, h]
    · simp [NBT.insertEntry, NBT.lookup, h, ih]

theorem lookup_insertEntry_ne (key other : String) (val : NBT) (hne : key ≠ other) :
    ∀ m : List (String × NBT),
      NBT.lookup other (NBT.insertEntry key val m) = NBT.lookup other m := by
  intro m
  induction m with
  | nil => simp [NBT.insertEntry, NBT.lookup, hne]
  | cons e rest ih =>
    obtain ⟨k, w⟩ := e
    by_cases h : k = key
    · subst h
      simp [NBT.insertEntry, NBT.lookup, hne]
    · by_cases h2 : k = other
      · subst h2
        simp [NBT.insertEntry, NBT.lookup, h]
      · simp [NBT.insertEntry, NBT.lookup, h, h2, ih]

theorem child_setChild_self (s : NBT) (key : String) (val : NBT) :
    (s.setChild key val).child key = val := by
  cases s <;> simp [NBT.setChild, NBT.child, NBT.lookup, lookup_insertEntry_self]

theorem contains_setChild_self (s : NBT) (key : String) (val : NBT) :
    (s.setChild key val).contains key = true := by
  cases s <;> simp [NBT.setChild, NBT.contains, NBT.lookup, lookup_insertEntry_self]

theorem is_end_setChild (s : NBT) (key : String) (val : NBT) :
    (s.setChild key val).is_end = false := by
  cases s <;> simp [NBT.setChild, NBT.is_end]

theorem child_setChild_ne (s : NBT) (key other : String) (val : NBT) (hne : key ≠ other)
    (hc : s.is_compound = true) : (s.setChild key val).child other = s.child other := by
  cases s <;> simp [NBT.is_compound] at hc
  simp [NBT.setChild, NBT.child, lookup_insertEntry_ne key other val hne]

theorem is_compound_of_child {s : NBT} {key : String} {c : NBT} (h : s.child key = c)
    (hc : c ≠ NBT.tag_end) : s.is_compound = true := by
  cases s <;> simp [NBT.child] at h <;> first | rfl | exact absurd h.symm hc

theorem contains_of_child {s : NBT} {key : String} {c : NBT} (h : s.child key = c)
    (hc : c ≠ NBT.tag_end) : s.contains key = true := by
  cases s with
  | tag_compound m =>
    simp only [NBT.child] at h
    simp only [NBT.contains]
    cases hl : NBT.lookup key m with
    | none => rw [hl] at h; exact absurd h.symm hc
    | some w => rfl
  | _ => exact absurd h.symm hc

/-! ## Section tagging and dispatch -/

theorem tagSection_of_palette (sec : NBT) (palette : List NBT)
    (hP : sec.child "Palette" = NBT.tag_list palette) :
    tagSection sec = sec.setChild "_type" (NBT.tag_byte
      (if (sec.child "BlockStates").size = (blockLength palette.length * 64) % 2 ^ 64
        then PRE116 else POST116)) := by
  have hc := is_compound_of_child hP (by simp)
  have hp := contains_of_child hP (by simp)
  have hsize : (NBT.tag_list palette).size = palette.length := rfl
  unfold tagSection
  simp only [hc, hp, hP, hsize, Bool.not_true, Bool.or_self, Bool.false_eq_true, if_false]
  by_cases h : (sec.child "BlockStates").size = (blockLength palette.length * 64) % 2 ^ 64
  · rw [if_pos h, if_pos h]
  · rw [if_neg h, if_neg h]

theorem tagSections_getElem? (sections : List NBT) (k : Nat) (sec : NBT)
    (h : sections[k]? = some sec) : (tagSections sections)[k]? = some (tagSection sec) := by
  unfold tagSections
  rw [List.getElem?_map, h]
  rfl

theorem block_of_section (t : Data) (x z y : Int) (secs : List NBT) (sec : NBT)
    (hC : t.chunks[chunkIndex t.map (CHUNK x) (CHUNK z)]? = some (NBT.tag_list secs))
    (hS : secs[toU64 (y >>> 4)]? = some sec) :
    block t x z y =
      if !sec.is_end && sec.contains "_type" then
        match (sec.child "_type").as_i8 with
        | none => none
        | some ty =>
          match getBlock ty with
          | none => none
          | some decoder => decoder sec (toU8 x) (toU8 z) (toU8 y)
      else some air := by
  unfold block
  simp only [hC, NBT.elemAt, hS]

theorem block_of_tagged (t : Data) (x z y : Int) (secs : List NBT) (sec : NBT) (ty : Int)
    (hC : t.chunks[chunkIndex t.map (CHUNK x) (CHUNK z)]? = some (NBT.tag_list secs))
    (hS : secs[toU64 (y >>> 4)]? = some (sec.setChild "_type" (NBT.tag_byte ty))) :
    block t x z y =
      match getBlock ty with
      | none => none
      | some decoder =>
        decoder (sec.setChild "_type" (NBT.tag_byte ty)) (toU8 x) (toU8 z) (toU8 y) := by
  rw [block_of_section t x z y secs _ hC hS]
  simp [is_end_setChild, contains_setChild_self, child_setChild_self, NBT.as_i8]

theorem block_of_encoded (palette : List NBT) (v : Nat → Nat)
    (hn : palette.length ≤ 4096) (hv : ∀ i, i < 4096 → v i < palette.length)
    (sec : NBT) (hP : sec.child "Palette" = NBT.tag_list palette)
    (hB : sec.child "BlockStates" =
        NBT.tag_long_array (encodePre116 (blockLength palette.length) v) ∨
      sec.child "BlockStates" =
        NBT.tag_long_array (encodePost116 (blockLength palette.length) v))
    (t : Data) (x z y : Int) (raw : List NBT)
    (hC : t.chunks[chunkIndex t.map (CHUNK x) (CHUNK z)]? =
      some (NBT.tag_list (tagSections raw)))
    (hS : raw[toU64 (y >>> 4)]? = some sec) :
    block t x z y = palette[v (cellIndex (toU8 x) (toU8 z) (toU8 y))]? := by
  have hc := is_compound_of_child hP (by simp)
  have hL4 := blockLength_ge palette.length
  have hL12 := blockLength_le hn
  have hT := tagSections_getElem? raw _ sec hS
  rw [tagSection_of_palette sec palette hP] at hT
  rw [block_of_tagged t x z y _ sec _ hC hT]
  have hmod : (blockLength palette.length * 64) % 2 ^ 64 = 64 * blockLength palette.length := by
    omega
  have hP2 : ∀ ty, (sec.setChild "_type" (NBT.tag_byte ty)).child "Palette"
      = NBT.tag_list palette := by
    intro ty; rw [child_setChild_ne sec _ _ _ (by decide) hc, hP]
  have hB2 : ∀ ty, (sec.setChild "_type" (NBT.tag_byte ty)).child "BlockStates"
      = sec.child "BlockStates" := by
    intro ty; rw [child_setChild_ne sec _ _ _ (by decide) hc]
  rcases hB with hB | hB
  · have hsz : (sec.child "BlockStates").size = (blockLength palette.length * 64) % 2 ^ 64 := by
      rw [hB, hmod]; simp [NBT.size, encodePre116_length]
    rw [if_pos hsz]
    simp only [PRE116, getBlock]
    exact blockAtPre116_decodes _ palette v hn hv (hP2 _) ((hB2 _).trans hB) _ _ _
  · by_cases hsz : (sec.child "BlockStates").size = (blockLength palette.length * 64) % 2 ^ 64
    · rw [if_pos hsz]
      have hL : blockLength palette.length = 4 ∨ blockLength palette.length = 8 := by
        rw [hB] at hsz
        exact (encodePost116_length_dense _ v hL4 hL12).mp hsz
      simp only [PRE116, getBlock]
      exact blockAtPre116_decodes_aligned _ palette v hn hv hL (hP2 _) ((hB2 _).trans hB) _ _ _
    · rw [if_neg hsz]
      simp only [POST116, getBlock]
      exact blockAtPost116_decodes _ palette v hn hv (hP2 _) ((hB2 _).trans hB) _ _ _

/-! ## Round trips of the two layouts -/

/-- Claim C1: POST116 round trip. For a palette of `n ≤ 4096` entries, a cell
assignment `v` with `v i < n` on the 4096 cells (hence `1 ≤ n`), and a section
whose `BlockStates` is the word-aligned array of `v` for
`bits = max(ceil(log2 n), 4)`, `blockAtPost116` returns the palette entry at
`v ((x & 15) + 16 * (z & 15) + 256 * (y & 15))`, for every `x`, `z`, `y`. -/
theorem post116_round_trip (sec : NBT) (palette : List NBT) (v : Nat → Nat)
    (hn : palette.length ≤ 4096)
    (hv : ∀ i, i < 4096 → v i < palette.length)
    (hP : sec.child "Palette" = NBT.tag_list palette)
    (hB : sec.child "BlockStates" =
      NBT.tag_long_array (encodePost116 (blockLength palette.length) v))
    (x z y : Nat) :
    (encodePost116 (blockLength palette.length) v).length =
      (4096 + 64 / blockLength palette.length - 1) / (64 / blockLength palette.length) ∧
    ∃ e, palette[v ((x &&& 15) + 16 * (z &&& 15) + 256 * (y &&& 15))]? = some e ∧
      blockAtPost116 sec x z y = some e := by
  have hcell : (x &&& 15) + 16 * (z &&& 15) + 256 * (y &&& 15) = cellIndex x z y := by
    unfold cellIndex; omega
  have hlt := hv _ (cellIndex_lt x z y)
  rw [hcell, blockAtPost116_decodes sec palette v hn hv hP hB x z y]
  exact ⟨encodePost116_length _ v, palette[v (cellIndex x z y)],
    List.getElem?_eq_getElem hlt, List.getElem?_eq_getElem hlt⟩

/-- Witness of C1: with seventeen palette entries (five bits, twelve cells a
long), cell 13 is read from the second long. -/
theorem post116_round_trip_witness :
    blockAtPost116 samplePost17 13 0 0 =
      some (NBT.tag_compound [("Name", NBT.tag_string "minecraft:wool"),
        ("Shade", NBT.tag_byte 13)]) := by
  obtain ⟨_, e, he, hb⟩ := post116_round_trip samplePost17 samplePalette17 sampleCells17
    (by decide) (fun i _ => Nat.mod_lt i (by decide)) rfl rfl 13 0 0
  have h13 : samplePalette17[sampleCells17 ((13 &&& 15) + 16 * (0 &&& 15) + 256 * (0 &&& 15))]?
      = some (NBT.tag_compound [("Name", NBT.tag_string "minecraft:wool"),
        ("Shade", NBT.tag_byte 13)]) := rfl
  rw [hb, ← he, h13]

/-- Claim C2: PRE116 round trip. For a palette of `n ≤ 4096` entries, a cell
assignment `v` with `v i < n` on the 4096 cells (hence `1 ≤ n`), and a section
whose `BlockStates` is the dense array of `64 * bits` longs cut from the bit
stream of `v`, `blockAtPre116` returns the palette entry at
`v ((x & 15) + 16 * (z & 15) + 256 * (y & 15))`, for every `x`, `z`, `y`, also
when the bits of the cell straddle two longs. -/
theorem pre116_round_trip (sec : NBT) (palette : List NBT) (v : Nat → Nat)
    (hn : palette.length ≤ 4096)
    (hv : ∀ i, i < 4096 → v i < palette.length)
    (hP : sec.child "Palette" = NBT.tag_list palette)
    (hB : sec.child "BlockStates" =
      NBT.tag_long_array (encodePre116 (blockLength palette.length) v))
    (x z y : Nat) :
    (encodePre116 (blockLength palette.length) v).length = 64 * blockLength palette.length ∧
    ∃ e, palette[v ((x &&& 15) + 16 * (z &&& 15) + 256 * (y &&& 15))]? = some e ∧
      blockAtPre116 sec x z y = some e := by
  have hcell : (x &&& 15) + 16 * (z &&& 15) + 256 * (y &&& 15) = cellIndex x z y := by
    unfold cellIndex; omega
  have hlt := hv _ (cellIndex_lt x z y)
  rw [hcell, blockAtPre116_decodes sec palette v hn hv hP hB x z y]
  exact ⟨encodePre116_length _ v, palette[v (cellIndex x z y)],
    List.getElem?_eq_getElem hlt, List.getElem?_eq_getElem hlt⟩

/-- Witness of C2: with seventeen palette entries (five bits), cell 12 lies
in the bits 60 to 64 of the stream and straddles the first two longs. -/
theorem pre116_round_trip_witness :
    blockAtPre116 samplePre17 12 0 0 =
      some (NBT.tag_compound [("Name", NBT.tag_string "minecraft:wool"),
        ("Shade", NBT.tag_byte 12)]) := by
  obtain ⟨_, e, he, hb⟩ := pre116_round_trip samplePre17 samplePalette17 sampleCells17
    (by decide) (fun i _ => Nat.mod_lt i (by decide)) rfl rfl 12 0 0
  have h12 : samplePalette17[sampleCells17 ((12 &&& 15) + 16 * (0 &&& 15) + 256 * (0 &&& 15))]?
      = some (NBT.tag_compound [("Name", NBT.tag_string "minecraft:wool"),
        ("Shade", NBT.tag_byte 12)]) := rfl
  rw [hb, ← he, h12]

/-- Claim C3: pre-1.16 / post-1.16 equivalence through tagging and dispatch.
For a palette of `n ≤ 4096` entries and a cell assignment `v`, take a section
whose `BlockStates` is the dense packing of `v` and one whose `BlockStates` is
the word-aligned packing of `v`, each at position `y >> 4` of a chunk whose
sections `tagSections` has tagged. `Terrain::Data::block` returns for both the
palette entry at `v (cell)`. When `bits` is 4 or 8 the word-aligned section is
tagged `PRE116`, and the same holds. -/
theorem pre116_post116_equivalence (palette : List NBT) (v : Nat → Nat)
    (hn : palette.length ≤ 4096) (hv : ∀ i, i < 4096 → v i < palette.length)
    (secPre secPost : NBT)
    (hP1 : secPre.child "Palette" = NBT.tag_list palette)
    (hB1 : secPre.child "BlockStates" =
      NBT.tag_long_array (encodePre116 (blockLength palette.length) v))
    (hP2 : secPost.child "Palette" = NBT.tag_list palette)
    (hB2 : secPost.child "BlockStates" =
      NBT.tag_long_array (encodePost116 (blockLength palette.length) v))
    (t1 t2 : Data) (x z y : Int) (raw1 raw2 : List NBT)
    (hC1 : t1.chunks[chunkIndex t1.map (CHUNK x) (CHUNK z)]? =
      some (NBT.tag_list (tagSections raw1)))
    (hS1 : raw1[toU64 (y >>> 4)]? = some secPre)
    (hC2 : t2.chunks[chunkIndex t2.map (CHUNK x) (CHUNK z)]? =
      some (NBT.tag_list (tagSections raw2)))
    (hS2 : raw2[toU64 (y >>> 4)]? = some secPost) :
    (∃ e, palette[v (cellIndex (toU8 x) (toU8 z) (toU8 y))]? = some e ∧
      block t1 x z y = some e ∧ block t2 x z y = some e) ∧
    ((blockLength palette.length = 4 ∨ blockLength palette.length = 8) →
      ∃ tagged, (tagSections raw2)[toU64 (y >>> 4)]? = some tagged ∧
        tagged.child "_type" = NBT.tag_byte PRE116) := by
  have hlt := hv _ (cellIndex_lt (toU8 x) (toU8 z) (toU8 y))
  have h1 := block_of_encoded palette v hn hv secPre hP1 (Or.inl hB1) t1 x z y raw1 hC1 hS1
  have h2 := block_of_encoded palette v hn hv secPost hP2 (Or.inr hB2) t2 x z y raw2 hC2 hS2
  refine ⟨⟨palette[v (cellIndex (toU8 x) (toU8 z) (toU8 y))],
    List.getElem?_eq_getElem hlt, ?_, ?_⟩, ?_⟩
  · rw [h1]; exact List.getElem?_eq_getElem hlt
  · rw [h2]; exact List.getElem?_eq_getElem hlt
  · intro hL
    refine ⟨_, tagSections_getElem? raw2 _ secPost hS2, ?_⟩
    rw [tagSection_of_palette secPost palette hP2, child_setChild_self]
    have hsz : (secPost.child "BlockStates").size =
        (blockLength palette.length * 64) % 2 ^ 64 := by
      rw [hB2]
      exact (encodePost116_length_dense _ v (blockLength_ge _) (blockLength_le hn)).mpr hL
    rw [if_pos hsz]

/-- Witness of C3: with two palette entries (four bits) both layouts have 256
longs, both sections are tagged `PRE116`, and `block` reads the stone of cell
`(1, 0, 0)` from either. -/
theorem pre116_post116_equivalence_witness :
    block (sampleTerrain (tagSections [samplePre2])) 1 0 0 =
        some (paletteEntry "minecraft:stone") ∧
      block (sampleTerrain (tagSections [samplePost2])) 1 0 0 =
        some (paletteEntry "minecraft:stone") := by
  obtain ⟨⟨e, he, h1, h2⟩, _⟩ := pre116_post116_equivalence samplePalette2 sampleCells2
    (by decide) (fun i _ => Nat.mod_lt i (by decide)) samplePre2 samplePost2 rfl rfl rfl rfl
    (sampleTerrain (tagSections [samplePre2])) (sampleTerrain (tagSections [samplePost2]))
    1 0 0 [samplePre2] [samplePost2] rfl rfl rfl rfl
  have hs : samplePalette2[sampleCells2 (cellIndex (toU8 1) (toU8 0) (toU8 0))]?
      = some (paletteEntry "minecraft:stone") := rfl
  rw [hs] at he
  rw [h1, h2, ← he]
  exact ⟨rfl, rfl⟩

/-! ## Absent and skipped slabs -/

/-- Claim C5: absent and skipped slabs read as AIR. When the section at
`chunks[idx][y >> 4]` is an end sentinel or carries the tag `SKIP`, `block`
returns the `air` sentinel whatever the section holds; and whenever `block`
returns a value other than `air`, the section is tagged `PRE116` or
`POST116`, the only tags whose decoders read `BlockStates` and `Palette`. -/
theorem block_air_of_end_or_skip (t : Data) (x z y : Int) (secs : List NBT) (sec : NBT)
    (hC : t.chunks[chunkIndex t.map (CHUNK x) (CHUNK z)]? = some (NBT.tag_list secs))
    (hS : secs[toU64 (y >>> 4)]? = some sec) :
    ((sec = NBT.tag_end ∨ sec.child "_type" = NBT.tag_byte SKIP) →
      block t x z y = some air) ∧
    (∀ e, block t x z y = some e → e ≠ air →
      sec.child "_type" = NBT.tag_byte PRE116 ∨ sec.child "_type" = NBT.tag_byte POST116) := by
  rw [block_of_section t x z y secs sec hC hS]
  constructor
  · rintro (h | h)
    · subst h
      simp [NBT.is_end]
    · have hc := contains_of_child h (by simp)
      simp [hc, h, NBT.as_i8, SKIP, getBlock, blockAtEmpty]
  · intro e he hne
    by_cases hg : (!sec.is_end && sec.contains "_type") = true
    · rw [if_pos hg] at he
      cases hty : sec.child "_type" with
      | tag_byte ty =>
        rw [hty] at he
        simp only [NBT.as_i8] at he
        unfold getBlock at he
        by_cases h0 : ty = 0
        · subst h0
          simp [blockAtEmpty] at he
          exact absurd he.symm hne
        · by_cases h1 : ty = 1
          · subst h1; left; rfl
          · by_cases h2 : ty = 2
            · subst h2; right; rfl
            · simp [h0, h1, h2] at he
      | _ => rw [hty] at he; simp [NBT.as_i8] at he
    · rw [if_neg hg] at he
      simp at he
      exact absurd he.symm hne

/-- Witness of C5: in a chunk whose second slab is a section without palette,
tagged `SKIP`, the block at height 16 is `air`. -/
theorem block_air_of_end_or_skip_witness :
    block (sampleTerrain (tagSections [samplePre2, sampleNoPalette])) 3 5 16 = some air :=
  (block_air_of_end_or_skip (sampleTerrain (tagSections [samplePre2, sampleNoPalette]))
    3 5 16 (tagSections [samplePre2, sampleNoPalette]) (tagSection sampleNoPalette)
    rfl rfl).1 (Or.inr rfl)

/-! ## Tagging rule -/

theorem blockLength_mul_64 {n : Nat} (hn : n < 2 ^ 64) :
    (blockLength n * 64) % 2 ^ 64 = 64 * blockLength n := by
  have h : ceilLog2 n ≤ 64 := ceilLog2_le (Nat.le_of_lt hn)
  unfold blockLength
  omega

theorem tagSection_type (sec : NBT) :
    (tagSection sec).child "_type" = NBT.tag_byte
      (if !sec.is_compound || !sec.contains "Palette" then SKIP
       else if (sec.child "BlockStates").size =
          (blockLength (sec.child "Palette").size * 64) % 2 ^ 64 then PRE116
       else POST116) := by
  unfold tagSection
  by_cases h1 : (!sec.is_compound || !sec.contains "Palette") = true
  · rw [if_pos h1, if_pos h1, child_setChild_self]
  · rw [if_neg h1, if_neg h1]
    by_cases h2 : (sec.child "BlockStates").size =
        (blockLength (sec.child "Palette").size * 64) % 2 ^ 64
    · simp only [if_pos h2, child_setChild_self]
    · simp only [if_neg h2, child_setChild_self]

/-- Claim C6: tagging rule. For every section of the vector passed to
`tagSections`, the `_type` written is one of `SKIP`, `PRE116`, `POST116`; it
is `SKIP` exactly when the section is not a compound or has no `Palette`;
otherwise, for a palette length between 1 and the range of `size_t` and
`bits = max(ceil(log2(palette_len)), 4)`, it is `PRE116` exactly when the
`BlockStates` length equals `64 * bits`, and `POST116` exactly when it does
not. -/
theorem tagging_rule (sections : List NBT) (i : Nat) (sec : NBT)
    (h : sections[i]? = some sec) :
    ∃ tagged, (tagSections sections)[i]? = some tagged ∧
      (tagged.child "_type" = NBT.tag_byte SKIP ∨ tagged.child "_type" = NBT.tag_byte PRE116 ∨
        tagged.child "_type" = NBT.tag_byte POST116) ∧
      (tagged.child "_type" = NBT.tag_byte SKIP ↔
        (sec.is_compound = false ∨ sec.contains "Palette" = false)) ∧
      (sec.is_compound = true → sec.contains "Palette" = true →
        1 ≤ (sec.child "Palette").size → (sec.child "Palette").size < 2 ^ 64 →
        (tagged.child "_type" = NBT.tag_byte PRE116 ↔
          (sec.child "BlockStates").size = 64 * blockLength (sec.child "Palette").size) ∧
        (tagged.child "_type" = NBT.tag_byte POST116 ↔
          (sec.child "BlockStates").size ≠ 64 * blockLength (sec.child "Palette").size)) := by
  refine ⟨tagSection sec, tagSections_getElem? sections i sec h, ?_, ?_, ?_⟩
  · rw [tagSection_type]
    split
    · left; rfl
    · split
      · right; left; rfl
      · right; right; rfl
  · rw [tagSection_type]
    cases hc : sec.is_compound <;> cases hp : sec.contains "Palette" <;>
      simp [SKIP, PRE116, POST116]
    split <;> simp
  · intro hc hp _ hlt
    rw [tagSection_type, blockLength_mul_64 hlt]
    simp only [hc, hp, Bool.not_true, Bool.or_self, Bool.false_eq_true, if_false]
    by_cases hsz : (sec.child "BlockStates").size = 64 * blockLength (sec.child "Palette").size
    · simp [hsz, PRE116, POST116]
    · simp [hsz, PRE116, POST116]

/-- Witness of C6: the dense section of a two-entry palette has 256 longs and
is tagged `PRE116`. -/
theorem tagging_rule_witness :
    ∃ tagged, (tagSections [sampleNoPalette, samplePre2])[1]? = some tagged ∧
      tagged.child "_type" = NBT.tag_byte PRE116 := by
  obtain ⟨tagged, ht, _, _, hrule⟩ :=
    tagging_rule [sampleNoPalette, samplePre2] 1 samplePre2 rfl
  refine ⟨tagged, ht, ?_⟩
  have hsize : (samplePre2.child "BlockStates").size = 256 := by
    show (encodePre116 _ _).length = 256
    rw [encodePre116_length]; rfl
  exact ((hrule rfl rfl (by decide) (by decide)).1).mpr (hsize.trans rfl)

theorem child_of_not_contains {s : NBT} {key : String} (h : s.contains key = false) :
    s.child key = NBT.tag_end := by
  cases s with
  | tag_compound m =>
    simp only [NBT.contains] at h
    simp only [NBT.child]
    cases hl : NBT.lookup key m with
    | none => rfl
    | some w => rw [hl] at h; simp at h
  | _ => rfl

/-- Counterexample to C7: a section with a palette of one entry and a
`BlockStates` array of one long, which is neither the dense length (256) nor
the word-aligned length (256) for four bits, is tagged `POST116`, not
`SKIP`. -/
theorem malformed_section_not_skipped :
    sampleBadSizes.contains "Palette" = true ∧
    (sampleBadSizes.child "BlockStates").size ≠
      64 * blockLength (sampleBadSizes.child "Palette").size ∧
    (sampleBadSizes.child "BlockStates").size ≠
      (4096 + 64 / blockLength (sampleBadSizes.child "Palette").size - 1) /
        (64 / blockLength (sampleBadSizes.child "Palette").size) ∧
    ∃ tagged, tagSections [sampleBadSizes] = [tagged] ∧
      tagged.child "_type" = NBT.tag_byte POST116 ∧
      tagged.child "_type" ≠ NBT.tag_byte SKIP := by
  refine ⟨rfl, by decide, by decide, tagSection sampleBadSizes, rfl, ?_⟩
  have h : (tagSection sampleBadSizes).child "_type" = NBT.tag_byte POST116 := rfl
  rw [h]
  exact ⟨rfl, by simp [POST116, SKIP]⟩

/-- Claim C7, amended: a section that has a `Palette` (of a length between 1
and the range of `size_t`) but whose `BlockStates` is missing, or has a length
that is neither the dense length `64 * bits` nor the word-aligned length
`ceil(4096 / floor(64 / bits))`, is tagged `POST116` by `tagSections`. -/
theorem malformed_section_tagged_post116 (sections : List NBT) (i : Nat) (sec : NBT)
    (h : sections[i]? = some sec)
    (hc : sec.is_compound = true) (hp : sec.contains "Palette" = true)
    (_h1 : 1 ≤ (sec.child "Palette").size) (hlt : (sec.child "Palette").size < 2 ^ 64)
    (hbad : sec.contains "BlockStates" = false ∨
      ((sec.child "BlockStates").size ≠ 64 * blockLength (sec.child "Palette").size ∧
        (sec.child "BlockStates").size ≠
          (4096 + 64 / blockLength (sec.child "Palette").size - 1) /
            (64 / blockLength (sec.child "Palette").size))) :
    ∃ tagged, (tagSections sections)[i]? = some tagged ∧
      tagged.child "_type" = NBT.tag_byte POST116 := by
  refine ⟨tagSection sec, tagSections_getElem? sections i sec h, ?_⟩
  have hsz : (sec.child "BlockStates").size ≠ 64 * blockLength (sec.child "Palette").size := by
    rcases hbad with hb | hb
    · rw [child_of_not_contains hb]
      have := blockLength_ge (sec.child "Palette").size
      have h0 : NBT.tag_end.size = 0 := rfl
      rw [h0]
      omega
    · exact hb.1
  rw [tagSection_type, blockLength_mul_64 hlt]
  simp only [hc, hp, Bool.not_true, Bool.or_self, Bool.false_eq_true, if_false, if_neg hsz]

/-- Witness of C7, amended: the section with one long of block states is
tagged `POST116`. -/
theorem malformed_section_tagged_post116_witness :
    ∃ tagged, (tagSections [sampleBadSizes])[0]? = some tagged ∧
      tagged.child "_type" = NBT.tag_byte POST116 :=
  malformed_section_tagged_post116 [sampleBadSizes] 0 sampleBadSizes rfl rfl rfl
    (by decide) (by decide) (Or.inr ⟨by decide, by decide⟩)

/-! ## Chunk addressing -/

theorem toI32_of_range {w : Int} (h1 : -(2 ^ 31) ≤ w) (h2 : w < 2 ^ 31) : toI32 w = w := by
  unfold toI32
  split <;> omega

theorem toU64_of_range {w : Int} (h1 : 0 ≤ w) (h2 : w < 2 ^ 64) : ((toU64 w : Nat) : Int) = w := by
  unfold toU64
  omega

theorem chunkIndex_eq (map : Coordinates)
    (hminX : -(2 ^ 31) ≤ map.minX) (hX : map.minX ≤ map.maxX)
    (hwidth : map.maxX - map.minX + 1 < 2 ^ 31)
    (hminZ : -(2 ^ 31) ≤ map.minZ) (hmaxZ : map.maxZ < 2 ^ 31)
    (cx cz : Int) (hx1 : map.minX ≤ cx) (hx2 : cx ≤ map.maxX)
    (hz1 : map.minZ ≤ cz) (hz2 : cz ≤ map.maxZ) :
    ((chunkIndex map cx cz : Nat) : Int) =
      (cx - map.minX) + (cz - map.minZ) * (map.maxX - map.minX + 1) := by
  have _h := hminX
  unfold chunkIndex
  rw [toI32_of_range (by omega) (by omega)]
  apply toU64_of_range
  · have : 0 ≤ (cz - map.minZ) * (map.maxX - map.minX + 1) :=
      Int.mul_nonneg (by omega) (by omega)
    omega
  · have h : (cz - map.minZ) * (map.maxX - map.minX + 1) ≤ 2 ^ 32 * 2 ^ 31 :=
      Int.mul_le_mul (by omega) (by omega) (by omega) (by omega)
    omega

/-- Claim C8: chunk-index round trip. For a rectangle with `minX ≤ maxX` and
`minZ ≤ maxZ` whose bounds are 32-bit integers and whose width
`maxX - minX + 1` is an `int` (every rectangle of chunk coordinates is one),
and every chunk `(cx, cz)` inside it, `chunkIndex` lies below
`(maxX - minX + 1) * (maxZ - minZ + 1)`, and another chunk of the rectangle
with the same index is the same chunk. -/
theorem chunkIndex_round_trip (map : Coordinates)
    (hminX : -(2 ^ 31) ≤ map.minX) (hX : map.minX ≤ map.maxX)
    (hwidth : map.maxX - map.minX + 1 < 2 ^ 31)
    (hminZ : -(2 ^ 31) ≤ map.minZ) (hZ : map.minZ ≤ map.maxZ) (hmaxZ : map.maxZ < 2 ^ 31)
    (cx cz : Int) (hx1 : map.minX ≤ cx) (hx2 : cx ≤ map.maxX)
    (hz1 : map.minZ ≤ cz) (hz2 : cz ≤ map.maxZ) :
    ((chunkIndex map cx cz : Nat) : Int) <
        (map.maxX - map.minX + 1) * (map.maxZ - map.minZ + 1) ∧
    ∀ cx2 cz2 : Int, map.minX ≤ cx2 → cx2 ≤ map.maxX → map.minZ ≤ cz2 → cz2 ≤ map.maxZ →
      chunkIndex map cx cz = chunkIndex map cx2 cz2 → cx = cx2 ∧ cz = cz2 := by
  have _hZ := hZ
  have he := chunkIndex_eq map hminX hX hwidth hminZ hmaxZ cx cz hx1 hx2 hz1 hz2
  constructor
  · rw [he]
    nlinarith [Int.mul_le_mul_of_nonneg_right (show cz - map.minZ ≤ map.maxZ - map.minZ by omega)
      (show 0 ≤ map.maxX - map.minX + 1 by omega)]
  · intro cx2 cz2 h1 h2 h3 h4 heq
    have he2 := chunkIndex_eq map hminX hX hwidth hminZ hmaxZ cx2 cz2 h1 h2 h3 h4
    rw [← heq, he] at he2
    have hz : cz = cz2 := by
      rcases Int.lt_trichotomy cz cz2 with hlt | heq2 | hgt
      · exfalso
        nlinarith [Int.mul_le_mul_of_nonneg_right (show cz + 1 - map.minZ ≤ cz2 - map.minZ by omega)
          (show 0 ≤ map.maxX - map.minX + 1 by omega)]
      · exact heq2
      · exfalso
        nlinarith [Int.mul_le_mul_of_nonneg_right (show cz2 + 1 - map.minZ ≤ cz - map.minZ by omega)
          (show 0 ≤ map.maxX - map.minX + 1 by omega)]
    subst hz
    exact ⟨by omega, rfl⟩

/-- Witness of C8: in the rectangle `[-2, 1] × [-1, 3]` of twenty chunks, the
chunk `(-1, 2)` has index 13. -/
theorem chunkIndex_round_trip_witness :
    chunkIndex sampleRect (-1) 2 = 13 ∧
    ∀ cx2 cz2 : Int, -2 ≤ cx2 → cx2 ≤ 1 → -1 ≤ cz2 → cz2 ≤ 3 →
      chunkIndex sampleRect (-1) 2 = chunkIndex sampleRect cx2 cz2 → -1 = cx2 ∧ 2 = cz2 :=
  ⟨by decide, (chunkIndex_round_trip sampleRect (by decide) (by decide) (by decide)
    (by decide) (by decide) (by decide) (-1) 2 (by decide) (by decide) (by decide)
    (by decide)).2⟩

/-! ## Hole inflation -/



theorem insertIdx_length_append (A B : List NBT) (x : NBT) :
    (A ++ B).insertIdx A.length x = A ++ x :: B := by
  induction A with
  | nil => simp
  | cons a A ih => simp [List.insertIdx_succ_cons, ih]

theorem toI8_of_range {w : Int} (h1 : -(2 ^ 7) ≤ w) (h2 : w < 2 ^ 7) : toI8 w = w := by
  unfold toI8
  split <;> omega

theorem toU8_of_range {w : Int} (h1 : 0 ≤ w) (h2 : w < 2 ^ 8) : toU8 w = w.toNat := by
  unfold toU8
  omega

theorem insertGap_spec : ∀ (d : Nat) (A B : List NBT) (it : Nat) (index : Int),
    it + 1 = A.length → -(2 ^ 7) ≤ index → index + d < 2 ^ 7 →
    insertGap d (A ++ B) it index =
      (A ++ (List.replicate d NBT.tag_end ++ B), it + d, index + d) := by
  intro d
  induction d with
  | zero => intro A B it index _ _ _; simp [insertGap]
  | succ d ih =>
    intro A B it index hit h1 h2
    unfold insertGap
    rw [hit, insertIdx_length_append, toI8_of_range (by omega) (by omega)]
    have e : A ++ NBT.tag_end :: B = (A ++ [NBT.tag_end]) ++ B := by simp
    rw [e, ih (A ++ [NBT.tag_end]) B A.length (index + 1) (by simp) (by omega)
      (by push_cast at h2 ⊢; omega)]
    simp only [List.append_assoc, List.singleton_append, List.replicate_succ, List.cons_append,
      Prod.mk.injEq, true_and]
    refine ⟨by simp, by omega, by push_cast; omega⟩

theorem inflateLoop_spec : ∀ (rest done : List NBT) (cur : NBT) (index : Int) (fuel : Nat),
    sectionY cur = some index → -(2 ^ 7) ≤ index → Ascending index rest → rest.length < fuel →
    inflateLoop fuel (done ++ cur :: rest) done.length index =
      some (done ++ gapFill (cur :: rest)) := by
  intro rest
  induction rest with
  | nil =>
    intro done cur index fuel _ _ _ hf
    obtain ⟨f, rfl⟩ : ∃ f, fuel = f + 1 := ⟨fuel - 1, by simp at hf; omega⟩
    unfold inflateLoop
    simp [gapFill]
  | cons s2 rest ih =>
    intro done cur index fuel hcur hlo hasc hf
    obtain ⟨f, rfl⟩ : ∃ f, fuel = f + 1 := ⟨fuel - 1, by simp at hf; omega⟩
    obtain ⟨y2, hy2, hlt, h127, hrest⟩ := hasc
    unfold inflateLoop
    have hcond : done.length ≠ (done ++ cur :: s2 :: rest).length ∧
        done.length + 1 ≠ (done ++ cur :: s2 :: rest).length := by
      simp only [List.length_append, List.length_cons]; omega
    have hnext : (done ++ cur :: s2 :: rest)[done.length + 1]? = some s2 := by
      rw [List.getElem?_append_right (by omega)]
      simp
    have hy2c : (s2.child "Y").as_i8 = some y2 := hy2
    rw [if_pos hcond, hnext]
    simp only [hy2c]
    rw [toU8_of_range (by omega) (by omega)]
    have e : done ++ cur :: s2 :: rest = (done ++ [cur]) ++ (s2 :: rest) := by simp
    have hd : ((y2 - index - 1).toNat : Int) = y2 - index - 1 := by omega
    rw [e, insertGap_spec _ (done ++ [cur]) (s2 :: rest) done.length index (by simp) hlo
      (by rw [hd]; omega)]
    simp only []
    rw [hd, toI8_of_range (by omega) (by omega)]
    have e2 : done ++ [cur] ++ (List.replicate (y2 - index - 1).toNat NBT.tag_end ++ s2 :: rest)
        = (done ++ cur :: List.replicate (y2 - index - 1).toNat NBT.tag_end) ++ s2 :: rest := by
      simp
    have e3 : done.length + (y2 - index - 1).toNat + 1
        = (done ++ cur :: List.replicate (y2 - index - 1).toNat NBT.tag_end).length := by
      simp; omega
    have e4 : index + (y2 - index - 1) + 1 = y2 := by omega
    rw [e2, e3, e4, ih _ s2 y2 f hy2 (by omega) hrest (by simp at hf; omega)]
    simp [gapFill, hcur, hy2]


theorem Ascending_mem : ∀ (secs : List NBT) (lo : Int), Ascending lo secs →
    ∀ s ∈ secs, ∃ y, sectionY s = some y ∧ lo < y ∧ y ≤ 127 := by
  intro secs
  induction secs with
  | nil => intro lo _ s hs; simp at hs
  | cons a rest ih =>
    intro lo h s hs
    obtain ⟨y, hy, hlt, h127, hrest⟩ := h
    rcases List.mem_cons.mp hs with rfl | hmem
    · exact ⟨y, hy, hlt, h127⟩
    · obtain ⟨y2, h1, h2, h3⟩ := ih y hrest s hmem
      exact ⟨y2, h1, by omega, h3⟩

theorem Ascending_last : ∀ (rest : List NBT) (cur : NBT) (lo : Int) (last : NBT),
    Ascending lo (cur :: rest) → (cur :: rest).getLast? = some last →
    ∃ t, sectionY last = some t ∧ lo < t ∧ t ≤ 127 := by
  intro rest cur lo last h hl
  exact Ascending_mem _ lo h last (List.mem_of_getLast?_eq_some hl)

theorem slabAt_of_lt (secs : List NBT) (k : Nat)
    (h : ∀ s ∈ secs, ∃ y, sectionY s = some y ∧ (k : Int) < y) :
    slabAt secs k = NBT.tag_end := by
  unfold slabAt
  have hnone : secs.find? (fun s => decide (sectionY s = some (k : Int))) = none := by
    rw [List.find?_eq_none]
    intro s hs
    obtain ⟨y, hy, hlt⟩ := h s hs
    simp only [hy, decide_eq_true_eq, Option.some.injEq]
    omega
  rw [hnone]

theorem slabAt_cons_self (cur : NBT) (rest : List NBT) (k : Nat)
    (h : sectionY cur = some (k : Int)) : slabAt (cur :: rest) k = cur := by
  unfold slabAt
  simp [List.find?_cons, h]

theorem slabAt_cons_ne (cur : NBT) (rest : List NBT) (k : Nat) (y : Int)
    (h : sectionY cur = some y) (hne : y ≠ (k : Int)) :
    slabAt (cur :: rest) k = slabAt rest k := by
  unfold slabAt
  simp [List.find?_cons, h, hne]

theorem dense_prefix (secs : List NBT) (lo y : Nat)
    (h : ∀ s ∈ secs, ∃ ys, sectionY s = some ys ∧ (y : Int) ≤ ys) :
    (List.range' lo (y - lo)).map (slabAt secs) = List.replicate (y - lo) NBT.tag_end := by
  rw [List.eq_replicate_iff]
  refine ⟨by simp, ?_⟩
  intro b hb
  obtain ⟨k, hk, rfl⟩ := List.mem_map.mp hb
  rw [List.mem_range'_1] at hk
  apply slabAt_of_lt
  intro s hs
  obtain ⟨ys, h1, h2⟩ := h s hs
  exact ⟨ys, h1, by omega⟩

theorem gapFill_dense : ∀ (rest : List NBT) (cur : NBT) (y lo top : Nat),
    sectionY cur = some (y : Int) → lo ≤ y → Ascending (y : Int) rest →
    (∀ last, (cur :: rest).getLast? = some last → sectionY last = some (top : Int)) →
    List.replicate (y - lo) NBT.tag_end ++ gapFill (cur :: rest) =
      (List.range' lo (top + 1 - lo)).map (slabAt (cur :: rest)) := by
  intro rest
  induction rest with
  | nil =>
    intro cur y lo top hcur hlo _ hlast
    have ht := hlast cur rfl
    have hty : top = y := by
      rw [hcur] at ht
      simp only [Option.some.injEq] at ht
      omega
    subst hty
    have e : top + 1 - lo = (top - lo) + 1 := by omega
    rw [e, List.range'_concat, List.map_append, dense_prefix [cur] lo top
      (by intro s hs; simp at hs; subst hs; exact ⟨_, hcur, le_refl _⟩)]
    have e2 : lo + 1 * (top - lo) = top := by omega
    rw [e2, List.map_cons, List.map_nil, slabAt_cons_self cur [] top hcur]
    rfl
  | cons s2 rest ih =>
    intro cur y lo top hcur hlo hasc hlast
    have hasc2 := hasc
    obtain ⟨y2, hy2, hlt, h127, hrest⟩ := hasc
    obtain ⟨y2n, rfl⟩ : ∃ n : Nat, y2 = (n : Int) := ⟨y2.toNat, by omega⟩
    have hlast2 : ∀ last, (s2 :: rest).getLast? = some last → sectionY last = some (top : Int) := by
      intro last hl
      apply hlast
      rw [List.getLast?_cons_cons]; exact hl
    obtain ⟨last, hl⟩ : ∃ last, (s2 :: rest).getLast? = some last := by
      cases h : (s2 :: rest).getLast? with
      | none => simp at h
      | some l => exact ⟨l, rfl⟩
    obtain ⟨t, ht1, ht2, _⟩ := Ascending_last rest s2 (y : Int) last hasc2 hl
    have htop : y < top := by
      rw [hlast2 last hl] at ht1
      simp only [Option.some.injEq] at ht1
      omega
    have hall : ∀ s ∈ cur :: s2 :: rest, ∃ ys, sectionY s = some ys ∧ (y : Int) ≤ ys := by
      intro s hs
      rcases List.mem_cons.mp hs with rfl | hmem
      · exact ⟨_, hcur, le_refl _⟩
      · obtain ⟨ys, h1, h2, _⟩ := Ascending_mem _ _ hasc2 s hmem
        exact ⟨ys, h1, by omega⟩
    have e : top + 1 - lo = (top - y) + 1 + (y - lo) := by omega
    have e1 : lo + 1 * (y - lo) = y := by omega
    have hsplit : List.range' lo (top + 1 - lo) =
        List.range' lo (y - lo) ++ (y :: List.range' (y + 1) (top - y)) := by
      rw [e, ← List.range'_append lo (y - lo) ((top - y) + 1) 1, e1, List.range'_succ]
    have htail : (List.range' (y + 1) (top - y)).map (slabAt (cur :: s2 :: rest)) =
        (List.range' (y + 1) (top - y)).map (slabAt (s2 :: rest)) := by
      apply List.map_congr_left
      intro k hk
      rw [List.mem_range'_1] at hk
      exact slabAt_cons_ne cur _ k _ hcur (by omega)
    have hih := ih s2 y2n (y + 1) top hy2 (by omega) hrest hlast2
    have e3 : top + 1 - (y + 1) = top - y := by omega
    rw [e3] at hih
    rw [hsplit, List.map_append, dense_prefix _ lo y hall, List.map_cons,
      slabAt_cons_self cur _ y hcur, htail, ← hih]
    have e4 : (((y2n : Int) - (y : Int) - 1).toNat) = y2n - (y + 1) := by omega
    simp [gapFill, hcur, hy2, e4]

theorem gapFill_filter : ∀ (secs : List NBT), (∀ s ∈ secs, s.is_end = false) →
    (gapFill secs).filter (fun s => !s.is_end) = secs := by
  intro secs
  induction secs with
  | nil => intro _; simp [gapFill]
  | cons a rest ih =>
    intro h
    have ha : a.is_end = false := h a (by simp)
    have hr := ih (fun s hs => h s (by simp [hs]))
    cases rest with
    | nil => simp [gapFill, ha]
    | cons b rest2 =>
      simp only [gapFill, List.filter_cons, ha, Bool.not_false, if_true, List.filter_append,
        List.filter_replicate]
      have he : (!NBT.tag_end.is_end) = false := rfl
      simp only [he, Bool.false_eq_true, if_false, List.nil_append]
      rw [hr]

theorem is_end_of_sectionY {s : NBT} {y : Int} (h : sectionY s = some y) : s.is_end = false := by
  cases s <;> simp [sectionY, NBT.child, NBT.as_i8, NBT.is_end] at h ⊢


theorem Ascending_of_ys : ∀ (sections : List NBT) (ys : List Int) (lo : Int),
    sections.map sectionY = ys.map some → ys.Pairwise (· < ·) →
    (∀ y ∈ ys, lo < y ∧ y ≤ 127) → Ascending lo sections := by
  intro sections
  induction sections with
  | nil => intro ys lo _ _ _; trivial
  | cons s rest ih =>
    intro ys lo hY hasc hb
    cases ys with
    | nil => simp at hY
    | cons y ys2 =>
      simp only [List.map_cons, List.cons.injEq] at hY
      rw [List.pairwise_cons] at hasc
      refine ⟨y, hY.1, (hb y (by simp)).1, (hb y (by simp)).2, ?_⟩
      apply ih ys2 y hY.2 hasc.2
      intro y2 hy2
      exact ⟨hasc.1 y2 hy2, (hb y2 (by simp [hy2])).2⟩

/-- Claim C4: dense sections after hole inflation. For a non-empty vector of
sections whose `Y` values are bytes, strictly ascending, the first one not
negative, `inflateChunk` yields a vector of length `Y_last + 1` whose position
`k` is the input section with `Y = k` when there is one and an end sentinel
otherwise; the entries that are not end sentinels are the input sections, in
their order. -/
theorem inflateChunk_dense (sections : List NBT) (ys : List Int) (yLast : Int)
    (hY : sections.map sectionY = ys.map some) (hasc : ys.Pairwise (· < ·))
    (hfirst : ∀ y, ys.head? = some y → 0 ≤ y) (hi8 : ∀ y ∈ ys, y ≤ 127)
    (hlast : ys.getLast? = some yLast) :
    ∃ out, inflateChunk sections = some out ∧ out.length = yLast.toNat + 1 ∧
      (∀ k, k ≤ yLast.toNat → out[k]? = some (slabAt sections k)) ∧
      out.filter (fun s => !s.is_end) = sections := by
  cases ys with
  | nil => simp at hlast
  | cons y0 ys2 =>
    cases sections with
    | nil => simp at hY
    | cons cur rest =>
      have hY0 := hY
      simp only [List.map_cons, List.cons.injEq] at hY
      obtain ⟨hcur, hrestY⟩ := hY
      have h0 : 0 ≤ y0 := hfirst y0 rfl
      have hasc0 := hasc
      rw [List.pairwise_cons] at hasc
      have hrest : Ascending y0 rest :=
        Ascending_of_ys rest ys2 y0 hrestY hasc.2
          (fun y hy => ⟨hasc.1 y hy, hi8 y (by simp [hy])⟩)
      obtain ⟨y0n, rfl⟩ : ∃ n : Nat, y0 = (n : Int) := ⟨y0.toNat, by omega⟩
      have hlastmem : yLast ∈ (y0n : Int) :: ys2 := List.mem_of_getLast?_eq_some hlast
      have hlast0 : 0 ≤ yLast := by
        rcases List.mem_cons.mp hlastmem with h | h
        · omega
        · have := hasc.1 yLast h; omega
      obtain ⟨top, rfl⟩ : ∃ n : Nat, yLast = (n : Int) := ⟨yLast.toNat, by omega⟩
      have hlastS : ∀ last, (cur :: rest).getLast? = some last →
          sectionY last = some (top : Int) := by
        intro last hl
        have h1 : ((cur :: rest).map sectionY).getLast? = some (sectionY last) := by
          rw [List.getLast?_map, hl]; rfl
        rw [hY0, List.getLast?_map, hlast] at h1
        simp only [Option.map_some', Option.some.injEq] at h1
        exact h1.symm
      have hloop := inflateLoop_spec rest (List.replicate y0n NBT.tag_end) cur (y0n : Int)
        (rest.length + 1) hcur (by omega) hrest (by omega)
      rw [List.length_replicate] at hloop
      have hdense := gapFill_dense rest cur y0n 0 top hcur (Nat.zero_le _) hrest hlastS
      simp only [Nat.sub_zero] at hdense
      have hcurY : (cur.child "Y").as_i8 = some (y0n : Int) := hcur
      refine ⟨(List.range' 0 (top + 1)).map (slabAt (cur :: rest)), ?_, ?_, ?_, ?_⟩
      · unfold inflateChunk
        simp only [List.head?_cons, hcurY, List.length_cons, Int.toNat_ofNat]
        rw [if_neg (by omega), hloop, hdense]
      · simp
      · intro k hk
        simp only [Int.toNat_ofNat] at hk
        rw [List.getElem?_map, List.getElem?_range' _ _ (by omega)]
        simp
      · rw [← hdense, List.filter_append, List.filter_replicate]
        have he : (!NBT.tag_end.is_end) = false := rfl
        simp only [he, Bool.false_eq_true, if_false, List.nil_append]
        apply gapFill_filter
        intro s hs
        rcases List.mem_cons.mp hs with rfl | hmem
        · exact is_end_of_sectionY hcur
        · obtain ⟨y, hy, _⟩ := Ascending_mem rest _ hrest s hmem
          exact is_end_of_sectionY hy

/-- Witness of C4: sections at the heights 0, 3 and 5 give a vector of length
6 with end sentinels at the positions 1, 2 and 4. -/
theorem inflateChunk_dense_witness :
    ∃ out, inflateChunk sampleSparse = some out ∧ out.length = 6 ∧
      out[1]? = some NBT.tag_end ∧ out[2]? = some NBT.tag_end ∧
      out[3]? = some (sampleSection 3 samplePalette2 []) ∧ out[4]? = some NBT.tag_end := by
  obtain ⟨out, h1, h2, h3, _⟩ := inflateChunk_dense sampleSparse [0, 3, 5] 5 rfl
    (by decide) (by intro y hy; simp at hy; omega) (by decide) rfl
  exact ⟨out, h1, h2, h3 1 (by decide), h3 2 (by decide), h3 3 (by decide), h3 4 (by decide)⟩



/-! ## Height records -/

/-- Claim C9, evaluated at the failing input: for a chunk whose sections have
the heights 0 to 15, the height byte wraps and `maxHeight(x, z)` returns 0,
not `(15 + 1) * 16 = 256`; `minHeight(x, z)` returns `0 * 16`. -/
theorem full_height_chunk_max_wraps :
    (loadChunk (sampleTerrain []) 0 0 sampleFullHeight).bind (fun t => maxHeightAt t 5 7)
        = some 0 ∧
      (loadChunk (sampleTerrain []) 0 0 sampleFullHeight).bind (fun t => minHeightAt t 5 7)
        = some 0 := by
  constructor <;> decide


/-- For heights up to 14 the record is exact: sections at 0, 3 and 5 give a
top of 96 and a bottom of 0. -/
theorem sparse_chunk_heights :
    (loadChunk (sampleTerrain []) 0 0 sampleSparse).bind (fun t => maxHeightAt t 5 7)
        = some 96 ∧
      (loadChunk (sampleTerrain []) 0 0 sampleSparse).bind (fun t => minHeightAt t 5 7)
        = some 0 := by
  constructor <;> decide

/-! ## Draw order -/

theorem mem_renderOrder (sizeX sizeZ minY maxY : Nat) (top : Nat → Nat → Nat)
    (p : Nat × Nat × Nat) (h : p ∈ renderOrder sizeX sizeZ minY maxY top) :
    p.1 ≤ sizeX ∧ p.2.1 ≤ sizeZ ∧ p.2.2 < maxY := by
  unfold renderOrder at h
  simp only [List.mem_flatMap, List.mem_range, List.mem_map, List.mem_range'_1] at h
  obtain ⟨x, hx, z, hz, y, hy, rfl⟩ := h
  simp only
  omega

theorem renderOrder_sorted (sizeX sizeZ minY maxY : Nat) (top : Nat → Nat → Nat) :
    (renderOrder sizeX sizeZ minY maxY top).Pairwise drawnBefore := by
  unfold renderOrder
  rw [List.pairwise_flatMap]
  constructor
  · intro x _
    rw [List.pairwise_flatMap]
    constructor
    · intro z _
      rw [List.pairwise_map]
      refine List.Pairwise.imp ?_ (List.pairwise_lt_range' minY _)
      intro y1 y2 hlt
      right
      exact ⟨rfl, Or.inr ⟨rfl, hlt⟩⟩
    · refine List.Pairwise.imp ?_ (List.pairwise_lt_range (sizeZ + 1))
      intro z1 z2 hlt p hp q hq
      simp only [List.mem_map, List.mem_range'_1] at hp hq
      obtain ⟨y1, _, rfl⟩ := hp
      obtain ⟨y2, _, rfl⟩ := hq
      right
      exact ⟨rfl, Or.inl hlt⟩
  · refine List.Pairwise.imp ?_ (List.pairwise_lt_range (sizeX + 1))
    intro x1 x2 hlt p hp q hq
    simp only [List.mem_flatMap, List.mem_range, List.mem_map, List.mem_range'_1] at hp hq
    obtain ⟨z1, _, y1, _, rfl⟩ := hp
    obtain ⟨z2, _, y2, _, rfl⟩ := hq
    left
    exact hlt

theorem toU64_inj_near (a b : Int) (h : toU64 a = toU64 b) (h1 : a - b < 2 ^ 64)
    (h2 : b - a < 2 ^ 64) : a = b := by
  unfold toU64 at h
  omega

theorem same_pixel_order (height : Int) (sizeX sizeZ maxY : Nat) (offsetY : Int)
    (hsx : sizeX < 2 ^ 32) (hsz : sizeZ < 2 ^ 32) (hmax : maxY ≤ 255)
    (hoff : 1 ≤ offsetY) (hprod : 255 * offsetY < 2 ^ 31)
    (x1 z1 y1 x2 z2 y2 : Nat)
    (hx1 : x1 ≤ sizeX) (hz1 : z1 ≤ sizeZ) (hy1 : y1 < maxY)
    (hx2 : x2 ≤ sizeX) (hz2 : z2 ≤ sizeZ) (hy2 : y2 < maxY)
    (hbefore : drawnBefore (x1, z1, y1) (x2, z2, y2))
    (hX : bmpPosX sizeZ x1 z1 = bmpPosX sizeZ x2 z2)
    (hY : bmpPosY height sizeX sizeZ offsetY x1 z1 y1 =
      bmpPosY height sizeX sizeZ offsetY x2 z2 y2) :
    x1 < x2 ∧ z1 < z2 ∧ y1 < y2 := by
  have hp1 : 0 ≤ (y1 : Int) * offsetY := Int.mul_nonneg (by omega) (by omega)
  have hp2 : 0 ≤ (y2 : Int) * offsetY := Int.mul_nonneg (by omega) (by omega)
  have hq1 : (y1 : Int) * offsetY ≤ 255 * offsetY :=
    Int.mul_le_mul_of_nonneg_right (by omega) (by omega)
  have hq2 : (y2 : Int) * offsetY ≤ 255 * offsetY :=
    Int.mul_le_mul_of_nonneg_right (by omega) (by omega)
  have hmono : y1 < y2 → (y1 : Int) * offsetY < (y2 : Int) * offsetY := fun h =>
    Int.mul_lt_mul_of_pos_right (by omega) (by omega)
  have hmono2 : y2 ≤ y1 → (y2 : Int) * offsetY ≤ (y1 : Int) * offsetY := fun h =>
    Int.mul_le_mul_of_nonneg_right (by omega) (by omega)
  unfold bmpPosY at hY
  rw [toI32_of_range (by omega) (by omega), toI32_of_range (by omega) (by omega)] at hY
  have hd := toU64_inj_near _ _ hX (by omega) (by omega)
  have hs := toU64_inj_near _ _ hY (by omega) (by omega)
  clear hX hY
  unfold drawnBefore at hbefore
  simp only at hbefore
  rcases hbefore with h | ⟨h, h2 | ⟨h2, h3⟩⟩
  · refine ⟨h, by omega, ?_⟩
    by_contra hc
    have := hmono2 (by omega)
    omega
  · omega
  · have := hmono h3
    omega


/-- Claim C10: overdraw freedom. For canvas sizes below `2^32`, a vertical
range of bytes and `offsetY ≥ 1` (with `255 * offsetY` in the range of `int`),
if two points visited by the loops of `render`, the first before the second,
have equal `bmpPosX` and equal `bmpPosY`, then the one visited later has the
strictly larger `x`, the strictly larger `z` and the strictly larger `y`; so
two columns never share a pixel at the same `y`. -/
theorem overdraw_freedom (height : Int) (sizeX sizeZ minY maxY : Nat)
    (top : Nat → Nat → Nat) (offsetY : Int)
    (hsx : sizeX < 2 ^ 32) (hsz : sizeZ < 2 ^ 32) (hmax : maxY ≤ 255)
    (hoff : 1 ≤ offsetY) (hprod : 255 * offsetY < 2 ^ 31)
    (i j : Nat) (hij : i < j) (x1 z1 y1 x2 z2 y2 : Nat)
    (hp : (renderOrder sizeX sizeZ minY maxY top)[i]? = some (x1, z1, y1))
    (hq : (renderOrder sizeX sizeZ minY maxY top)[j]? = some (x2, z2, y2))
    (hX : bmpPosX sizeZ x1 z1 = bmpPosX sizeZ x2 z2)
    (hY : bmpPosY height sizeX sizeZ offsetY x1 z1 y1 =
      bmpPosY height sizeX sizeZ offsetY x2 z2 y2) :
    x1 < x2 ∧ z1 < z2 ∧ y1 < y2 := by
  obtain ⟨hi, hpi⟩ := List.getElem?_eq_some_iff.mp hp
  obtain ⟨hj, hqj⟩ := List.getElem?_eq_some_iff.mp hq
  have hsorted := List.pairwise_iff_getElem.mp
    (renderOrder_sorted sizeX sizeZ minY maxY top) i j hi hj hij
  rw [hpi, hqj] at hsorted
  have hm1 := mem_renderOrder sizeX sizeZ minY maxY top _ (hpi ▸ List.getElem_mem hi)
  have hm2 := mem_renderOrder sizeX sizeZ minY maxY top _ (hqj ▸ List.getElem_mem hj)
  exact same_pixel_order height sizeX sizeZ maxY offsetY hsx hsz hmax hoff hprod
    x1 z1 y1 x2 z2 y2 hm1.1 hm1.2.1 hm1.2.2 hm2.1 hm2.2.1 hm2.2.2 hsorted hX hY

/-- Witness of C10: on a canvas of 4 by 4 columns with `offsetY = 3`, the
points `(0, 0, 0)` and `(3, 3, 2)` fall on the same pixel, and the second is
drawn later. -/
theorem overdraw_freedom_witness :
    (renderOrder 3 3 0 4 (fun _ _ => 16))[0]? = some (0, 0, 0) ∧
    (renderOrder 3 3 0 4 (fun _ _ => 16))[62]? = some (3, 3, 2) ∧
    bmpPosX 3 0 0 = bmpPosX 3 3 3 ∧
    bmpPosY 100 3 3 3 0 0 0 = bmpPosY 100 3 3 3 3 3 2 ∧
    (0 < 3 ∧ 0 < 3 ∧ 0 < 2) :=
  ⟨by decide, by decide, by decide, by decide,
    overdraw_freedom 100 3 3 0 4 (fun _ _ => 16) 3 (by decide) (by decide) (by decide)
      (by decide) (by decide) 0 62 (by decide) 0 0 0 3 3 2 (by decide) (by decide)
      (by decide) (by decide)⟩

/-! ## Region slots -/

/-- The shift `>>` of a signed value by a constant is the floor division by
the power of two. -/
theorem shiftRight_int (c : Int) (n : Nat) : c >>> (n : Int) = c / ((2 ^ n : Nat) : Int) := by
  cases c with
  | ofNat m =>
    rw [Int.ofNat_eq_coe, Int.shiftRight_coe_nat, Nat.shiftRight_eq_div_pow]
    norm_cast
  | negSucc m =>
    rw [Int.shiftRight_negSucc, Nat.shiftRight_eq_div_pow,
      Int.negSucc_ediv m (by exact_mod_cast Nat.two_pow_pos n)]
    rw [Int.negSucc_eq]
    norm_cast

theorem andI64_31 (c : Int) : andI64 c 31 = c % 32 := by
  unfold andI64
  have h31 : toU64 31 = 2 ^ 5 - 1 := by decide
  rw [h31, Nat.and_pow_two_sub_one_eq_mod]
  unfold toU64 toI64
  split <;> omega

/-- Claim C16: region slot mapping. For a region `(regionX, regionZ)` whose
coordinates shifted by 5 are `int` values and a slot `it < 1024`, the chunk
`((regionX << 5) + (it & 31), (regionZ << 5) + (it >> 5))` satisfies
`chunkX >> 5 = regionX` and `chunkZ >> 5 = regionZ`, the slot is
`(chunkX & 31) + 32 * (chunkZ & 31)`, another slot with the same chunk is the
same slot, and every chunk of the region is the chunk of the slot
`(chunkX & 31) + 32 * (chunkZ & 31)`, negative coordinates included. -/
theorem region_slot_mapping (regionX regionZ : Int)
    (hx1 : -(2 ^ 26) ≤ regionX) (hx2 : regionX < 2 ^ 26)
    (hz1 : -(2 ^ 26) ≤ regionZ) (hz2 : regionZ < 2 ^ 26)
    (it : Nat) (hit : it < 1024) :
    (slotChunk regionX regionZ it).1 >>> 5 = regionX ∧
    (slotChunk regionX regionZ it).2 >>> 5 = regionZ ∧
    toU64 (andI64 (slotChunk regionX regionZ it).1 31) +
      32 * toU64 (andI64 (slotChunk regionX regionZ it).2 31) = it ∧
    (∀ it2, it2 < 1024 → slotChunk regionX regionZ it2 = slotChunk regionX regionZ it →
      it2 = it) ∧
    (∀ cx cz : Int, cx >>> 5 = regionX → cz >>> 5 = regionZ →
      toU64 (andI64 cx 31) + 32 * toU64 (andI64 cz 31) < 1024 ∧
      slotChunk regionX regionZ (toU64 (andI64 cx 31) + 32 * toU64 (andI64 cz 31))
        = (cx, cz)) := by
  have hslot : ∀ k, k < 1024 → slotChunk regionX regionZ k =
      (regionX * 32 + ((k % 32 : Nat) : Int), regionZ * 32 + ((k / 32 : Nat) : Int)) := by
    intro k hk
    unfold slotChunk
    have ha : k &&& 0x1f = k % 32 := Nat.and_pow_two_sub_one_eq_mod k 5
    have hs : k >>> 5 = k / 32 := Nat.shiftRight_eq_div_pow k 5
    rw [ha, hs]
    have e : (2 : Int) ^ 5 = 32 := by norm_num
    rw [e, toI32_of_range (w := regionX * 32) (by omega) (by omega),
      toI32_of_range (w := regionZ * 32) (by omega) (by omega),
      toI32_of_range (by omega) (by omega), toI32_of_range (by omega) (by omega)]
  have hshift : ∀ c : Int, c >>> 5 = c / 32 := fun c => shiftRight_int c 5
  have hand : ∀ c : Int, toU64 (andI64 c 31) = (c % 32).toNat := by
    intro c
    rw [andI64_31]
    unfold toU64
    omega
  rw [hslot it hit]
  simp only [hshift, hand]
  refine ⟨by omega, by omega, by omega, ?_, ?_⟩
  · intro it2 h2 heq
    rw [hslot it2 h2] at heq
    simp only [Prod.mk.injEq] at heq
    omega
  · intro cx cz h1 h2
    have hlt : (cx % 32).toNat + 32 * (cz % 32).toNat < 1024 := by omega
    refine ⟨hlt, ?_⟩
    rw [hslot _ hlt]
    simp only [Prod.mk.injEq]
    omega

/-- Witness of C16: in the region `(-1, -2)`, slot 33 is the chunk
`(-31, -63)`. -/
theorem region_slot_mapping_witness :
    slotChunk (-1) (-2) 33 = (-31, -63) ∧ (-31 : Int) >>> 5 = -1 ∧ (-63 : Int) >>> 5 = -2 ∧
      toU64 (andI64 (-31) 31) + 32 * toU64 (andI64 (-63) 31) = 33 := by
  have h := region_slot_mapping (-1) (-2) (by decide) (by decide) (by decide) (by decide)
    33 (by decide)
  have hs : slotChunk (-1) (-2) 33 = (-31, -63) := by decide
  rw [hs] at h
  exact ⟨hs, h.1, h.2.1, h.2.2.1⟩

/-! ## Empty chunks -/

/-- Claim C17, evaluated at the failing inputs: for an empty section list, for
a list holding only a section with `Y = -1`, and for a list holding only a
section without palette, the height record is 0 but `loadChunk` goes on to
`inflateChunk`, which reads the first element of the empty vector: the
behaviour is undefined and no vector is stored. -/
theorem empty_chunk_reads_front :
    inflateChunk (tagSections []) = none ∧
    recordHeights [] 0 = some (0, 0) ∧
    (loadChunk (sampleTerrain []) 0 0 []).isNone = true ∧
    (loadChunk (sampleTerrain []) 0 0 [NBT.tag_compound [("Y", NBT.tag_byte (-1))]]).isNone
      = true ∧
    (loadChunk (sampleTerrain []) 0 0 [sampleNoPalette]).isNone = true := by
  refine ⟨rfl, rfl, ?_, ?_, ?_⟩ <;> decide

/-! ## Sections with a single palette entry -/

set_option maxRecDepth 8000 in
/-- Counterexample to C18: a section with one palette entry whose 256 longs
hold the value 1 is tagged `PRE116`, and `block` at the first cell reads the
index 1, outside the palette: it does not return the sole entry. -/
theorem single_palette_reads_states :
    (sampleOnes.child "Palette").size = 1 ∧
    (∃ tagged, tagSections [sampleOnes] = [tagged] ∧
      tagged.child "_type" = NBT.tag_byte PRE116) ∧
    block (sampleTerrain (tagSections [sampleOnes])) 0 0 0 = none ∧
    block (sampleTerrain (tagSections [sampleOnes])) 0 0 0 ≠
      some (paletteEntry "minecraft:stone") := by
  have hb : block (sampleTerrain (tagSections [sampleOnes])) 0 0 0 = none := rfl
  refine ⟨rfl, ⟨tagSection sampleOnes, rfl, rfl⟩, hb, ?_⟩
  rw [hb]
  simp

theorem blockLength_one : blockLength 1 = 4 := by decide

theorem getElem?_zeros (bs : List Int) (hz : ∀ w ∈ bs, w = 0) (i : Nat) (hi : i < bs.length) :
    bs[i]? = some 0 := by
  rw [List.getElem?_eq_getElem hi]
  exact congrArg some (hz _ (List.getElem_mem hi))

theorem blockAtPre116_zeros (sec e : NBT) (bs : List Int)
    (hP : sec.child "Palette" = NBT.tag_list [e])
    (hB : sec.child "BlockStates" = NBT.tag_long_array bs)
    (hz : ∀ w ∈ bs, w = 0) (hlen : 256 ≤ bs.length) (x z y : Nat) :
    blockAtPre116 sec x z y = some e := by
  have hidx := cellIndex_lt x z y
  have hsize : (NBT.tag_list [e]).size = 1 := rfl
  unfold blockAtPre116
  simp only [hP, hB, NBT.as_long_array, hsize, blockLength_one]
  generalize cellIndex x z y = idx at hidx
  have hs : (idx * 4) >>> 6 = idx / 16 := by
    rw [Nat.shiftRight_eq_div_pow]; omega
  have hp : (idx * 4) &&& 63 = idx * 4 % 64 := Nat.and_pow_two_sub_one_eq_mod _ 6
  rw [hs, hp, getElem?_zeros bs hz _ (by omega)]
  simp only []
  have hneg : ¬ (0 : Int) < ((idx * 4 % 64 : Nat) : Int) + ((4 : Nat) : Int) - 64 := by omega
  rw [if_neg hneg]
  have h0 : toU64 0 = 0 := rfl
  rw [h0, Nat.zero_and, Nat.zero_shiftRight]
  rfl

theorem blockAtPost116_zeros (sec e : NBT) (bs : List Int)
    (hP : sec.child "Palette" = NBT.tag_list [e])
    (hB : sec.child "BlockStates" = NBT.tag_long_array bs)
    (hz : ∀ w ∈ bs, w = 0) (hlen : 256 ≤ bs.length) (x z y : Nat) :
    blockAtPost116 sec x z y = some e := by
  have hidx := cellIndex_lt x z y
  have hsize : (NBT.tag_list [e]).size = 1 := rfl
  unfold blockAtPost116
  simp only [hP, hB, NBT.as_long_array, hsize, blockLength_one]
  generalize cellIndex x z y = idx at hidx
  have hbpl : 64 / 4 % 256 = 16 := by decide
  rw [hbpl, if_neg (by decide), getElem?_zeros bs hz _ (by omega)]
  simp only []
  have hsh : (0 : Int) >>> ((idx - idx / 16 * 16) * 4) = 0 := Int.zero_shiftRight _
  rw [hsh]
  have hand : andI64 0 (((1 <<< 4 : Nat) : Int) - 1) = 0 := by decide
  rw [hand]
  rfl

/-- Claim C18, amended: for a section whose `Palette` has exactly one entry,
whose `BlockStates` holds at least the 256 longs of its layout and only
zeros, and which `tagSections` has tagged (`PRE116` or `POST116` by the
length), `block` returns the sole palette entry for every `(x, y, z)` inside
the section. -/
theorem single_palette_dispatch (e : NBT) (bs : List Int) (sec : NBT)
    (hP : sec.child "Palette" = NBT.tag_list [e])
    (hB : sec.child "BlockStates" = NBT.tag_long_array bs)
    (hz : ∀ w ∈ bs, w = 0) (hlen : 256 ≤ bs.length)
    (t : Data) (x z y : Int) (raw : List NBT)
    (hC : t.chunks[chunkIndex t.map (CHUNK x) (CHUNK z)]? =
      some (NBT.tag_list (tagSections raw)))
    (hS : raw[toU64 (y >>> 4)]? = some sec) :
    block t x z y = some e ∧
    ∃ tagged, (tagSections raw)[toU64 (y >>> 4)]? = some tagged ∧
      (tagged.child "_type" = NBT.tag_byte PRE116 ∨
        tagged.child "_type" = NBT.tag_byte POST116) := by
  have hc := is_compound_of_child hP (by simp)
  have hT := tagSections_getElem? raw _ sec hS
  rw [tagSection_of_palette sec [e] hP] at hT
  have hP2 : ∀ ty, (sec.setChild "_type" (NBT.tag_byte ty)).child "Palette"
      = NBT.tag_list [e] := by
    intro ty; rw [child_setChild_ne sec _ _ _ (by decide) hc, hP]
  have hB2 : ∀ ty, (sec.setChild "_type" (NBT.tag_byte ty)).child "BlockStates"
      = NBT.tag_long_array bs := by
    intro ty; rw [child_setChild_ne sec _ _ _ (by decide) hc, hB]
  constructor
  · rw [block_of_tagged t x z y _ sec _ hC hT]
    by_cases hsz : (sec.child "BlockStates").size = (blockLength [e].length * 64) % 2 ^ 64
    · rw [if_pos hsz]
      simp only [PRE116, getBlock]
      exact blockAtPre116_zeros _ e bs (hP2 _) (hB2 _) hz hlen _ _ _
    · rw [if_neg hsz]
      simp only [POST116, getBlock]
      exact blockAtPost116_zeros _ e bs (hP2 _) (hB2 _) hz hlen _ _ _
  · refine ⟨_, hT, ?_⟩
    rw [child_setChild_self]
    by_cases hsz : (sec.child "BlockStates").size = (blockLength [e].length * 64) % 2 ^ 64
    · rw [if_pos hsz]; left; rfl
    · rw [if_neg hsz]; right; rfl

/-- Witness of C18, amended: with 256 longs of zeros, every cell of the
section reads the stone of the palette. -/
theorem single_palette_dispatch_witness :
    block (sampleTerrain (tagSections [sampleZeros])) 7 9 11 =
      some (paletteEntry "minecraft:stone") :=
  (single_palette_dispatch (paletteEntry "minecraft:stone") (List.replicate 256 0) sampleZeros
    rfl rfl (fun _ hw => (List.mem_replicate.mp hw).2)
    (Nat.le_of_eq (List.length_replicate 256 (0 : Int)).symm)
    (sampleTerrain (tagSections [sampleZeros])) 7 9 11 [sampleZeros] rfl rfl).1

/-! ## Chunk decoding -/

theorem loadChunk_some (t t1 : Data) (cx cz : Int) (secs : List NBT)
    (h : loadChunk t cx cz secs = some t1) :
    ∃ s1 cache1 height bounds out,
      chunkIndex t.map cx cz < t.chunks.length ∧
      chunkIndex t.map cx cz < t.heightMap.length ∧
      dropMinusOne secs = some s1 ∧
      recordHeights (popEmptyTop s1) t.heightBounds = some (height, bounds) ∧
      inflateChunk (tagSections (popEmptyTop s1)) = some out ∧
      t1 = { map := t.map,
             chunks := t.chunks.set (chunkIndex t.map cx cz) (NBT.tag_list out),
             heightMap := t.heightMap.set (chunkIndex t.map cx cz) height,
             heightBounds := bounds, cache := cache1 } := by
  unfold loadChunk at h
  simp only at h
  split at h
  · rename_i hpos
    cases hd : dropMinusOne secs with
    | none => rw [hd] at h; simp at h
    | some s1 =>
      rw [hd] at h
      simp only at h
      cases hc : cacheSections (popEmptyTop s1) t.cache with
      | none => rw [hc] at h; simp at h
      | some cache1 =>
        rw [hc] at h
        simp only at h
        cases hr : recordHeights (popEmptyTop s1) t.heightBounds with
        | none => rw [hr] at h; simp at h
        | some hb =>
          obtain ⟨height, bounds⟩ := hb
          rw [hr] at h
          simp only at h
          cases hi : inflateChunk (tagSections (popEmptyTop s1)) with
          | none => rw [hi] at h; simp at h
          | some out =>
            rw [hi] at h
            simp only [Option.some.injEq] at h
            exact ⟨s1, cache1, height, bounds, out, hpos.1, hpos.2, rfl, hr, hi, h.symm⟩
  · simp at h

theorem mem_popEmptyTopRev : ∀ (l : List NBT) (s : NBT), s ∈ popEmptyTopRev l → s ∈ l := by
  intro l
  induction l with
  | nil => intro s hs; simp [popEmptyTopRev] at hs
  | cons a rest ih =>
    intro s hs
    unfold popEmptyTopRev at hs
    split at hs
    · exact hs
    · exact List.mem_cons_of_mem _ (ih s hs)

theorem popEmptyTopRev_suffix : ∀ (l : List NBT), popEmptyTopRev l <:+ l := by
  intro l
  induction l with
  | nil => simp [popEmptyTopRev]
  | cons a rest ih =>
    unfold popEmptyTopRev
    split
    · exact List.suffix_refl _
    · exact List.IsSuffix.trans ih (List.suffix_cons a rest)

theorem popEmptyTop_initial (l : List NBT) : popEmptyTop l <+: l := by
  unfold popEmptyTop
  have h := popEmptyTopRev_suffix l.reverse
  rw [← List.reverse_prefix] at h
  simpa using h

theorem dropMinusOne_of_nonneg (secs : List NBT)
    (h : ∀ s, secs.head? = some s → ∃ y, sectionY s = some y ∧ 0 ≤ y) :
    dropMinusOne secs = some secs := by
  cases secs with
  | nil => rfl
  | cons a rest =>
    obtain ⟨y, hy, h0⟩ := h a rfl
    have hy2 : (a.child "Y").as_i8 = some y := hy
    unfold dropMinusOne
    simp only [hy2]
    rw [if_neg (by omega)]

theorem recordHeights_cons (a : NBT) (rest : List NBT) (hb : Nat) (last : NBT)
    (yFirst yLast : Int) (hl : (a :: rest).getLast? = some last)
    (hf : sectionY a = some yFirst) (hlY : sectionY last = some yLast) :
    recordHeights (a :: rest) hb =
      some (toU8 ((yLast + 1) * 2 ^ 4) ||| toU8 yFirst,
        if toU8 ((yLast + 1) * 2 ^ 4) > (hb &&& 0xf0)
          then toU8 ((yLast + 1) * 2 ^ 4) ||| (hb &&& 0x0f) else hb) := by
  have hf2 : (a.child "Y").as_i8 = some yFirst := hf
  have hl2 : (last.child "Y").as_i8 = some yLast := hlY
  unfold recordHeights
  simp only [List.head?_cons, hl, hf2, hl2]


theorem inflateChunk_nil : inflateChunk (tagSections []) = none := rfl

theorem loadChunk_heights (t t1 : Data) (cx cz : Int) (secs : List NBT)
    (hY : ∀ s ∈ secs, ∃ y, sectionY s = some y ∧ 0 ≤ y ∧ y ≤ 14)
    (h : loadChunk t cx cz secs = some t1) :
    ∃ yFirst yLast : Int,
      (popEmptyTop secs).getLast?.bind sectionY = some yLast ∧
      0 ≤ yFirst ∧ yFirst ≤ 14 ∧ 0 ≤ yLast ∧ yLast ≤ 14 ∧
      chunkIndex t.map cx cz < t.heightMap.length ∧
      t1.map = t.map ∧
      t1.heightMap = t.heightMap.set (chunkIndex t.map cx cz)
        (((yLast + 1) * 16).toNat ||| yFirst.toNat) ∧
      t1.heightBounds =
        if ((yLast + 1) * 16).toNat > (t.heightBounds &&& 0xf0)
          then ((yLast + 1) * 16).toNat ||| (t.heightBounds &&& 0x0f)
          else t.heightBounds := by
  obtain ⟨s1, cache1, height, bounds, out, _, hpos, hd, hr, hi, ht1⟩ :=
    loadChunk_some t t1 cx cz secs h
  have hd2 : dropMinusOne secs = some secs := by
    apply dropMinusOne_of_nonneg
    intro s hs
    obtain ⟨y, hy, h0, _⟩ := hY s (List.mem_of_mem_head? hs)
    exact ⟨y, hy, h0⟩
  rw [hd2] at hd
  simp only [Option.some.injEq] at hd
  subst hd
  have hsub : ∀ s ∈ popEmptyTop secs, s ∈ secs := fun s hs =>
    (popEmptyTop_initial secs).subset hs
  cases hp : popEmptyTop secs with
  | nil => rw [hp, inflateChunk_nil] at hi; simp at hi
  | cons a rest =>
    rw [hp] at hr hsub
    obtain ⟨last, hl⟩ : ∃ last, (a :: rest).getLast? = some last := by
      cases hx : (a :: rest).getLast? with
      | none => simp at hx
      | some l => exact ⟨l, rfl⟩
    obtain ⟨yFirst, hf, hf0, hf14⟩ := hY a (hsub a (by simp))
    obtain ⟨yLast, hlY, hl0, hl14⟩ := hY last (hsub last (List.mem_of_getLast?_eq_some hl))
    rw [recordHeights_cons a rest _ last yFirst yLast hl hf hlY] at hr
    have e1 : toU8 ((yLast + 1) * 2 ^ 4) = ((yLast + 1) * 16).toNat := by
      rw [toU8_of_range (by omega) (by omega)]
      norm_num
    have e2 : toU8 yFirst = yFirst.toNat := toU8_of_range (by omega) (by omega)
    rw [e1, e2] at hr
    simp only [Option.some.injEq, Prod.mk.injEq] at hr
    refine ⟨yFirst, yLast, ?_, hf0, hf14, hl0, hl14, hpos, ?_, ?_, ?_⟩
    · rw [hl]; exact hlY
    · rw [ht1]
    · rw [ht1, ← hr.1]
    · rw [ht1, ← hr.2]

theorem nibble_facts : ∀ k, k < 16 → ∀ r, r < 16 →
    ((16 * k) ||| r) &&& 0xf0 = 16 * k ∧ ((16 * k) ||| r) &&& 0x0f = r := by
  decide

theorem loadChunk_bounds_step (t t1 : Data) (cx cz : Int) (secs : List NBT)
    (hY : ∀ s ∈ secs, ∃ y, sectionY s = some y ∧ 0 ≤ y ∧ y ≤ 14)
    (h : loadChunk t cx cz secs = some t1) :
    ∃ yLast : Int,
      (popEmptyTop secs).getLast?.bind sectionY = some yLast ∧ 0 ≤ yLast ∧ yLast ≤ 14 ∧
      maxHeight t1 = max (maxHeight t) ((yLast + 1) * 16).toNat ∧
      t1.heightBounds &&& 0x0f = t.heightBounds &&& 0x0f ∧
      ((∀ (i b : Nat), t.heightMap[i]? = some b → b &&& 0xf0 ≤ maxHeight t) →
        ∀ (i b : Nat), t1.heightMap[i]? = some b → b &&& 0xf0 ≤ maxHeight t1) := by
  obtain ⟨yFirst, yLast, hlast, hf0, hf14, hl0, hl14, hpos, _, hmap, hb⟩ :=
    loadChunk_heights t t1 cx cz secs hY h
  obtain ⟨k, hk1, hk⟩ : ∃ k : Nat, k < 16 ∧ ((yLast + 1) * 16).toNat = 16 * k :=
    ⟨(yLast + 1).toNat, by omega, by omega⟩
  obtain ⟨r, hr1, hr⟩ : ∃ r : Nat, r < 16 ∧ yFirst.toNat = r := ⟨yFirst.toNat, by omega, rfl⟩
  have hlow : t.heightBounds &&& 0x0f < 16 :=
    Nat.lt_of_le_of_lt Nat.and_le_right (by decide)
  have hmax : maxHeight t1 = max (maxHeight t) ((yLast + 1) * 16).toNat := by
    unfold maxHeight
    rw [hb, hk]
    split
    · rw [(nibble_facts k hk1 _ hlow).1]; omega
    · omega
  have hnib : t1.heightBounds &&& 0x0f = t.heightBounds &&& 0x0f := by
    rw [hb, hk]
    split
    · exact (nibble_facts k hk1 _ hlow).2
    · rfl
  refine ⟨yLast, hlast, hl0, hl14, hmax, hnib, ?_⟩
  intro hinv i b hib
  rw [hmap] at hib
  by_cases hi : chunkIndex t.map cx cz = i
  · subst hi
    rw [List.getElem?_set_self hpos] at hib
    simp only [Option.some.injEq] at hib
    rw [← hib, hk, hr, (nibble_facts k hk1 r hr1).1, hmax, hk]
    omega
  · rw [List.getElem?_set_ne hi] at hib
    have := hinv i b hib
    rw [hmax]
    omega

theorem loadChunks_bounds : ∀ (calls : List (Int × Int × List NBT)) (t mid : Data),
    (∀ c ∈ calls, ∀ s ∈ c.2.2, ∃ y, sectionY s = some y ∧ 0 ≤ y ∧ y ≤ 14) →
    loadChunks t calls = some mid →
    (∀ (i b : Nat), t.heightMap[i]? = some b → b &&& 0xf0 ≤ maxHeight t) →
    maxHeight t ≤ maxHeight mid ∧
    mid.heightBounds &&& 0x0f = t.heightBounds &&& 0x0f ∧
    (∀ (i b : Nat), mid.heightMap[i]? = some b → b &&& 0xf0 ≤ maxHeight mid) := by
  intro calls
  induction calls with
  | nil =>
    intro t mid _ h hinv
    simp only [loadChunks, Option.some.injEq] at h
    subst h
    exact ⟨le_refl _, rfl, hinv⟩
  | cons c rest ih =>
    intro t mid hY h hinv
    obtain ⟨cx, cz, secs⟩ := c
    unfold loadChunks at h
    cases h1 : loadChunk t cx cz secs with
    | none => rw [h1] at h; simp at h
    | some t1 =>
      rw [h1] at h
      simp only at h
      obtain ⟨yLast, _, _, _, hmax, hnib, hstep⟩ :=
        loadChunk_bounds_step t t1 cx cz secs (hY (cx, cz, secs) (by simp)) h1
      obtain ⟨h2, h3, h4⟩ := ih t1 mid (fun c hc => hY c (by simp [hc])) h (hstep hinv)
      exact ⟨by omega, by rw [h3, hnib], h4⟩


/-- Claim C19: global height bound. After a sequence of `loadChunk` calls on
chunks whose sections have `Y` in 0..14, started from a store whose height
bytes are below the global bound, a further such call leaves `maxHeight()`
equal to the maximum of its value before the call and the top
`(Y_last + 1) * 16` of the loaded chunk. So `maxHeight()` never decreases, the
low nibble of `heightBounds` is unchanged, and `maxHeight(x, z)` is at most
`maxHeight()` for every column. -/
theorem global_height_bound (t mid t1 : Data) (calls : List (Int × Int × List NBT))
    (cx cz : Int) (secs : List NBT)
    (hYc : ∀ c ∈ calls, ∀ s ∈ c.2.2, ∃ y, sectionY s = some y ∧ 0 ≤ y ∧ y ≤ 14)
    (hY : ∀ s ∈ secs, ∃ y, sectionY s = some y ∧ 0 ≤ y ∧ y ≤ 14)
    (hinit : ∀ (i b : Nat), t.heightMap[i]? = some b → b &&& 0xf0 ≤ maxHeight t)
    (h1 : loadChunks t calls = some mid) (h2 : loadChunk mid cx cz secs = some t1) :
    ∃ yLast : Int, (popEmptyTop secs).getLast?.bind sectionY = some yLast ∧
      maxHeight t1 = max (maxHeight mid) ((yLast + 1) * 16).toNat ∧
      maxHeight t ≤ maxHeight mid ∧ maxHeight mid ≤ maxHeight t1 ∧
      t1.heightBounds &&& 0x0f = t.heightBounds &&& 0x0f ∧
      (∀ (x z : Int) (h : Nat), maxHeightAt t1 x z = some h → h ≤ maxHeight t1) := by
  obtain ⟨hmono, hnib, hinv⟩ := loadChunks_bounds calls t mid hYc h1 hinit
  obtain ⟨yLast, hlast, _, _, hmax, hnib2, hstep⟩ :=
    loadChunk_bounds_step mid t1 cx cz secs hY h2
  refine ⟨yLast, hlast, hmax, hmono, by omega, by rw [hnib2, hnib], ?_⟩
  intro x z h hh
  unfold maxHeightAt at hh
  cases hb : t1.heightMap[chunkIndex t1.map (CHUNK x) (CHUNK z)]? with
  | none => rw [hb] at hh; simp at hh
  | some b =>
    rw [hb] at hh
    simp only [Option.some.injEq] at hh
    rw [← hh]
    exact hstep hinv _ b hb

/-- Witness of C19: after the chunk with sections at 0, 3 and 5 (top 96), a
chunk with one section at 1 (top 32) leaves the global bound at 96. -/
theorem global_height_bound_witness :
    loadChunks (sampleTerrain []) [(0, 0, sampleSparse)] = some sampleAfterSparse ∧
    loadChunk sampleAfterSparse 0 0 [sampleSection 1 samplePalette2 []]
      = some sampleAfterLow ∧
    maxHeight sampleAfterSparse = 96 ∧ maxHeight sampleAfterLow = 96 := by
  have h1 : loadChunks (sampleTerrain []) [(0, 0, sampleSparse)] = some sampleAfterSparse := rfl
  have h2 : loadChunk sampleAfterSparse 0 0 [sampleSection 1 samplePalette2 []]
      = some sampleAfterLow := rfl
  obtain ⟨yLast, hlast, hmax, _, _, _, _⟩ := global_height_bound (sampleTerrain [])
    sampleAfterSparse sampleAfterLow
    [(0, 0, sampleSparse)] 0 0 [sampleSection 1 samplePalette2 []]
    (by
      intro c hc s hs
      simp only [List.mem_singleton] at hc
      subst hc
      simp only [sampleSparse, List.mem_cons, List.mem_singleton, List.not_mem_nil,
        or_false] at hs
      rcases hs with rfl | rfl | rfl
      · exact ⟨0, rfl, by decide, by decide⟩
      · exact ⟨3, rfl, by decide, by decide⟩
      · exact ⟨5, rfl, by decide, by decide⟩)
    (by
      intro s hs
      simp only [List.mem_singleton] at hs
      subst hs
      exact ⟨1, rfl, by decide, by decide⟩)
    (by
      intro i b hb
      have hb0 : b = 0 := by
        cases i with
        | zero => simpa [sampleTerrain] using hb.symm
        | succ n => simp [sampleTerrain] at hb
      subst hb0
      decide)
    h1 h2
  have hmid : maxHeight sampleAfterSparse = 96 := by decide
  have hy : yLast = 1 := by
    have hl : (popEmptyTop [sampleSection 1 samplePalette2 []]).getLast?.bind sectionY
        = some 1 := rfl
    rw [hl] at hlast
    simp only [Option.some.injEq] at hlast
    exact hlast.symm
  refine ⟨h1, h2, hmid, ?_⟩
  rw [hmax, hmid, hy]
  decide

/-! ## Section index in the render loop -/

theorem inflateChunk_length (sections : List NBT) (ys : List Int) (yLast : Int)
    (hY : sections.map sectionY = ys.map some) (hasc : ys.Pairwise (· < ·))
    (hfirst : ∀ y, ys.head? = some y → 0 ≤ y) (hi8 : ∀ y ∈ ys, y ≤ 127)
    (hlast : ys.getLast? = some yLast) :
    ∃ out, inflateChunk sections = some out ∧ out.length = yLast.toNat + 1 ∧ 0 ≤ yLast := by
  cases ys with
  | nil => simp at hlast
  | cons y0 ys2 =>
    cases sections with
    | nil => simp at hY
    | cons cur rest =>
      have hY0 := hY
      simp only [List.map_cons, List.cons.injEq] at hY
      obtain ⟨hcur, hrestY⟩ := hY
      have h0 : 0 ≤ y0 := hfirst y0 rfl
      rw [List.pairwise_cons] at hasc
      have hrest : Ascending y0 rest :=
        Ascending_of_ys rest ys2 y0 hrestY hasc.2
          (fun y hy => ⟨hasc.1 y hy, hi8 y (by simp [hy])⟩)
      obtain ⟨y0n, rfl⟩ : ∃ n : Nat, y0 = (n : Int) := ⟨y0.toNat, by omega⟩
      have hlastmem : yLast ∈ (y0n : Int) :: ys2 := List.mem_of_getLast?_eq_some hlast
      have hlast0 : 0 ≤ yLast := by
        rcases List.mem_cons.mp hlastmem with h | h
        · omega
        · have := hasc.1 yLast h; omega
      obtain ⟨top, rfl⟩ : ∃ n : Nat, yLast = (n : Int) := ⟨yLast.toNat, by omega⟩
      have hlastS : ∀ last, (cur :: rest).getLast? = some last →
          sectionY last = some (top : Int) := by
        intro last hl
        have h1 : ((cur :: rest).map sectionY).getLast? = some (sectionY last) := by
          rw [List.getLast?_map, hl]; rfl
        rw [hY0, List.getLast?_map, hlast] at h1
        simp only [Option.map_some', Option.some.injEq] at h1
        exact h1.symm
      have hloop := inflateLoop_spec rest (List.replicate y0n NBT.tag_end) cur (y0n : Int)
        (rest.length + 1) hcur (by omega) hrest (by omega)
      rw [List.length_replicate] at hloop
      have hdense := gapFill_dense rest cur y0n 0 top hcur (Nat.zero_le _) hrest hlastS
      simp only [Nat.sub_zero] at hdense
      have hcurY : (cur.child "Y").as_i8 = some (y0n : Int) := hcur
      refine ⟨(List.range' 0 (top + 1)).map (slabAt (cur :: rest)), ?_, by simp, hlast0⟩
      unfold inflateChunk
      simp only [List.head?_cons, hcurY, List.length_cons, Int.toNat_ofNat]
      rw [if_neg (by omega), hloop, hdense]

theorem tagSection_eq_setChild (s : NBT) :
    ∃ ty, tagSection s = s.setChild "_type" (NBT.tag_byte ty) := by
  unfold tagSection
  split
  · exact ⟨_, rfl⟩
  · simp only []
    split
    · exact ⟨_, rfl⟩
    · exact ⟨_, rfl⟩

theorem sectionY_tagSection (s : NBT) (y : Int) (h : sectionY s = some y) :
    sectionY (tagSection s) = some y := by
  obtain ⟨ty, hty⟩ := tagSection_eq_setChild s
  have hc : s.is_compound = true := by
    cases s <;> simp [sectionY, NBT.child, NBT.as_i8, NBT.is_compound] at h ⊢
  unfold sectionY at h ⊢
  rw [hty, child_setChild_ne s _ _ _ (by decide) hc]
  exact h

theorem map_sectionY_tagSections : ∀ (l : List NBT) (ys : List Int),
    l.map sectionY = ys.map some → (tagSections l).map sectionY = ys.map some := by
  intro l
  induction l with
  | nil => intro ys h; simpa [tagSections] using h
  | cons a rest ih =>
    intro ys h
    cases ys with
    | nil => simp at h
    | cons y ys2 =>
      simp only [List.map_cons, List.cons.injEq] at h
      have h2 := ih ys2 h.2
      unfold tagSections at h2 ⊢
      simp only [List.map_cons, List.cons.injEq]
      exact ⟨sectionY_tagSection a y h.1, h2⟩

theorem height_byte_bound (yFirst yLast : Int) (h0 : 0 ≤ yFirst) (h1 : yFirst ≤ yLast)
    (h2 : yLast ≤ 127) (y : Nat)
    (hy : y < (toU8 ((yLast + 1) * 2 ^ 4) ||| toU8 yFirst) &&& 0xf0) :
    y / 16 < yLast.toNat + 1 := by
  by_cases hs : yLast ≤ 13
  · have e1 : toU8 ((yLast + 1) * 2 ^ 4) = 16 * (yLast + 1).toNat := by
      rw [toU8_of_range (by omega) (by omega)]
      omega
    have e2 : toU8 yFirst = yFirst.toNat := toU8_of_range (by omega) (by omega)
    rw [e1, e2, (nibble_facts (yLast + 1).toNat (by omega) yFirst.toNat (by omega)).1] at hy
    omega
  · have hle : (toU8 ((yLast + 1) * 2 ^ 4) ||| toU8 yFirst) &&& 0xf0 ≤ 0xf0 := Nat.and_le_right
    omega

theorem first_le_last (y0 yLast : Int) (ys : List Int)
    (hasc : (y0 :: ys).Pairwise (· < ·)) (hlast : (y0 :: ys).getLast? = some yLast) :
    y0 ≤ yLast := by
  rw [List.pairwise_cons] at hasc
  rcases List.mem_cons.mp (List.mem_of_getLast?_eq_some hlast) with h | h
  · omega
  · exact Int.le_of_lt (hasc.1 yLast h)


theorem map_sectionY_initial (popped rest : List NBT) (ys : List Int)
    (hY : (popped ++ rest).map sectionY = ys.map some) :
    popped.map sectionY = (ys.take popped.length).map some := by
  have h := congrArg (List.take popped.length) hY
  rw [List.map_take, ← h, List.map_append, List.take_left' (by simp)]

theorem head?_take_of_ne_nil (ys : List Int) (n : Nat) (y : Int)
    (h : (ys.take n).head? = some y) : ys.head? = some y := by
  cases ys with
  | nil => simp at h
  | cons a rest =>
    cases n with
    | zero => simp at h
    | succ m => simpa using h

/-- Claim C20: section index in range in the render loop. For a chunk stored
by `loadChunk` from a section list with byte-valued, strictly ascending `Y`,
the first one not negative, and every `y` with
`minY ≤ y < min(maxHeight(x, z), maxY)` for a column `(x, z)` of that chunk,
the section index `y >> 4` is below the length `Y_last + 1` of the stored
section vector, so `block` reads a section of the vector; the height byte may
have wrapped. -/
theorem section_index_in_range (t t1 : Data) (cx cz : Int) (secs : List NBT) (ys : List Int)
    (hY : secs.map sectionY = ys.map some) (hasc : ys.Pairwise (· < ·))
    (hfirst : ∀ y, ys.head? = some y → 0 ≤ y) (hi8 : ∀ y ∈ ys, y ≤ 127)
    (hload : loadChunk t cx cz secs = some t1)
    (x z : Int) (hx : CHUNK x = cx) (hz : CHUNK z = cz)
    (minY maxY top y : Nat) (htop : maxHeightAt t1 x z = some top)
    (_hy1 : minY ≤ y) (hy2 : y < min top maxY) :
    ∃ out yLast sec,
      t1.chunks[chunkIndex t1.map (CHUNK x) (CHUNK z)]? = some (NBT.tag_list out) ∧
      (popEmptyTop secs).getLast?.bind sectionY = some yLast ∧
      out.length = yLast.toNat + 1 ∧
      toU64 ((y : Int) >>> 4) < out.length ∧
      out[toU64 ((y : Int) >>> 4)]? = some sec := by
  obtain ⟨s1, cache1, height, bounds, out, hposc, hposh, hd, hr, hi, ht1⟩ :=
    loadChunk_some t t1 cx cz secs hload
  have hd2 : dropMinusOne secs = some secs := by
    apply dropMinusOne_of_nonneg
    intro s hs
    cases secs with
    | nil => simp at hs
    | cons a rest =>
      cases ys with
      | nil => simp at hY
      | cons y0 ys2 =>
        simp only [List.head?_cons, Option.some.injEq] at hs
        subst hs
        simp only [List.map_cons, List.cons.injEq] at hY
        exact ⟨y0, hY.1, hfirst y0 rfl⟩
  rw [hd2] at hd
  simp only [Option.some.injEq] at hd
  subst hd
  obtain ⟨rest, hrest⟩ := popEmptyTop_initial secs
  rw [← hrest] at hY
  have hY1 := map_sectionY_initial _ rest ys hY
  generalize hpdef : popEmptyTop secs = popped at hr hi hY1
  generalize hydef : ys.take popped.length = ys1 at hY1
  have hasc1 : ys1.Pairwise (· < ·) := by
    rw [← hydef]; exact hasc.sublist (List.take_sublist _ _)
  have hi81 : ∀ y ∈ ys1, y ≤ 127 := by
    intro v hv
    rw [← hydef] at hv
    exact hi8 v (List.mem_of_mem_take hv)
  have hfirst1 : ∀ v, ys1.head? = some v → 0 ≤ v := by
    intro v hv
    rw [← hydef] at hv
    exact hfirst v (head?_take_of_ne_nil ys _ v hv)
  cases popped with
  | nil => rw [inflateChunk_nil] at hi; simp at hi
  | cons a more =>
    cases ys1 with
    | nil => simp at hY1
    | cons yFirst ys2 =>
      obtain ⟨yLast, hlast⟩ : ∃ v, (yFirst :: ys2).getLast? = some v := by
        cases hg : (yFirst :: ys2).getLast? with
        | none => simp at hg
        | some v => exact ⟨v, rfl⟩
      obtain ⟨last, hl⟩ : ∃ l, (a :: more).getLast? = some l := by
        cases hg : (a :: more).getLast? with
        | none => simp at hg
        | some v => exact ⟨v, rfl⟩
      have hlY : sectionY last = some yLast := by
        have h1 : ((a :: more).map sectionY).getLast? = some (sectionY last) := by
          rw [List.getLast?_map, hl]; rfl
        rw [hY1, List.getLast?_map, hlast] at h1
        simp only [Option.map_some', Option.some.injEq] at h1
        exact h1.symm
      have hfY : sectionY a = some yFirst := by
        simp only [List.map_cons, List.cons.injEq] at hY1
        exact hY1.1
      obtain ⟨out2, hout2, hlen, _⟩ := inflateChunk_length (tagSections (a :: more))
        (yFirst :: ys2) yLast (map_sectionY_tagSections _ _ hY1) hasc1 hfirst1 hi81 hlast
      rw [hi] at hout2
      simp only [Option.some.injEq] at hout2
      subst hout2
      rw [recordHeights_cons a more _ last yFirst yLast hl hfY hlY] at hr
      simp only [Option.some.injEq, Prod.mk.injEq] at hr
      have hmapeq : t1.map = t.map := by rw [ht1]
      have hidx : chunkIndex t1.map (CHUNK x) (CHUNK z) = chunkIndex t.map cx cz := by
        rw [hmapeq, hx, hz]
      have hbyte : t1.heightMap[chunkIndex t.map cx cz]? = some height := by
        rw [ht1]; exact List.getElem?_set_self hposh
      have hchunk : t1.chunks[chunkIndex t.map cx cz]? = some (NBT.tag_list out) := by
        rw [ht1]; exact List.getElem?_set_self hposc
      unfold maxHeightAt at htop
      rw [hidx, hbyte] at htop
      simp only [Option.some.injEq] at htop
      have hytop : y < (toU8 ((yLast + 1) * 2 ^ 4) ||| toU8 yFirst) &&& 0xf0 := by
        rw [hr.1, htop]; omega
      have hbound := height_byte_bound yFirst yLast (hfirst1 yFirst rfl)
        (first_le_last yFirst yLast ys2 hasc1 hlast) (hi81 yLast
          (List.mem_of_getLast?_eq_some hlast)) y hytop
      have hsh : ((y : Int) >>> 4) = (y : Int) / 16 := shiftRight_int _ 4
      have hy240 : y < 240 :=
        Nat.lt_of_lt_of_le hytop Nat.and_le_right
      have hsec : toU64 ((y : Int) >>> 4) = y / 16 := by
        rw [hsh]; unfold toU64; omega
      have hlt : toU64 ((y : Int) >>> 4) < out.length := by
        rw [hsec, hlen]; exact hbound
      refine ⟨out, yLast, out[toU64 ((y : Int) >>> 4)], ?_, ?_, hlen, hlt, ?_⟩
      · rw [hidx]; exact hchunk
      · rw [hl]; exact hlY
      · exact List.getElem?_eq_getElem hlt


/-- Witness of C20: in the chunk with sections at 0, 3 and 5, whose column
height is 96, the height 50 reads position 3 of the six stored sections. -/
theorem section_index_in_range_witness :
    ∃ out sec,
      sampleAfterSparse.chunks[chunkIndex sampleAfterSparse.map (CHUNK 3) (CHUNK 5)]?
        = some (NBT.tag_list out) ∧
      out.length = 6 ∧ out[toU64 (((50 : Nat) : Int) >>> 4)]? = some sec := by
  obtain ⟨out, yLast, sec, h1, h2, h3, _, h5⟩ := section_index_in_range (sampleTerrain [])
    sampleAfterSparse 0 0 sampleSparse [0, 3, 5] rfl (by decide)
    (by intro y hy; simp at hy; omega) (by decide) rfl 3 5 rfl rfl 0 255 96 50 rfl
    (by decide) (by decide)
  have hl : (popEmptyTop sampleSparse).getLast?.bind sectionY = some 5 := rfl
  rw [hl] at h2
  simp only [Option.some.injEq] at h2
  subst h2
  exact ⟨out, sec, h1, h3, h5⟩

/-! ## Region enumeration -/

theorem toI8_range (w : Int) : -(2 ^ 7) ≤ toI8 w ∧ toI8 w < 2 ^ 7 := by
  unfold toI8
  split <;> omega

theorem loadOuter_never_ends (loZ hiZ : Int) : ∀ (fuel : Nat) (rx : Int) (seen : List (Int × Int)),
    -(2 ^ 7) ≤ rx → rx < 2 ^ 7 → loadOuter loZ hiZ 127 fuel rx seen = none := by
  intro fuel
  induction fuel with
  | zero => intro rx seen _ _; rfl
  | succ f ih =>
    intro rx seen h1 h2
    unfold loadOuter
    rw [if_pos (by omega)]
    cases loadInner hiZ rx f (toI8 loZ) seen with
    | none => rfl
    | some seen1 => exact ih _ seen1 (toI8_range _).1 (toI8_range _).2

/-- Claim C15, evaluated at a failing input: for the rectangle of chunks
`[0, 4064] × [0, 0]`, whose last region is 127, the `int8_t` counter `rx`
stays below `REGION(maxX) + 1 = 128` for ever: `load` does not terminate,
whatever the bound on the number of loop tests. For the rectangle
`[-2, 1] × [-1, 3]`, inside the range of the counter, the four regions are
considered once each. -/
theorem load_counter_wraps :
    REGION sampleFarRect.minX = 0 ∧ REGION sampleFarRect.maxX = 127 ∧
    (∀ fuel, load fuel sampleFarRect = none) ∧
    load 8 sampleRect = some [(-1, -1), (-1, 0), (0, -1), (0, 0)] := by
  have h127 : REGION sampleFarRect.maxX = 127 := by decide
  refine ⟨by decide, h127, ?_, by decide⟩
  intro fuel
  unfold load
  rw [h127]
  exact loadOuter_never_ends _ _ fuel _ [] (toI8_range _).1 (toI8_range _).2

/-! ## Canvas and world columns -/

theorem world_coordinate_exact (m : Int) (e : Nat) (v : Int)
    (hm1 : -(2 ^ 31) ≤ m) (hm2 : m < 2 ^ 31) (he : e < 2 ^ 32) (hv : v = 1 ∨ v = -1) :
    toI64 ((toU64 m + e * toU64 v) % 2 ^ 64) = m + (e : Int) * v := by
  have h1 : toU64 1 = 1 := by decide
  have hm : toU64 (-1) = 2 ^ 64 - 1 := by decide
  rcases hv with rfl | rfl
  · rw [h1]
    unfold toU64 toI64
    split <;> omega
  · rw [hm]
    unfold toU64 toI64
    split <;> omega

theorem mem_renderColumns (canvas : IsometricCanvas) (x z : Nat) :
    (x, z) ∈ renderColumns canvas ↔ x ≤ canvas.sizeX ∧ z ≤ canvas.sizeZ := by
  unfold renderColumns
  simp only [List.mem_flatMap, List.mem_range, List.mem_map, Prod.mk.injEq]
  constructor
  · rintro ⟨a, ha, b, hb, rfl, rfl⟩
    omega
  · rintro ⟨h1, h2⟩
    exact ⟨x, by omega, z, by omega, rfl, rfl⟩

theorem nodup_renderColumns (canvas : IsometricCanvas) : (renderColumns canvas).Nodup := by
  unfold renderColumns List.Nodup
  rw [List.pairwise_flatMap]
  constructor
  · intro x _
    rw [List.pairwise_map]
    refine List.Pairwise.imp ?_ (List.pairwise_lt_range (canvas.sizeZ + 1))
    intro a b hlt heq
    simp only [Prod.mk.injEq] at heq
    omega
  · refine List.Pairwise.imp ?_ (List.pairwise_lt_range (canvas.sizeX + 1))
    intro a b hlt p hp q hq heq
    simp only [List.mem_map, List.mem_range] at hp hq
    obtain ⟨_, _, rfl⟩ := hp
    obtain ⟨_, _, rfl⟩ := hq
    simp only [Prod.mk.injEq] at heq
    omega

theorem canvas_sizes (coords : Coordinates) (opts : WorldOptions)
    (hX : coords.minX ≤ coords.maxX) (hZ : coords.minZ ≤ coords.maxZ)
    (hW : coords.maxX - coords.minX < 2 ^ 31) (hD : coords.maxZ - coords.minZ < 2 ^ 31) :
    (mkCanvas coords opts).sizeX =
      (if opts.orientation = Orientation.NE ∨ opts.orientation = Orientation.SW
        then (coords.maxZ - coords.minZ).toNat else (coords.maxX - coords.minX).toNat) ∧
    (mkCanvas coords opts).sizeZ =
      (if opts.orientation = Orientation.NE ∨ opts.orientation = Orientation.SW
        then (coords.maxX - coords.minX).toNat else (coords.maxZ - coords.minZ).toNat) := by
  have e1 : toU64 (toI32 (coords.maxX - coords.minX)) = (coords.maxX - coords.minX).toNat := by
    rw [toI32_of_range (by omega) (by omega)]
    unfold toU64; omega
  have e2 : toU64 (toI32 (coords.maxZ - coords.minZ)) = (coords.maxZ - coords.minZ).toNat := by
    rw [toI32_of_range (by omega) (by omega)]
    unfold toU64; omega
  unfold mkCanvas
  simp only [e1, e2]
  exact ⟨trivial, trivial⟩

theorem worldColumn_exact (world : OrientedMap) (x z : Nat)
    (hvx : world.vectorX = 1 ∨ world.vectorX = -1)
    (hvz : world.vectorZ = 1 ∨ world.vectorZ = -1)
    (hwx1 : -(2 ^ 31) ≤ world.coords.minX) (hwx2 : world.coords.minX < 2 ^ 31)
    (hwz1 : -(2 ^ 31) ≤ world.coords.minZ) (hwz2 : world.coords.minZ < 2 ^ 31)
    (h1 : (effectiveColumn world x z).1 < 2 ^ 32) (h2 : (effectiveColumn world x z).2 < 2 ^ 32) :
    worldColumn world x z =
      (world.coords.minX + ((effectiveColumn world x z).1 : Int) * world.vectorX,
       world.coords.minZ + ((effectiveColumn world x z).2 : Int) * world.vectorZ) ∧
    worldOffset world x z =
      (((effectiveColumn world x z).1 : Int), ((effectiveColumn world x z).2 : Int)) := by
  have hc : worldColumn world x z =
      (world.coords.minX + ((effectiveColumn world x z).1 : Int) * world.vectorX,
       world.coords.minZ + ((effectiveColumn world x z).2 : Int) * world.vectorZ) := by
    unfold worldColumn
    simp only
    rw [world_coordinate_exact _ _ _ hwx1 hwx2 h1 hvx,
      world_coordinate_exact _ _ _ hwz1 hwz2 h2 hvz]
  refine ⟨hc, ?_⟩
  unfold worldOffset
  rw [hc]
  simp only [Prod.mk.injEq]
  constructor
  · rcases hvx with h | h <;> rw [h] <;> ring
  · rcases hvz with h | h <;> rw [h] <;> ring


/-- Claim C11: canvas-to-world coverage under axis swap. For a rectangle with
`minX ≤ maxX`, `minZ ≤ maxZ` and extents that are `int` values, an oriented
map with the orientation of the options, step vectors in `{-1, +1}` and a
32-bit corner, the loops of `render` visit each pair `(x, z)` with
`x ≤ canvas.sizeX`, `z ≤ canvas.sizeZ` exactly once; the `size_t` arithmetic
gives the exact signed `minX + x * vx` and `minZ + z * vz` (with `x`, `z`
swapped for `NE` and `SW`); and `(x, z) ↦ ((worldX - minX) * vx,
(worldZ - minZ) * vz)` is a bijection from the visited pairs onto
`[0, maxX - minX] × [0, maxZ - minZ]`. -/
theorem canvas_world_coverage (coords : Coordinates) (opts : WorldOptions) (world : OrientedMap)
    (hX : coords.minX ≤ coords.maxX) (hZ : coords.minZ ≤ coords.maxZ)
    (hW : coords.maxX - coords.minX < 2 ^ 31) (hD : coords.maxZ - coords.minZ < 2 ^ 31)
    (ho : world.orientation = opts.orientation)
    (hvx : world.vectorX = 1 ∨ world.vectorX = -1)
    (hvz : world.vectorZ = 1 ∨ world.vectorZ = -1)
    (hwx1 : -(2 ^ 31) ≤ world.coords.minX) (hwx2 : world.coords.minX < 2 ^ 31)
    (hwz1 : -(2 ^ 31) ≤ world.coords.minZ) (hwz2 : world.coords.minZ < 2 ^ 31) :
    (renderColumns (mkCanvas coords opts)).Nodup ∧
    (∀ x z, (x, z) ∈ renderColumns (mkCanvas coords opts) ↔
      x ≤ (mkCanvas coords opts).sizeX ∧ z ≤ (mkCanvas coords opts).sizeZ) ∧
    (∀ x z, (x, z) ∈ renderColumns (mkCanvas coords opts) →
      worldColumn world x z =
        (world.coords.minX + ((effectiveColumn world x z).1 : Int) * world.vectorX,
         world.coords.minZ + ((effectiveColumn world x z).2 : Int) * world.vectorZ) ∧
      0 ≤ (worldOffset world x z).1 ∧
      (worldOffset world x z).1 ≤ coords.maxX - coords.minX ∧
      0 ≤ (worldOffset world x z).2 ∧
      (worldOffset world x z).2 ≤ coords.maxZ - coords.minZ) ∧
    (∀ x z x2 z2, (x, z) ∈ renderColumns (mkCanvas coords opts) →
      (x2, z2) ∈ renderColumns (mkCanvas coords opts) →
      worldOffset world x z = worldOffset world x2 z2 → x = x2 ∧ z = z2) ∧
    (∀ a b : Int, 0 ≤ a → a ≤ coords.maxX - coords.minX →
      0 ≤ b → b ≤ coords.maxZ - coords.minZ →
      ∃ x z, (x, z) ∈ renderColumns (mkCanvas coords opts) ∧
        worldOffset world x z = (a, b)) := by
  obtain ⟨hsx, hsz⟩ := canvas_sizes coords opts hX hZ hW hD
  have hmem := mem_renderColumns (mkCanvas coords opts)
  have heff : ∀ x z, (x, z) ∈ renderColumns (mkCanvas coords opts) →
      ((effectiveColumn world x z).1 : Int) ≤ coords.maxX - coords.minX ∧
      ((effectiveColumn world x z).2 : Int) ≤ coords.maxZ - coords.minZ := by
    intro x z hxz
    rw [hmem, hsx, hsz] at hxz
    unfold effectiveColumn
    rw [ho]
    by_cases hs : opts.orientation = Orientation.NE ∨ opts.orientation = Orientation.SW
    · simp only [if_pos hs] at hxz ⊢
      omega
    · simp only [if_neg hs] at hxz ⊢
      omega
  have hexact : ∀ x z, (x, z) ∈ renderColumns (mkCanvas coords opts) →
      worldColumn world x z =
        (world.coords.minX + ((effectiveColumn world x z).1 : Int) * world.vectorX,
         world.coords.minZ + ((effectiveColumn world x z).2 : Int) * world.vectorZ) ∧
      worldOffset world x z =
        (((effectiveColumn world x z).1 : Int), ((effectiveColumn world x z).2 : Int)) := by
    intro x z hxz
    have h := heff x z hxz
    exact worldColumn_exact world x z hvx hvz hwx1 hwx2 hwz1 hwz2 (by omega) (by omega)
  refine ⟨nodup_renderColumns _, hmem, ?_, ?_, ?_⟩
  · intro x z hxz
    obtain ⟨hc, hoff⟩ := hexact x z hxz
    have h := heff x z hxz
    rw [hoff]
    exact ⟨hc, by simp, h.1, by simp, h.2⟩
  · intro x z x2 z2 h1 h2 heq
    rw [(hexact x z h1).2, (hexact x2 z2 h2).2] at heq
    simp only [Prod.mk.injEq, Nat.cast_inj] at heq
    unfold effectiveColumn at heq
    by_cases hs : world.orientation = Orientation.NE ∨ world.orientation = Orientation.SW
    · simp only [if_pos hs] at heq
      exact ⟨heq.2, heq.1⟩
    · simp only [if_neg hs] at heq
      exact heq
  · intro a b ha1 ha2 hb1 hb2
    by_cases hs : opts.orientation = Orientation.NE ∨ opts.orientation = Orientation.SW
    · have hin : (b.toNat, a.toNat) ∈ renderColumns (mkCanvas coords opts) := by
        rw [hmem, hsx, hsz, if_pos hs, if_pos hs]
        omega
      refine ⟨b.toNat, a.toNat, hin, ?_⟩
      rw [(hexact _ _ hin).2]
      unfold effectiveColumn
      rw [ho, if_pos hs]
      simp only [Prod.mk.injEq]
      omega
    · have hin : (a.toNat, b.toNat) ∈ renderColumns (mkCanvas coords opts) := by
        rw [hmem, hsx, hsz, if_neg hs, if_neg hs]
        omega
      refine ⟨a.toNat, b.toNat, hin, ?_⟩
      rw [(hexact _ _ hin).2]
      unfold effectiveColumn
      rw [ho, if_neg hs]
      simp only [Prod.mk.injEq]
      omega

/-- Witness of C11: for the rectangle `[-3, 0] × [10, 11]` drawn towards `NE`
the canvas is 1 by 3, and the pair `(1, 2)` is the world column
`(-3 + 2, 10 - 1)`. -/
theorem canvas_world_coverage_witness :
    (mkCanvas sampleBlockRect { defaultOptions with orientation := Orientation.NE }).sizeX = 1 ∧
    (mkCanvas sampleBlockRect { defaultOptions with orientation := Orientation.NE }).sizeZ = 3 ∧
    worldColumn (orientedMap sampleBlockRect Orientation.NE) 1 2 = (-1, 9) ∧
    worldOffset (orientedMap sampleBlockRect Orientation.NE) 1 2 = (2, 1) := by
  have h := (canvas_world_coverage sampleBlockRect
    { defaultOptions with orientation := Orientation.NE }
    (orientedMap sampleBlockRect Orientation.NE) (by decide) (by decide) (by decide)
    (by decide) rfl (Or.inl rfl) (Or.inr rfl) (by decide) (by decide) (by decide)
    (by decide)).2.2.1 1 2 (by decide)
  exact ⟨by decide, by decide, h.1, by decide⟩

/-! ## Argument validation -/

theorem parseLoop_from_to (isNumeric : String → Bool)
    (sa sb sc sd smin smax world : String)
    (hna : isNumeric sa = true) (hnb : isNumeric sb = true)
    (hnc : isNumeric sc = true) (hnd : isNumeric sd = true)
    (hnmin : isNumeric smin = true) (hnmax : isNumeric smax = true)
    (hw : world ∉ optionNames) :
    parseLoop isNumeric
        ["-from", sa, sb, "-to", sc, sd, "-min", smin, "-max", smax, world] defaultOptions =
      some { defaultOptions with
        fromX := atoi sa, fromZ := atoi sb,
        toX := toI32 (atoi sc + 1), toZ := toI32 (atoi sd + 1),
        mapMinY := atoi smin, mapMaxY := atoi smax, saveName := world } := by
  simp only [optionNames, List.mem_cons, List.mem_singleton, List.not_mem_nil, or_false,
    not_or] at hw
  obtain ⟨h1, h2, h3, h4, h5, h6, h7, h8, h9, h10, h11, h12⟩ := hw
  simp [parseLoop, hna, hnb, hnc, hnd, hnmin, hnmax, h1, h2, h3, h4, h5, h6, h7, h8, h9,
    h10, h11, h12]

/-- Claim C12: rectangle validation. For numeric `-from a b -to c d` (with
`c` and `d` below the largest `int`, so that `atoi(c) + 1` is an `int`)
given with a valid Y range `-min lo -max hi` (`hi - lo ≥ 1`, an `int`) and an
existing world path, `parseArgs` returns `true` if and only if `a ≤ c` and
`b ≤ d`, and the rectangle that `main` builds from the accepted options is
`minX = a`, `maxX = c`, `minZ = b`, `maxZ = d`. -/
theorem rectangle_validation (isNumeric pathExists : String → Bool)
    (sa sb sc sd smin smax world : String)
    (hna : isNumeric sa = true) (hnb : isNumeric sb = true)
    (hnc : isNumeric sc = true) (hnd : isNumeric sd = true)
    (hnmin : isNumeric smin = true) (hnmax : isNumeric smax = true)
    (hw : world ∉ optionNames) (hne : world ≠ "") (hex : pathExists world = true)
    (hc1 : -(2 ^ 31) ≤ atoi sc) (hc2 : atoi sc < 2 ^ 31 - 1)
    (hd1 : -(2 ^ 31) ≤ atoi sd) (hd2 : atoi sd < 2 ^ 31 - 1)
    (hy1 : 1 ≤ atoi smax - atoi smin) (hy2 : atoi smax - atoi smin < 2 ^ 31) :
    ((parseArgs isNumeric pathExists
        ["-from", sa, sb, "-to", sc, sd, "-min", smin, "-max", smax, world]).isSome = true ↔
      (atoi sa ≤ atoi sc ∧ atoi sb ≤ atoi sd)) ∧
    (∀ opts, parseArgs isNumeric pathExists
        ["-from", sa, sb, "-to", sc, sd, "-min", smin, "-max", smax, world] = some opts →
      mainCoords opts =
        { minX := atoi sa, maxX := atoi sc, minZ := atoi sb, maxZ := atoi sd }) := by
  have hloop := parseLoop_from_to isNumeric sa sb sc sd smin smax world hna hnb hnc hnd
    hnmin hnmax hw
  have e1 : toI32 (atoi sc + 1) = atoi sc + 1 := toI32_of_range (by omega) (by omega)
  have e2 : toI32 (atoi sd + 1) = atoi sd + 1 := toI32_of_range (by omega) (by omega)
  have e3 : toI32 (atoi smax - atoi smin) = atoi smax - atoi smin :=
    toI32_of_range (by omega) (by omega)
  unfold parseArgs
  rw [hloop]
  simp only [hne, hex, e1, e2, e3, false_or, Bool.true_eq_false, if_false]
  by_cases hacc : atoi sa ≤ atoi sc ∧ atoi sb ≤ atoi sd
  · have hcond : ¬ (atoi sc + 1 ≤ atoi sa ∨ atoi sd + 1 ≤ atoi sb) := by omega
    rw [if_neg hcond, if_neg (by omega)]
    refine ⟨⟨fun _ => hacc, fun _ => rfl⟩, ?_⟩
    intro opts hopts
    simp only [Option.some.injEq] at hopts
    rw [← hopts]
    have f1 : toI32 (atoi sc + 1 - 1) = atoi sc := by
      rw [toI32_of_range (by omega) (by omega)]; omega
    have f2 : toI32 (atoi sd + 1 - 1) = atoi sd := by
      rw [toI32_of_range (by omega) (by omega)]; omega
    unfold mainCoords
    simp only [f1, f2]
  · have hcond : atoi sc + 1 ≤ atoi sa ∨ atoi sd + 1 ≤ atoi sb := by omega
    rw [if_pos hcond]
    refine ⟨⟨fun h => by simp at h, fun h => absurd h hacc⟩, ?_⟩
    intro opts hopts
    simp at hopts

/-- Witness of C12: the single-block rectangle `-from 0 0 -to 0 0` is
accepted. -/
theorem rectangle_validation_witness :
    (parseArgs sampleIsNumeric (fun _ => true)
      ["-from", "0", "0", "-to", "0", "0", "-min", "0", "-max", "255",
        "saves/World1"]).isSome = true :=
  (rectangle_validation sampleIsNumeric (fun _ => true) "0" "0" "0" "0" "0" "255"
    "saves/World1" (by decide) (by decide) (by decide) (by decide) (by decide) (by decide)
    (by decide) (by decide) rfl (by decide) (by decide) (by decide) (by decide) (by decide)
    (by decide)).1.mpr ⟨by decide, by decide⟩

/-- Counterexample to C13: `-min 255 -max 256` is accepted, and the canvas
has `minY = 255` and `maxY = 0`: the bounds are not confined to 0..255 and
`minY ≤ maxY` fails. -/
theorem vertical_range_wraps :
    (parseArgs sampleIsNumeric (fun _ => true)
      ["-min", "255", "-max", "256", "-from", "0", "0", "-to", "0", "0", "saves/World1"]).map
        (fun o => (o.mapMinY, o.mapMaxY, (mkCanvas (mainCoords o) o).minY,
          (mkCanvas (mainCoords o) o).maxY)) = some (255, 256, 255, 0) ∧
    ¬ ((255 : Nat) ≤ 0) := by
  constructor <;> decide

theorem parseArgs_range (isNumeric pathExists : String → Bool) (args : List String)
    (opts : WorldOptions) (h : parseArgs isNumeric pathExists args = some opts) :
    1 ≤ toI32 (opts.mapMaxY - opts.mapMinY) ∧ opts.fromX < opts.toX ∧ opts.fromZ < opts.toZ := by
  unfold parseArgs at h
  cases hl : parseLoop isNumeric args defaultOptions with
  | none => rw [hl] at h; simp at h
  | some o =>
    rw [hl] at h
    simp only at h
    split at h
    · simp at h
    · split at h
      · simp at h
      · split at h
        · simp at h
        · rename_i h1 h2 h3
          simp only [Option.some.injEq] at h
          rw [← h]
          simp only
          omega

/-- Claim C13, amended: for every pair of `-min` / `-max` values that
`parseArgs` accepts, the canvas built from the options has `minY` and `maxY`
equal to the requested values reduced modulo 256; when both requested values
lie in 0..255, they are the requested values themselves and `minY ≤ maxY`. -/
theorem vertical_range (isNumeric pathExists : String → Bool) (args : List String)
    (opts : WorldOptions) (coords : Coordinates)
    (h : parseArgs isNumeric pathExists args = some opts) :
    (mkCanvas coords opts).minY = (opts.mapMinY % 256).toNat ∧
    (mkCanvas coords opts).maxY = (opts.mapMaxY % 256).toNat ∧
    (0 ≤ opts.mapMinY → opts.mapMinY ≤ 255 → 0 ≤ opts.mapMaxY → opts.mapMaxY ≤ 255 →
      ((mkCanvas coords opts).minY : Int) = opts.mapMinY ∧
      ((mkCanvas coords opts).maxY : Int) = opts.mapMaxY ∧
      (mkCanvas coords opts).minY ≤ (mkCanvas coords opts).maxY) := by
  have hr := (parseArgs_range isNumeric pathExists args opts h).1
  have hmin : (mkCanvas coords opts).minY = (opts.mapMinY % 256).toNat := rfl
  have hmax : (mkCanvas coords opts).maxY = (opts.mapMaxY % 256).toNat := rfl
  refine ⟨hmin, hmax, ?_⟩
  intro h1 h2 h3 h4
  rw [toI32_of_range (by omega) (by omega)] at hr
  rw [hmin, hmax]
  omega

/-- Witness of C13, amended: `-min 16 -max 64` gives a canvas with
`minY = 16` and `maxY = 64`. -/
theorem vertical_range_witness :
    parseArgs sampleIsNumeric (fun _ => true)
      ["-min", "16", "-max", "64", "-from", "0", "0", "-to", "0", "0", "saves/World1"]
        = some sampleRangeOptions ∧
    ((mkCanvas sampleBlockRect sampleRangeOptions).minY : Int) = 16 ∧
    ((mkCanvas sampleBlockRect sampleRangeOptions).maxY : Int) = 64 ∧
    (mkCanvas sampleBlockRect sampleRangeOptions).minY ≤
      (mkCanvas sampleBlockRect sampleRangeOptions).maxY := by
  have hp : parseArgs sampleIsNumeric (fun _ => true)
      ["-min", "16", "-max", "64", "-from", "0", "0", "-to", "0", "0", "saves/World1"]
        = some sampleRangeOptions := rfl
  have hv := (vertical_range sampleIsNumeric (fun _ => true) _ sampleRangeOptions
    sampleBlockRect hp).2.2 (by decide) (by decide) (by decide) (by decide)
  have h16 : sampleRangeOptions.mapMinY = 16 := by decide
  have h64 : sampleRangeOptions.mapMaxY = 64 := by decide
  rw [h16, h64] at hv
  exact ⟨hp, hv⟩

/-- Claim C14, evaluated at the failing input: with an existing world path as
the only argument, the loop leaves the four bounds at `UNDEFINED`, so
`wholeworld` is set, but the test `toX <= fromX` then holds and `parseArgs`
returns `false`. -/
theorem whole_world_rejected :
    (parseLoop sampleIsNumeric ["saves/World1"] defaultOptions).map
        (fun o => (o.saveName, o.fromX, o.toX, o.fromZ, o.toZ))
      = some ("saves/World1", UNDEFINED, UNDEFINED, UNDEFINED, UNDEFINED) ∧
    (parseArgs sampleIsNumeric (fun _ => true) ["saves/World1"]).isNone = true := by
  constructor <;> decide

/-! ## Reads of the dense decoder -/

theorem as_long_array_eq {t : NBT} {bs : List Int} (h : t.as_long_array = some bs) :
    t = NBT.tag_long_array bs := by
  cases t <;> simp [NBT.as_long_array] at h
  rw [h]

/-- Claim C21: sections tagged `PRE116` are read in bounds. For a palette of
1 to 4096 entries and a section that `tagSection` tags `PRE116`, the
`BlockStates` array has `64 * bits` longs with `bits` between 4 and 12, every
position `blockAtPre116` reads lies below that length for every `x`, `z`,
`y` (`skip_longs` always, `skip_longs + 1` when `overflow > 0`), and the
decoder returns what the palette holds at the index it extracted. -/
theorem pre116_reads_in_bounds (sec : NBT) (bs : List Int) (x z y : Nat)
    (_hpal1 : 1 ≤ (sec.child "Palette").size)
    (hpal : (sec.child "Palette").size ≤ 4096)
    (hbs : (sec.child "BlockStates").as_long_array = some bs)
    (htag : (tagSection sec).child "_type" = NBT.tag_byte PRE116) :
    4 ≤ blockLength (sec.child "Palette").size ∧
    blockLength (sec.child "Palette").size ≤ 12 ∧
    bs.length = 64 * blockLength (sec.child "Palette").size ∧
    (∀ p ∈ readsPre116 sec x z y, p < bs.length) ∧
    ∃ k, blockIndexPre116 sec x z y = some k ∧
      blockAtPre116 sec x z y = (sec.child "Palette").elemAt k := by
  have hL4 := blockLength_ge (sec.child "Palette").size
  have hL12 := blockLength_le hpal
  have hidx := cellIndex_lt x z y
  have hlen : bs.length = 64 * blockLength (sec.child "Palette").size := by
    rw [tagSection_type] at htag
    have hB := as_long_array_eq hbs
    rw [hB] at htag
    have hsz : (NBT.tag_long_array bs).size = bs.length := rfl
    rw [hsz] at htag
    by_cases h1 : (!sec.is_compound || !sec.contains "Palette") = true
    · rw [if_pos h1] at htag
      simp [SKIP, PRE116] at htag
    · rw [if_neg h1] at htag
      by_cases h2 : bs.length = (blockLength (sec.child "Palette").size * 64) % 2 ^ 64
      · rw [h2]; omega
      · rw [if_neg h2] at htag
        simp [POST116, PRE116] at htag
  refine ⟨hL4, hL12, hlen, ?_, ?_⟩
  all_goals
    generalize hLdef : blockLength (sec.child "Palette").size = L at hL4 hL12 hlen
    generalize hidef : cellIndex x z y = idx at hidx
    have hs : (idx * L) >>> 6 = idx * L / 64 := Nat.shiftRight_eq_div_pow _ 6
    have hp : (idx * L) &&& 63 = idx * L % 64 := Nat.and_pow_two_sub_one_eq_mod _ 6
    have hdm := Nat.div_add_mod (idx * L) 64
    have hplt : idx * L % 64 < 64 := Nat.mod_lt _ (by decide)
    have hbound : idx * L + L ≤ 4096 * L := by
      have : (idx + 1) * L ≤ 4096 * L := Nat.mul_le_mul_right L hidx
      rw [Nat.add_mul] at this; omega
    generalize hsdef : idx * L / 64 = s at hs hdm
    generalize hpdef : idx * L % 64 = p at hp hdm hplt
  · intro q hq
    unfold readsPre116 at hq
    simp only [hLdef, hidef, hs, hp] at hq
    by_cases hov : (0 : Int) < (p : Int) + (L : Int) - 64
    · rw [if_pos hov] at hq
      simp only [List.mem_cons, List.mem_singleton, List.not_mem_nil, or_false] at hq
      omega
    · rw [if_neg hov] at hq
      simp only [List.mem_singleton] at hq
      omega
  · unfold blockIndexPre116 blockAtPre116
    simp only [hbs, hLdef, hidef, hs, hp]
    have hs1 : s < bs.length := by omega
    rw [List.getElem?_eq_getElem hs1]
    by_cases hov : (0 : Int) < (p : Int) + (L : Int) - 64
    · have hs2 : s + 1 < bs.length := by omega
      simp only [if_pos hov, List.getElem?_eq_getElem hs2]
      exact ⟨_, rfl, rfl⟩
    · simp only [if_neg hov]
      exact ⟨_, rfl, rfl⟩

/-- Witness of C21: the dense section of seventeen shades has 320 longs and
five-bit indices. -/
theorem pre116_reads_in_bounds_witness :
    blockLength (samplePre17.child "Palette").size = 5 ∧
    ∀ p ∈ readsPre116 samplePre17 12 0 0, p < 320 := by
  have hsize : (samplePre17.child "BlockStates").size = 320 := by
    show (encodePre116 _ _).length = 320
    rw [encodePre116_length]; rfl
  have htag : (tagSection samplePre17).child "_type" = NBT.tag_byte PRE116 := by
    rw [tagSection_type, hsize]; rfl
  obtain ⟨_, _, hlen, hreads, _⟩ := pre116_reads_in_bounds samplePre17
    (encodePre116 (blockLength samplePalette17.length) sampleCells17) 12 0 0
    (by decide) (by decide) rfl htag
  have h320 : (encodePre116 (blockLength samplePalette17.length) sampleCells17).length = 320 := by
    rw [encodePre116_length]; rfl
  rw [h320] at hreads
  exact ⟨by decide, hreads⟩

/-! ## Shifts of signed words -/

theorem toU64_lt (w : Int) : toU64 w < 2 ^ 64 := by
  unfold toU64; omega

theorem toI64_toU64 {w : Int} (h1 : -(2 ^ 63) ≤ w) (h2 : w < 2 ^ 63) : toI64 (toU64 w) = w := by
  unfold toI64 toU64
  split <;> omega

theorem signed_shift_logical (w : Int) (p L : Nat) (h1 : -(2 ^ 63) ≤ w) (h2 : w < 2 ^ 63)
    (hpL : p + L ≤ 64) :
    toU64 (andI64 (w >>> p) (((1 <<< L : Nat) : Int) - 1)) =
      (toU64 w >>> p) &&& ((1 <<< L) - 1) := by
  have h := decode_signed_field (toU64 w) p L (toU64_lt w) hpL
  rw [toI64_toU64 h1 h2] at h
  rw [h, Nat.one_shiftLeft, Nat.and_pow_two_sub_one_eq_mod, Nat.shiftRight_eq_div_pow]

theorem masked_shift_logical (W p L : Nat) (hW : W < 2 ^ 64) :
    (W &&& ((((1 <<< L) - 1) <<< p) % 2 ^ 64)) >>> p = (W >>> p) &&& ((1 <<< L) - 1) := by
  apply Nat.eq_of_testBit_eq
  intro i
  rw [Nat.testBit_shiftRight, Nat.testBit_and, Nat.testBit_mod_two_pow, Nat.testBit_shiftLeft,
    Nat.one_shiftLeft, Nat.testBit_two_pow_sub_one, Nat.testBit_and, Nat.testBit_shiftRight,
    Nat.testBit_two_pow_sub_one]
  have e1 : p + i - p = i := by omega
  rw [e1]
  by_cases h64 : p + i < 64
  · have h2 : p + i ≥ p := by omega
    simp [h64, h2]
  · have hbit : W.testBit (p + i) = false := by
      apply Nat.testBit_lt_two_pow
      calc W < 2 ^ 64 := hW
        _ ≤ 2 ^ (p + i) := Nat.pow_le_pow_right (by decide) (by omega)
    simp [h64, hbit]

theorem toU64_andI64_mask (w : Int) (L : Nat) (hL : L ≤ 64) :
    toU64 (andI64 w (((1 <<< L : Nat) : Int) - 1)) = toU64 w &&& ((1 <<< L) - 1) := by
  unfold andI64
  rw [toU64_toI64, toU64_mask L hL, Nat.one_shiftLeft]
  apply Nat.mod_eq_of_lt
  exact Nat.lt_of_le_of_lt Nat.and_le_left (toU64_lt w)

theorem blockAtPost116_eq_bind (sec : NBT) (x z y : Nat) :
    blockAtPost116 sec x z y =
      (blockIndexPost116 sec x z y).bind (sec.child "Palette").elemAt := by
  unfold blockAtPost116 blockIndexPost116
  cases (sec.child "BlockStates").as_long_array with
  | none => rfl
  | some bs =>
    simp only
    split
    · rfl
    · split <;> rfl

theorem blockAtPre116_eq_bind (sec : NBT) (x z y : Nat) :
    blockAtPre116 sec x z y =
      (blockIndexPre116 sec x z y).bind (sec.child "Palette").elemAt := by
  unfold blockAtPre116 blockIndexPre116
  cases (sec.child "BlockStates").as_long_array with
  | none => rfl
  | some bs =>
    simp only
    split
    · rfl
    · split
      · split <;> rfl
      · rfl

theorem specIndexPost116_lt (bits : Nat) (words : List Nat) (index k : Nat)
    (h : specIndexPost116 bits words index = some k) : k < 2 ^ bits := by
  unfold specIndexPost116 at h
  simp only at h
  split at h
  · exact absurd h (by simp)
  · injection h with h
    rw [← h, Nat.one_shiftLeft, Nat.and_pow_two_sub_one_eq_mod]
    exact Nat.mod_lt _ (Nat.two_pow_pos bits)

theorem specIndexPre116_lt (bits : Nat) (words : List Nat) (index k : Nat)
    (h : specIndexPre116 bits words index = some k) : k < 2 ^ bits := by
  unfold specIndexPre116 at h
  simp only at h
  have hlow : ∀ (w s : Nat), (w >>> s) &&& ((1 <<< bits) - 1) < 2 ^ bits := by
    intro w s
    rw [Nat.one_shiftLeft, Nat.and_pow_two_sub_one_eq_mod]
    exact Nat.mod_lt _ (Nat.two_pow_pos bits)
  split at h
  · exact absurd h (by simp)
  · split at h
    · rename_i hov
      split at h
      · exact absurd h (by simp)
      · rename_i w1 _
        injection h with h
        rw [← h]
        apply Nat.or_lt_two_pow (hlow _ _)
        apply Nat.lt_of_le_of_lt (Nat.mod_le _ _)
        generalize hovdef : (index * bits &&& 63) + bits - 64 = ov
        have hovle : ov ≤ bits := by
          have : index * bits &&& 63 ≤ 63 := Nat.and_le_right
          omega
        have hup : w1 &&& ((1 <<< ov) - 1) < 2 ^ ov := by
          rw [Nat.one_shiftLeft, Nat.and_pow_two_sub_one_eq_mod]
          exact Nat.mod_lt _ (Nat.two_pow_pos ov)
        rw [Nat.shiftLeft_eq]
        calc (w1 &&& ((1 <<< ov) - 1)) * 2 ^ (bits - ov) < 2 ^ ov * 2 ^ (bits - ov) :=
              Nat.mul_lt_mul_of_pos_right hup (Nat.two_pow_pos _)
          _ = 2 ^ bits := by rw [← Nat.pow_add]; congr 1; omega
    · injection h with h
      rw [← h]
      exact hlow _ _

/-- Claim C22: shift semantics on negative longs. For a block index size
`bits` between 4 and 32, every cell and every `BlockStates` array of signed
64-bit words, also words with the top bit set, the block index that
`blockAtPost116` computes with its shift of the signed element, and the one
that `blockAtPre116` computes, equal the index obtained from the words read
as unsigned 64-bit values with logical shifts and the mask `(1 << bits) - 1`;
both decoders return the palette entry at that index, and the index is below
`2 ^ bits`. -/
theorem signed_shift_semantics (sec : NBT) (bs : List Int) (x z y : Nat)
    (hbs : (sec.child "BlockStates").as_long_array = some bs)
    (hw : ∀ w ∈ bs, -(2 ^ 63) ≤ w ∧ w < 2 ^ 63)
    (hbits : blockLength (sec.child "Palette").size ≤ 32) :
    4 ≤ blockLength (sec.child "Palette").size ∧
    blockIndexPost116 sec x z y =
      specIndexPost116 (blockLength (sec.child "Palette").size) (bs.map toU64)
        (cellIndex x z y) ∧
    blockIndexPre116 sec x z y =
      specIndexPre116 (blockLength (sec.child "Palette").size) (bs.map toU64)
        (cellIndex x z y) ∧
    blockAtPost116 sec x z y =
      (blockIndexPost116 sec x z y).bind (sec.child "Palette").elemAt ∧
    blockAtPre116 sec x z y =
      (blockIndexPre116 sec x z y).bind (sec.child "Palette").elemAt ∧
    (∀ k, blockIndexPost116 sec x z y = some k →
      k < 2 ^ blockLength (sec.child "Palette").size) ∧
    (∀ k, blockIndexPre116 sec x z y = some k →
      k < 2 ^ blockLength (sec.child "Palette").size) := by
  have hL4 := blockLength_ge (sec.child "Palette").size
  have hpost : blockIndexPost116 sec x z y =
      specIndexPost116 (blockLength (sec.child "Palette").size) (bs.map toU64)
        (cellIndex x z y) := by
    unfold blockIndexPost116 specIndexPost116
    simp only [hbs]
    generalize blockLength (sec.child "Palette").size = L at hL4 hbits ⊢
    generalize cellIndex x z y = idx
    have hbpl2 : 2 ≤ 64 / L := by
      rw [Nat.le_div_iff_mul_le (by omega)]; omega
    have hbpl16 : 64 / L ≤ 16 := by
      apply Nat.div_le_of_le_mul; omega
    have hbplL : 64 / L * L ≤ 64 := Nat.div_mul_le_self 64 L
    generalize 64 / L = bpl at hbpl2 hbpl16 hbplL
    have hmod : bpl % 256 = bpl := Nat.mod_eq_of_lt (by omega)
    rw [hmod, if_neg (by omega), List.getElem?_map]
    have hk : idx % bpl < bpl := Nat.mod_lt _ (by omega)
    have hdm := Nat.div_add_mod idx bpl
    have hpad : idx - idx / bpl * bpl = idx % bpl := by
      rw [Nat.mul_comm]; omega
    have hpL : idx % bpl * L + L ≤ 64 := by
      have : (idx % bpl + 1) * L ≤ bpl * L := Nat.mul_le_mul_right L hk
      rw [Nat.add_mul] at this
      omega
    rw [hpad]
    cases hget : bs[idx / bpl]? with
    | none => rfl
    | some w =>
      have hr := hw w (List.getElem?_mem hget)
      simp only [Option.map_some']
      rw [signed_shift_logical w _ L hr.1 hr.2 hpL]
  have hpre : blockIndexPre116 sec x z y =
      specIndexPre116 (blockLength (sec.child "Palette").size) (bs.map toU64)
        (cellIndex x z y) := by
    unfold blockIndexPre116 specIndexPre116
    simp only [hbs]
    generalize blockLength (sec.child "Palette").size = L at hL4 hbits ⊢
    generalize cellIndex x z y = idx
    have hplt : idx * L &&& 63 ≤ 63 := Nat.and_le_right
    generalize idx * L &&& 63 = p at hplt
    generalize (idx * L) >>> 6 = s
    rw [List.getElem?_map, List.getElem?_map]
    cases bs[s]? with
    | none => rfl
    | some w =>
      simp only [Option.map_some']
      rw [masked_shift_logical (toU64 w) p L (toU64_lt w)]
      by_cases hov : 64 < p + L
      · have hposov : (0 : Int) < (p : Int) + (L : Int) - 64 := by omega
        have htoNat : ((p : Int) + (L : Int) - 64).toNat = p + L - 64 := by omega
        rw [if_pos hposov, if_pos hov]
        cases bs[s + 1]? with
        | none => rfl
        | some w1 =>
          simp only [Option.map_some', htoNat]
          rw [toU64_andI64_mask w1 (p + L - 64) (by omega)]
      · have hneg : ¬ (0 : Int) < (p : Int) + (L : Int) - 64 := by omega
        rw [if_neg hneg, if_neg hov]
  refine ⟨hL4, hpost, hpre, blockAtPost116_eq_bind sec x z y, blockAtPre116_eq_bind sec x z y,
    ?_, ?_⟩
  · intro k hk
    rw [hpost] at hk
    exact specIndexPost116_lt _ _ _ _ hk
  · intro k hk
    rw [hpre] at hk
    exact specIndexPre116_lt _ _ _ _ hk

/-- Witness of C22: a section whose first word is `-1`. The arithmetic shift
keeps every bit set, the mask leaves the five-bit index 31, and the palette
of seventeen shades has no entry there. -/
theorem signed_shift_semantics_witness :
    blockIndexPost116 sampleNegativeWords 3 0 0 = some 31 ∧
    blockIndexPre116 sampleNegativeWords 12 0 0 = some 15 ∧
    blockAtPost116 sampleNegativeWords 3 0 0 = none := by
  obtain ⟨_, hpost, _, hat, _, _, _⟩ := signed_shift_semantics sampleNegativeWords
    [-1, -(2 ^ 63), -6148914691236517206] 3 0 0 rfl (by decide) (by decide)
  obtain ⟨_, _, hpre, _, _, _, _⟩ := signed_shift_semantics sampleNegativeWords
    [-1, -(2 ^ 63), -6148914691236517206] 12 0 0 rfl (by decide) (by decide)
  have h1 : specIndexPost116 (blockLength (sampleNegativeWords.child "Palette").size)
      (([-1, -(2 ^ 63), -6148914691236517206] : List Int).map toU64) (cellIndex 3 0 0)
      = some 31 := by decide
  have h2 : specIndexPre116 (blockLength (sampleNegativeWords.child "Palette").size)
      (([-1, -(2 ^ 63), -6148914691236517206] : List Int).map toU64) (cellIndex 12 0 0)
      = some 15 := by decide
  rw [hat, hpost, hpre, h1, h2]
  exact ⟨rfl, rfl, rfl⟩

/-! ## Cells of absolute coordinates -/

theorem toU8_mod_16 (x : Int) : ((toU8 x % 16 : Nat) : Int) = x % 16 := by
  unfold toU8; omega

/-- Claim C23: cell index from absolute coordinates. For all world
coordinates `x`, `z`, `y`, negative ones included, the cell index computed
from the coordinates as `block` narrows them to `uint8_t` is
`(x mod 16) + 16 * (z mod 16) + 256 * (y mod 16)` with the floor modulo and
lies below 4096; every decoder of the table `getBlock` returns the same for
the narrowed coordinates as for the three remainders; and
`16 * (x >> 4) + (x mod 16) = x`, likewise for `z` and `y`, so the cell is
the one of chunk `CHUNK(x)`, `CHUNK(z)` and section `y >> 4`. -/
theorem cell_of_world_coordinates (x z y : Int) :
    ((cellIndex (toU8 x) (toU8 z) (toU8 y) : Nat) : Int) =
      x % 16 + 16 * (z % 16) + 256 * (y % 16) ∧
    cellIndex (toU8 x) (toU8 z) (toU8 y) < 4096 ∧
    (∀ (ty : Int) (decoder : NBT → Nat → Nat → Nat → Option NBT) (sec : NBT),
      getBlock ty = some decoder →
      decoder sec (toU8 x) (toU8 z) (toU8 y) =
        decoder sec (x % 16).toNat (z % 16).toNat (y % 16).toNat) ∧
    16 * CHUNK x + x % 16 = x ∧ 16 * CHUNK z + z % 16 = z ∧
    16 * (y >>> 4) + y % 16 = y := by
  have hx := toU8_mod_16 x
  have hz := toU8_mod_16 z
  have hy := toU8_mod_16 y
  have hcell : cellIndex (toU8 x) (toU8 z) (toU8 y) =
      cellIndex (x % 16).toNat (z % 16).toNat (y % 16).toNat := by
    rw [cellIndex_eq, cellIndex_eq]; omega
  have hsh : ∀ c : Int, 16 * (c >>> 4) + c % 16 = c := by
    intro c
    have e : c >>> 4 = c / 16 := shiftRight_int c 4
    rw [e]; omega
  refine ⟨?_, cellIndex_lt _ _ _, ?_, hsh x, hsh z, hsh y⟩
  · rw [cellIndex_eq]; omega
  · intro ty decoder sec hdec
    unfold getBlock at hdec
    split at hdec
    · injection hdec with hdec
      rw [← hdec]; rfl
    · split at hdec
      · injection hdec with hdec
        rw [← hdec]
        unfold blockAtPre116
        rw [hcell]
      · split at hdec
        · injection hdec with hdec
          rw [← hdec]
          unfold blockAtPost116
          rw [hcell]
        · exact absurd hdec (by simp)

/-- Witness of C23: the block at `x = -1`, `z = -17`, `y = 70` is cell
`15 + 16 * 15 + 256 * 6` of the chunk `(-1, -2)`, in section 4. -/
theorem cell_of_world_coordinates_witness :
    cellIndex (toU8 (-1)) (toU8 (-17)) (toU8 70) = 1791 ∧
    CHUNK (-1) = -1 ∧ CHUNK (-17) = -2 ∧ (70 : Int) >>> 4 = 4 := by
  obtain ⟨hcell, _, _, hx, hz, hy⟩ := cell_of_world_coordinates (-1) (-17) 70
  refine ⟨?_, ?_, ?_, ?_⟩ <;> omega

end Mcmap
